import Mathlib

/-!
The library `kmt::channel`: chunked queue, SPSC pipeline and channel façade.

Shallow embedding of `src/channel.hpp`, executed by one thread at a time
(every operation runs to completion before the next one starts).

Conventions of the embedding:

* A chunk pointer is `Option Nat`: `none` is `nullptr`, `some i` is the block
  returned by the `i`-th call of `malloc` (block identities are never reused,
  so a block that was freed stays distinguishable from every later block).
* A slot pointer (`T *`) is `Option (Nat × Nat)`: `none` is `nullptr`,
  `some (i, k)` is the address of `values[k]` inside block `i`.
* Memory returned by `malloc` is indeterminate: a slot that was never stored
  holds `none`, a link field that was never stored holds `none`.
* An operation returns `none` when the C++ code would have undefined behaviour
  (dereferencing `nullptr`, touching a freed block, reading an indeterminate
  slot or link, indexing outside `values`), and for the two loops of the
  source, when the given fuel is exhausted.
* `malloc` always succeeds (the source aborts otherwise); `free` only records
  its argument, so that every call of `free` can be inspected afterwards.
-/

namespace kmt

variable {T : Type}

/-- Pointer to a chunk: `none` is `nullptr`. -/
abbrev chunk_ptr := Option Nat

/-- Pointer to an element slot (`T *`): `none` is `nullptr`, `some (i, k)` is
`&chunk_i->values[k]`. -/
abbrev slot_ptr := Option (Nat × Nat)

/-! ## atomic_pointer -/

/-- The class `atomic_pointer<T>`: one pointer cell. -/
structure atomic_pointer (α : Type) where
  _ptr : Option α
deriving DecidableEq, Repr

/-- The constructor `atomic_pointer()`: the cell holds `nullptr`. -/
def atomic_pointer.init {α : Type} : atomic_pointer α := ⟨none⟩

/-- The method `set(ptr_)`. -/
def atomic_pointer.set {α : Type} (_a : atomic_pointer α) (ptr_ : Option α) :
    atomic_pointer α := ⟨ptr_⟩

/-- The method `xchg(val_)`: stores `val_`, returns the previous content. -/
def atomic_pointer.xchg {α : Type} (a : atomic_pointer α) (val_ : Option α) :
    Option α × atomic_pointer α := (a._ptr, ⟨val_⟩)

/-- The method `cas(cmp_, val_)`: `compare_exchange_strong` stores `val_` when
the cell equals `cmp_` and otherwise loads the cell into `cmp_`; the method
returns `cmp_`. -/
def atomic_pointer.cas {α : Type} [DecidableEq α] (a : atomic_pointer α)
    (cmp_ val_ : Option α) : Option α × atomic_pointer α :=
  if a._ptr = cmp_ then (cmp_, ⟨val_⟩) else (a._ptr, a)

/-! ## The chunk heap -/

/-- The struct `chunk_t`: `N` slots and two links. A slot or a link that was
never stored since `malloc` is `none`. -/
structure chunk_t (T : Type) where
  values : List (Option T)
  prev : Option chunk_ptr
  next : Option chunk_ptr
deriving DecidableEq, Repr

/-- The heap as far as the queue uses it: `blocks[i]` is the memory of the
block returned by the `i`-th `malloc`, `freed` lists the arguments of the calls
of `free` (latest first, null pointers left out). -/
structure heap (T : Type) where
  blocks : List (chunk_t T)
  freed : List Nat
deriving DecidableEq, Repr

/-- The heap before any allocation. -/
def heap.empty : heap T := ⟨[], []⟩

/-- The call `malloc(sizeof(chunk_t))`: a new block with indeterminate
contents. -/
def heap.malloc (N : Nat) (h : heap T) : Nat × heap T :=
  (h.blocks.length,
    { h with blocks := h.blocks ++ [⟨List.replicate N none, none, none⟩] })

/-- The call `free(p)`: nothing for `nullptr`, otherwise the block is
recorded as freed. -/
def heap.free (h : heap T) (p : chunk_ptr) : heap T :=
  match p with
  | none => h
  | some i => { h with freed := i :: h.freed }

/-- Dereference of a chunk pointer: defined for an allocated block that was
not freed. -/
def heap.get (h : heap T) (p : chunk_ptr) : Option (chunk_t T) :=
  match p with
  | none => none
  | some i => if i ∈ h.freed then none else h.blocks[i]?

/-- Overwrite the memory of the block behind a chunk pointer. -/
def heap.put (h : heap T) (p : chunk_ptr) (c : chunk_t T) : Option (heap T) :=
  match p with
  | none => none
  | some i =>
    if i ∈ h.freed then none
    else if i < h.blocks.length then some { h with blocks := h.blocks.set i c }
    else none

/-- The load `p->next`. -/
def heap.load_next (h : heap T) (p : chunk_ptr) : Option chunk_ptr :=
  match h.get p with
  | none => none
  | some c => c.next

/-- The store `p->next = x`. -/
def heap.store_next (h : heap T) (p x : chunk_ptr) : Option (heap T) :=
  match h.get p with
  | none => none
  | some c => h.put p { c with next := some x }

/-- The store `p->prev = x`. -/
def heap.store_prev (h : heap T) (p x : chunk_ptr) : Option (heap T) :=
  match h.get p with
  | none => none
  | some c => h.put p { c with prev := some x }

/-- The load `*a` of an element slot. -/
def heap.load (h : heap T) (a : Nat × Nat) : Option T :=
  match h.get (some a.1) with
  | none => none
  | some c =>
    match c.values[a.2]? with
    | none => none
    | some v => v

/-- The store `*a = v` into an element slot. -/
def heap.store (h : heap T) (a : Nat × Nat) (v : T) : Option (heap T) :=
  match h.get (some a.1) with
  | none => none
  | some c =>
    if a.2 < c.values.length then
      h.put (some a.1) { c with values := c.values.set a.2 (some v) }
    else none

/-! ## queue -/

/-- The class `queue<T, N>` together with the heap its chunks live in. -/
structure queue (T : Type) where
  mem : heap T
  _begin_chunk : chunk_ptr
  _begin_pos : Nat
  _back_chunk : chunk_ptr
  _back_pos : Nat
  _end_chunk : chunk_ptr
  _end_pos : Nat
  _spare_chunk : atomic_pointer Nat
deriving DecidableEq, Repr

/-- The constructor `queue()`. -/
def queue.init (N : Nat) : queue T :=
  let a := heap.malloc N (heap.empty : heap T)
  { mem := a.2
    _begin_chunk := some a.1
    _begin_pos := 0
    _back_chunk := none
    _back_pos := 0
    _end_chunk := some a.1
    _end_pos := 0
    _spare_chunk := atomic_pointer.init }

/-- The method `front()`: the address `&_begin_chunk->values[_begin_pos]`. -/
def queue.front (q : queue T) : Option (Nat × Nat) :=
  match q._begin_chunk with
  | none => none
  | some b => some (b, q._begin_pos)

/-- The method `back()`: the address `&_back_chunk->values[_back_pos]`. -/
def queue.back (q : queue T) : Option (Nat × Nat) :=
  match q._back_chunk with
  | none => none
  | some b => some (b, q._back_pos)

/-- The method `push()`. -/
def queue.push (N : Nat) (q : queue T) : Option (queue T) :=
  let q1 := { q with _back_chunk := q._end_chunk, _back_pos := q._end_pos }
  let q2 := { q1 with _end_pos := q1._end_pos + 1 }
  if q2._end_pos ≠ N then some q2
  else
    let x := q2._spare_chunk.xchg none
    let q3 := { q2 with _spare_chunk := x.2 }
    match x.1 with
    | some sc =>
      match q3.mem.store_next q3._end_chunk (some sc) with
      | none => none
      | some m1 =>
        match m1.store_prev (some sc) q3._end_chunk with
        | none => none
        | some m2 =>
          match m2.load_next q3._end_chunk with
          | none => none
          | some nx => some { q3 with mem := m2, _end_chunk := nx, _end_pos := 0 }
    | none =>
      let a := q3.mem.malloc N
      match a.2.store_next q3._end_chunk (some a.1) with
      | none => none
      | some m1 =>
        match m1.load_next q3._end_chunk with
        | none => none
        | some nx =>
          match m1.store_prev nx q3._end_chunk with
          | none => none
          | some m2 =>
            match m2.load_next q3._end_chunk with
            | none => none
            | some nx2 => some { q3 with mem := m2, _end_chunk := nx2, _end_pos := 0 }

/-- The method `pop()`. -/
def queue.pop (N : Nat) (q : queue T) : Option (queue T) :=
  let q1 := { q with _begin_pos := q._begin_pos + 1 }
  if q1._begin_pos = N then
    let o := q1._begin_chunk
    match q1.mem.load_next q1._begin_chunk with
    | none => none
    | some nx =>
      match q1.mem.store_prev nx none with
      | none => none
      | some m1 =>
        let x := q1._spare_chunk.xchg o
        some { q1 with mem := m1.free x.1, _begin_chunk := nx, _begin_pos := 0,
                       _spare_chunk := x.2 }
  else some q1

/-- The loop of the destructor `~queue()`, at most `fuel` iterations. -/
def queue.dtor_loop : Nat → queue T → Option (queue T)
  | 0, _ => none
  | fuel + 1, q =>
    if q._begin_chunk = q._end_chunk then
      some { q with mem := q.mem.free q._begin_chunk }
    else
      let o := q._begin_chunk
      match q.mem.load_next q._begin_chunk with
      | none => none
      | some nx => queue.dtor_loop fuel { q with mem := q.mem.free o, _begin_chunk := nx }

/-- The destructor `~queue()`. -/
def queue.dtor (fuel : Nat) (q : queue T) : Option (queue T) :=
  match queue.dtor_loop fuel q with
  | none => none
  | some q1 =>
    let x := q1._spare_chunk.xchg none
    some { q1 with mem := q1.mem.free x.1, _spare_chunk := x.2 }

/-! ## pipeline -/

/-- The class `pipeline<T, N>`. -/
structure pipeline (T : Type) where
  _queue : queue T
  _w : slot_ptr
  _r : slot_ptr
  _f : slot_ptr
  _c : atomic_pointer (Nat × Nat)
deriving DecidableEq, Repr

/-- The constructor `pipeline()`. -/
def pipeline.init (N : Nat) : Option (pipeline T) :=
  match (queue.init N : queue T).push N with
  | none => none
  | some q =>
    match q.back with
    | none => none
    | some b =>
      some { _queue := q, _w := some b, _r := some b, _f := some b,
             _c := (atomic_pointer.init).set (some b) }

/-- The method `write(value_)`. -/
def pipeline.write (N : Nat) (p : pipeline T) (value_ : T) : Option (pipeline T) :=
  match p._queue.back with
  | none => none
  | some b =>
    match p._queue.mem.store b value_ with
    | none => none
    | some m =>
      match ({ p._queue with mem := m }).push N with
      | none => none
      | some q =>
        match q.back with
        | none => none
        | some b1 => some { p with _queue := q, _f := some b1 }

/-- The method `flush()`. -/
def pipeline.flush (p : pipeline T) : Bool × pipeline T :=
  if p._w = p._f then (true, p)
  else
    let x := p._c.cas p._w p._f
    if x.1 ≠ p._w then (false, { p with _c := x.2.set p._f, _w := p._f })
    else (true, { p with _c := x.2, _w := p._f })

/-- The method `check_read()`. -/
def pipeline.check_read (p : pipeline T) : Option (Bool × pipeline T) :=
  match p._queue.front with
  | none => none
  | some fr =>
    if some fr ≠ p._r ∧ p._r ≠ none then some (true, p)
    else
      let x := p._c.cas (some fr) none
      let p1 := { p with _r := x.1, _c := x.2 }
      if some fr = p1._r ∨ p1._r = none then some (false, p1) else some (true, p1)

/-- The method `read(value_)`: the second component is the content of
`*value_` afterwards, given its content `value_` before. -/
def pipeline.read (N : Nat) (p : pipeline T) (value_ : T) :
    Option (Bool × T × pipeline T) :=
  match p.check_read with
  | none => none
  | some (false, p1) => some (false, value_, p1)
  | some (true, p1) =>
    match p1._queue.front with
    | none => none
    | some fr =>
      match p1._queue.mem.load fr with
      | none => none
      | some v =>
        match p1._queue.pop N with
        | none => none
        | some q => some (true, v, { p1 with _queue := q })

/-- The destructor `~pipeline()`: its body is empty, the member `_queue` is
destroyed. -/
def pipeline.dtor (fuel : Nat) (p : pipeline T) : Option (pipeline T) :=
  match p._queue.dtor fuel with
  | none => none
  | some q => some { p with _queue := q }

/-! ## channel -/

/-- The function `timeout(ms)`: the duration of `ms` microseconds, as its
count. -/
def timeout (ms : Int) : Int := ms

/-- The class `channel<T, N>`; `timeout_` is never assigned (`none`). -/
structure channel (T : Type) where
  pipe_ : pipeline T
  timeout_ : Option Int
deriving DecidableEq, Repr

/-- Construction of a channel: the member `pipe_` is constructed. -/
def channel.init (N : Nat) : Option (channel T) :=
  match (pipeline.init N : Option (pipeline T)) with
  | none => none
  | some p => some { pipe_ := p, timeout_ := none }

/-- The operator `out << x` for an element. -/
def channel.append (N : Nat) (out : channel T) (x : T) : Option (channel T) :=
  match out.pipe_.write N x with
  | none => none
  | some p => some { out with pipe_ := p }

/-- The operator `in >> x`: the loop `while (!in.pipe_.read(&x));`, at most
`fuel` iterations; the second component is `x` afterwards. -/
def channel.receive (N : Nat) : Nat → channel T → T → Option (channel T × T)
  | 0, _, _ => none
  | fuel + 1, c, x =>
    match c.pipe_.read N x with
    | none => none
    | some (true, x1, p) => some ({ c with pipe_ := p }, x1)
    | some (false, x1, p) => channel.receive N fuel { c with pipe_ := p } x1

/-- The operator `out << x` for a duration. -/
def channel.append_timeout (out : channel T) (_x : Int) : channel T := out

/-- The operator `out << end`. -/
def channel.append_end (out : channel T) : channel T :=
  { out with pipe_ := out.pipe_.flush.2 }

/-! ## Operation sequences -/

/-- One pipeline operation; `read x` is a call `read(&x)` whose destination
holds `x` before the call. -/
inductive op (T : Type) where
  | write (v : T)
  | flush
  | check_read
  | read (x : T)
deriving DecidableEq, Repr

/-- What an operation returns: nothing (`write`), a flag (`flush`,
`check_read`), or a flag and the content of the destination afterwards
(`read`). -/
inductive res (T : Type) where
  | done
  | flag (b : Bool)
  | got (ok : Bool) (x : T)
deriving DecidableEq, Repr

/-- One operation applied to a pipeline. -/
def pipeline.step (N : Nat) (p : pipeline T) : op T → Option (res T × pipeline T)
  | op.write v =>
    match p.write N v with
    | none => none
    | some p1 => some (res.done, p1)
  | op.flush => some (res.flag p.flush.1, p.flush.2)
  | op.check_read =>
    match p.check_read with
    | none => none
    | some (b, p1) => some (res.flag b, p1)
  | op.read x =>
    match p.read N x with
    | none => none
    | some (b, x1, p1) => some (res.got b x1, p1)

/-- A sequence of operations applied one at a time; the results are listed in
the order of the operations. -/
def pipeline.run (N : Nat) : List (op T) → pipeline T → Option (List (res T) × pipeline T)
  | [], p => some ([], p)
  | o :: os, p =>
    match p.step N o with
    | none => none
    | some (r, p1) =>
      match pipeline.run N os p1 with
      | none => none
      | some (rs, p2) => some (r :: rs, p2)

/-- A sequence of operations applied to a freshly constructed pipeline. -/
def pipeline.run_fresh (N : Nat) (os : List (op T)) : Option (List (res T) × pipeline T) :=
  match (pipeline.init N : Option (pipeline T)) with
  | none => none
  | some p => pipeline.run N os p

/-! ## Observations on a history -/

/-- The values written, in write order. -/
def written : List (op T) → List T
  | [] => []
  | op.write v :: os => v :: written os
  | _ :: os => written os

/-- The values delivered by the successful reads, in order. -/
def delivered : List (res T) → List T
  | [] => []
  | res.got true x :: rs => x :: delivered rs
  | _ :: rs => delivered rs

/-- The number of writes made before the most recent call of `flush` in a
history that continues, with the given operations, a history of `w` writes of
which `f` were made before its most recent call of `flush`. -/
def flushed_from : Nat → Nat → List (op T) → Nat
  | _, f, [] => f
  | w, f, op.write _ :: os => flushed_from (w + 1) f os
  | w, _, op.flush :: os => flushed_from w w os
  | w, f, op.check_read :: os => flushed_from w f os
  | w, f, op.read _ :: os => flushed_from w f os

/-- The number of writes made before the most recent call of `flush`
(`0` when `flush` was never called). -/
def flushed_writes (os : List (op T)) : Nat := flushed_from 0 0 os

/-- The result of a `check_read` or `read` that returned false. -/
def res.failed : res T → Bool
  | res.flag false => true
  | res.got false _ => true
  | _ => false

/-- The flush-parked signal along a history of operations with their results.
`parked`: a `check_read` or `read` has returned false and no `flush` that
followed a write has been called since. `pending`: a write has been made since
the last call of `flush` (or since construction). Every `flush` of the history
returns false exactly when both hold at its call. -/
def flush_signal : Bool → Bool → List (op T × res T) → Prop
  | _, _, [] => True
  | parked, _, (op.write _, _) :: h => flush_signal parked true h
  | parked, pending, (op.flush, r) :: h =>
    r = res.flag (!(parked && pending)) ∧ flush_signal (parked && !pending) false h
  | parked, pending, (op.check_read, r) :: h => flush_signal (parked || r.failed) pending h
  | parked, pending, (op.read _, r) :: h => flush_signal (parked || r.failed) pending h

/-- The lock-step workload: for every value in turn, write it, flush, read
(into a destination that holds `x`). -/
def lockstep (x : T) : List T → List (op T)
  | [] => []
  | v :: vs => op.write v :: op.flush :: op.read x :: lockstep x vs

/-! ## Observations on the chunk heap -/

/-- The chunks met when following `next` from `a` until `b` is reached, at most
`fuel` chunks. -/
def heap.chain (h : heap T) : Nat → chunk_ptr → chunk_ptr → Option (List Nat)
  | 0, _, _ => none
  | fuel + 1, a, b =>
    match a with
    | none => none
    | some i =>
      if a = b then some [i]
      else
        match h.load_next a with
        | none => none
        | some nx =>
          match heap.chain h fuel nx b with
          | none => none
          | some l => some (i :: l)

/-- The live list: the chunks from `_begin_chunk` to `_end_chunk`. -/
def queue.live_chunks (q : queue T) : Option (List Nat) :=
  q.mem.chain q.mem.blocks.length q._begin_chunk q._end_chunk

/-- The next call of `push()` takes its new tail chunk from the spare slot: the
tail chunk is full and the spare slot holds a chunk. -/
def queue.takes_spare (N : Nat) (q : queue T) : Bool :=
  decide (q._end_pos + 1 = N) && (q._spare_chunk._ptr).isSome

/-! ## Channel operation sequences -/

/-- One channel operation: `out << x`, `out << end`, `out << d` for a
duration, and `in >> x` for a destination that holds `x`. -/
inductive cop (T : Type) where
  | put (x : T)
  | put_end
  | put_timeout (d : Int)
  | get (x : T)
deriving DecidableEq, Repr

/-- Whether the operation appends a value. -/
def cop.is_put : cop T → Bool
  | cop.put _ => true
  | _ => false

/-- One channel operation; a receive yields the value received, its loop runs
at most `fuel` times. -/
def channel.step (N fuel : Nat) (c : channel T) : cop T → Option (Option T × channel T)
  | cop.put x =>
    match c.append N x with
    | none => none
    | some c1 => some (none, c1)
  | cop.put_end => some (none, c.append_end)
  | cop.put_timeout d => some (none, c.append_timeout d)
  | cop.get x =>
    match c.receive N fuel x with
    | none => none
    | some (c1, x1) => some (some x1, c1)

/-- A sequence of channel operations applied one at a time; the values
received are listed in order. -/
def channel.run (N fuel : Nat) : List (cop T) → channel T → Option (List T × channel T)
  | [], c => some ([], c)
  | o :: os, c =>
    match c.step N fuel o with
    | none => none
    | some (r, c1) =>
      match channel.run N fuel os c1 with
      | none => none
      | some (rs, c2) => some (r.toList ++ rs, c2)

/-- A sequence of channel operations applied to a freshly constructed channel. -/
def channel.run_fresh (N fuel : Nat) (os : List (cop T)) : Option (List T × channel T) :=
  match (channel.init N : Option (channel T)) with
  | none => none
  | some c => channel.run N fuel os c

/-- The number of appends in a sequence of channel operations whose `push()`
takes its new tail chunk from the spare slot. -/
def channel.spare_reuses (N fuel : Nat) : List (cop T) → channel T → Option Nat
  | [], _ => some 0
  | o :: os, c =>
    match c.step N fuel o with
    | none => none
    | some (_, c1) =>
      match channel.spare_reuses N fuel os c1 with
      | none => none
      | some n => some (if o.is_put && c.pipe_._queue.takes_spare N then n + 1 else n)

/-- The number of appends whose `push()` takes its new tail chunk from the
spare slot, in a sequence of channel operations applied to a freshly
constructed channel. -/
def channel.spare_reuses_fresh (N fuel : Nat) (os : List (cop T)) : Option Nat :=
  match (channel.init N : Option (channel T)) with
  | none => none
  | some c => channel.spare_reuses N fuel os c

/-- The producer side of a history: `some v` appends `v`, `none` appends the
flush marker. -/
def sends : List (Option T) → List (cop T)
  | [] => []
  | some v :: ms => cop.put v :: sends ms
  | none :: ms => cop.put_end :: sends ms

/-! ## Queue operation sequences -/

/-- One queue operation: `push()` or `pop()`. -/
inductive qop where
  | push
  | pop
deriving DecidableEq, Repr

/-- One queue operation applied to a queue. -/
def queue.step (N : Nat) (q : queue T) : qop → Option (queue T)
  | qop.push => q.push N
  | qop.pop => q.pop N

/-- A sequence of queue operations applied one at a time. -/
def queue.run (N : Nat) : List qop → queue T → Option (queue T)
  | [], q => some q
  | o :: os, q =>
    match q.step N o with
    | none => none
    | some q1 => queue.run N os q1

/-- The number of calls of `push()` in a sequence. -/
def pushes : List qop → Nat
  | [] => 0
  | qop.push :: os => pushes os + 1
  | qop.pop :: os => pushes os

/-- The number of calls of `pop()` in a sequence. -/
def pops : List qop → Nat
  | [] => 0
  | qop.push :: os => pops os
  | qop.pop :: os => pops os + 1

/-- Every `pop()` of the sequence is applied while a pushed slot remains
un-popped, `n` pushed slots being un-popped at the start. -/
def pops_allowed : Nat → List qop → Bool
  | _, [] => true
  | n, qop.push :: os => pops_allowed (n + 1) os
  | 0, qop.pop :: _ => false
  | n + 1, qop.pop :: os => pops_allowed n os

/-- The end slot: the address `&_end_chunk->values[_end_pos]`. -/
def queue.end_slot (q : queue T) : Option (Nat × Nat) :=
  match q._end_chunk with
  | none => none
  | some e => some (e, q._end_pos)

/-- The linear order of slots along the chunk list `L`: chunk order first,
then position; both slots lie in chunks of the list. -/
def slot_le (L : List Nat) (a b : Nat × Nat) : Prop :=
  a.1 ∈ L ∧ b.1 ∈ L ∧ (L.indexOf a.1 < L.indexOf b.1 ∨ (a.1 = b.1 ∧ a.2 ≤ b.2))

/-! ## Slot events -/

/-- What an operation does to element slots: `stored a` is a `write` that
stores its value into slot `a`, `published` is a call of `flush`, `loaded a` is
a successful `read` that copies its value from slot `a`. -/
inductive slot_event where
  | stored (a : Nat × Nat)
  | published
  | loaded (a : Nat × Nat)
deriving DecidableEq, Repr

/-- The slot events of one operation applied in state `p` with result `r`:
`write` stores into `_queue.back()`, a successful `read` copies from
`_queue.front()`. -/
def pipeline.event_of (p : pipeline T) : op T → res T → List slot_event
  | op.write _, _ => ((p._queue.back).toList).map slot_event.stored
  | op.flush, _ => [slot_event.published]
  | op.read _, res.got true _ => ((p._queue.front).toList).map slot_event.loaded
  | _, _ => []

/-- The slot events of a sequence of operations, in order. -/
def pipeline.events (N : Nat) : List (op T) → pipeline T → Option (List slot_event)
  | [], _ => some []
  | o :: os, p =>
    match p.step N o with
    | none => none
    | some (r, p1) =>
      match pipeline.events N os p1 with
      | none => none
      | some es => some (p.event_of o r ++ es)

/-- The slot events of a sequence of operations applied to a freshly
constructed pipeline. -/
def pipeline.events_fresh (N : Nat) (os : List (op T)) : Option (List slot_event) :=
  match (pipeline.init N : Option (pipeline T)) with
  | none => none
  | some p => pipeline.events N os p

/-- Slot validity along a list of slot events. `u` lists the slots stored by
a write that no `flush` has followed yet, `f` the slots stored by a write that
a `flush` has followed and that were not read since. A write must store into a
slot of neither list (a slot that holds no written-but-unread value); a
successful read must copy from a slot of `f`. -/
def disciplined : List (Nat × Nat) → List (Nat × Nat) → List slot_event → Prop
  | _, _, [] => True
  | u, f, slot_event.stored a :: es => a ∉ u ∧ a ∉ f ∧ disciplined (u ++ [a]) f es
  | u, f, slot_event.published :: es => disciplined [] (f ++ u) es
  | u, f, slot_event.loaded a :: es => a ∈ f ∧ disciplined u (f.erase a) es

/-! ## Representation invariants -/

/-- The slot addresses `(c, lo), ..., (c, hi - 1)` of one chunk. -/
def seg (c lo hi : Nat) : List (Nat × Nat) :=
  (List.range' lo (hi - lo)).map (fun k => (c, k))

/-- The slot addresses from position `lo` of the first chunk of the list up to
and including position `hi` of its last chunk, chunk by chunk. -/
def cells (N : Nat) : List Nat → Nat → Nat → List (Nat × Nat)
  | [], _, _ => []
  | [c], lo, hi => seg c lo (hi + 1)
  | c :: d :: L, lo, hi => seg c lo N ++ cells N (d :: L) 0 hi

/-- The slots of the queue in order, from the front slot to the end slot. -/
def queue.slots (N : Nat) (q : queue T) (L : List Nat) : List (Nat × Nat) :=
  cells N L q._begin_pos q._end_pos

/-- The effect of overwriting block `i` with `c`: the freed record and the
number of blocks stay, block `i` holds `c`, every other block is untouched. -/
def heap.upd (h h1 : heap T) (i : Nat) (c : chunk_t T) : Prop :=
  h1.freed = h.freed ∧ h1.blocks.length = h.blocks.length ∧
    ∀ j, h1.get (some j) = if j = i then some c else h.get (some j)

/-- A block that can be used as a chunk: allocated, not freed, `N` slots. -/
def heap.usable (N : Nat) (h : heap T) (i : Nat) : Prop :=
  ∃ c, h.get (some i) = some c ∧ c.values.length = N

/-- The representation invariant of the queue; `L` is the live chunk list, from
`_begin_chunk` to `_end_chunk`. -/
structure qinv (N : Nat) (q : queue T) (L : List Nat) : Prop where
  pos : 0 < N
  nodup : L.Nodup
  hbegin : q._begin_chunk = L.head?
  hend : q._end_chunk = L.getLast?
  hne : L ≠ []
  bpos : q._begin_pos < N
  epos : q._end_pos < N
  order : L.length = 1 → q._begin_pos ≤ q._end_pos
  valid : ∀ i ∈ L, heap.usable N q.mem i
  link : ∀ i a b, L[i]? = some a → L[i + 1]? = some b →
    q.mem.load_next (some a) = some (some b)
  spare_valid : ∀ s, q._spare_chunk._ptr = some s → s ∉ L ∧ heap.usable N q.mem s
  freed_nodup : q.mem.freed.Nodup
  freed_lt : ∀ i ∈ q.mem.freed, i < q.mem.blocks.length
  cover : ∀ i, i < q.mem.blocks.length →
    i ∈ L ∨ q._spare_chunk._ptr = some i ∨ i ∈ q.mem.freed

/-- How one call of `push()` changes the live chunk list `L`, the spare slot and
the number of allocated blocks: the tail chunk has room and nothing changes,
or it is full and the new tail is the chunk of the spare slot, or it is full,
the spare slot is empty and the new tail is a newly allocated block. -/
def queue.pushed (N : Nat) (q q1 : queue T) (L L1 : List Nat) : Prop :=
  (q._end_pos + 1 ≠ N ∧ L1 = L ∧ q1._spare_chunk = q._spare_chunk ∧
    q1.mem.blocks.length = q.mem.blocks.length) ∨
  (q._end_pos + 1 = N ∧ (∃ s, q._spare_chunk._ptr = some s ∧ L1 = L ++ [s]) ∧
    q1._spare_chunk._ptr = none ∧ q1.mem.blocks.length = q.mem.blocks.length) ∨
  (q._end_pos + 1 = N ∧ q._spare_chunk._ptr = none ∧ L1 = L ++ [q.mem.blocks.length] ∧
    q1._spare_chunk._ptr = none ∧ q1.mem.blocks.length = q.mem.blocks.length + 1)

/-- How one call of `pop()` changes the live chunk list `L`, the spare slot and
the freed blocks: the head chunk has an unread position left and nothing
changes, or it is used up, goes to the spare slot and the chunk found there is
freed. -/
def queue.popped (N : Nat) (q q1 : queue T) (L L1 : List Nat) : Prop :=
  (q._begin_pos + 1 ≠ N ∧ L1 = L ∧ q1._spare_chunk = q._spare_chunk ∧
    q1.mem.freed = q.mem.freed) ∨
  (q._begin_pos + 1 = N ∧ (∃ b, L = b :: L1 ∧ q1._spare_chunk._ptr = some b) ∧
    q1.mem.freed = (q._spare_chunk._ptr).toList ++ q.mem.freed)

/-- What a pipeline state means to its two users: the values written and not
yet read (oldest first), how many of them have been published by `flush`, and
whether the consumer has parked (the cell `_c` holds `nullptr`). -/
structure view (T : Type) where
  pend : List T
  k : Nat
  parked : Bool
deriving DecidableEq, Repr

/-- The view of a freshly constructed pipeline. -/
def view.init : view T := ⟨[], 0, false⟩

/-- The effect of one operation on the view, and its result. -/
def view.step (a : view T) : op T → res T × view T
  | op.write v => (res.done, { a with pend := a.pend ++ [v] })
  | op.flush =>
    if a.k = a.pend.length then (res.flag true, a)
    else (res.flag (!a.parked), { a with k := a.pend.length, parked := false })
  | op.check_read =>
    (res.flag (decide (0 < a.k)), { a with parked := a.parked || decide (a.k = 0) })
  | op.read x =>
    match a.k, a.pend with
    | k + 1, v :: rest => (res.got true v, { pend := rest, k := k, parked := a.parked })
    | _, _ => (res.got false x, { a with parked := true })

/-- The effect of a sequence of operations on the view, and their results. -/
def view.run : List (op T) → view T → List (res T) × view T
  | [], a => ([], a)
  | o :: os, a => ((a.step o).1 :: (view.run os (a.step o).2).1, (view.run os (a.step o).2).2)

/-- The representation invariant of the pipeline: `L` is the live chunk list,
`rd` the slots that hold the values not yet read, `bk` the back slot (the next
slot to fill) and `en` the end slot. -/
structure pinv (N : Nat) (p : pipeline T) (a : view T) (L : List Nat)
    (rd : List (Nat × Nat)) (bk en : Nat × Nat) : Prop where
  q : qinv N p._queue L
  hslots : p._queue.slots N L = rd ++ [bk, en]
  hback : p._queue.back = some bk
  hload : List.Forall₂ (fun s v => p._queue.mem.load s = some v) rd a.pend
  hk : a.k ≤ a.pend.length
  hf : p._f = some bk
  hw : p._w = (rd ++ [bk])[a.k]?
  hr : p._r = none ∨ ∃ j, j ≤ a.k ∧ p._r = (rd ++ [bk])[j]?
  hc : p._c._ptr = if a.parked then none else p._w
  hpark : a.parked = true → a.k = 0

/-- Some live chunk list and slot layout satisfy the representation invariant. -/
def Inv (N : Nat) (p : pipeline T) (a : view T) : Prop :=
  ∃ L rd bk en, pinv N p a L rd bk en

/-- The states between two rounds of the lock-step workload: nothing is unread,
no block has been freed, every allocated block is a live chunk or the spare
chunk, and when the live list has two chunks of at least two slots the spare
slot is empty. -/
def steady (N : Nat) (p : pipeline T) : Prop :=
  ∃ L bk en, pinv N p ⟨[], 0, false⟩ L [] bk en ∧ p._queue.mem.freed = [] ∧
    p._queue.mem.blocks.length = L.length + (p._queue._spare_chunk._ptr).toList.length ∧
    (L.length = 2 → 2 ≤ N → p._queue._spare_chunk._ptr = none)

/-- The queue after `P` calls of `push()` and `Q` calls of `pop()`, with live
chunk list `L`: the invariant, the number of slots from front to end, the two
positions, the number of live chunks and, while a pushed slot is un-popped,
the back slot right before the end slot. -/
structure qcount (N : Nat) (q : queue T) (L : List Nat) (P Q : Nat) : Prop where
  inv : qinv N q L
  le : Q ≤ P
  len : (q.slots N L).length + Q = P + 1
  epos : q._end_pos = P % N
  bpos : q._begin_pos = Q % N
  live : L.length + Q / N = P / N + 1
  back : Q < P → ∃ pre bk en, q.slots N L = pre ++ [bk, en] ∧ q.back = some bk

/-! ## Slots in queue order -/

theorem seg_nil {c lo hi : Nat} (h : hi ≤ lo) : seg c lo hi = [] := by
  simp [seg, Nat.sub_eq_zero_of_le h]

theorem seg_cons {c lo hi : Nat} (h : lo < hi) : seg c lo hi = (c, lo) :: seg c (lo + 1) hi := by
  unfold seg
  have e : hi - lo = (hi - (lo + 1)) + 1 := by omega
  rw [e, List.range'_succ]
  simp

theorem seg_snoc {c lo hi : Nat} (h : lo ≤ hi) : seg c lo (hi + 1) = seg c lo hi ++ [(c, hi)] := by
  unfold seg
  have e : hi + 1 - lo = (hi - lo) + 1 := by omega
  rw [e, List.range'_concat]
  simp
  omega

theorem mem_seg {c lo hi : Nat} {a : Nat × Nat} :
    a ∈ seg c lo hi ↔ a.1 = c ∧ lo ≤ a.2 ∧ a.2 < hi := by
  obtain ⟨x, y⟩ := a
  simp only [seg, List.mem_map, List.mem_range'_1, Prod.mk.injEq]
  constructor
  · rintro ⟨k, ⟨h1, h2⟩, rfl, rfl⟩
    exact ⟨rfl, h1, by omega⟩
  · rintro ⟨rfl, h1, h2⟩
    exact ⟨y, ⟨h1, by omega⟩, rfl, rfl⟩

theorem seg_nodup (c lo hi : Nat) : (seg c lo hi).Nodup := by
  unfold seg
  apply List.Nodup.map
  · intro a b h
    simpa using h
  · exact List.nodup_range' lo (hi - lo)

theorem seg_length (c lo hi : Nat) : (seg c lo hi).length = hi - lo := by
  simp [seg]

theorem cells_cons {N c : Nat} {t : List Nat} {lo hi : Nat} (h1 : t = [] → lo ≤ hi)
    (h2 : lo < N) : cells N (c :: t) lo hi = (c, lo) :: cells N (c :: t) (lo + 1) hi := by
  cases t with
  | nil =>
    have := h1 rfl
    simp only [cells]
    exact seg_cons (by omega)
  | cons d t =>
    simp only [cells]
    rw [seg_cons h2]
    rfl

theorem cells_cross (N c d : Nat) (t : List Nat) (hi : Nat) :
    cells N (c :: d :: t) N hi = cells N (d :: t) 0 hi := by
  simp [cells, seg_nil]

theorem cells_snoc_within {N : Nat} {L : List Nat} {lo hi : Nat} (hne : L ≠ [])
    (h1 : L.length = 1 → lo ≤ hi + 1) :
    cells N L lo (hi + 1) = cells N L lo hi ++ [(L.getLast hne, hi + 1)] := by
  induction L generalizing lo with
  | nil => exact absurd rfl hne
  | cons c t ih =>
    cases t with
    | nil =>
      simp only [cells, List.getLast_singleton]
      exact seg_snoc (h1 rfl)
    | cons d t =>
      simp only [cells]
      rw [ih (List.cons_ne_nil d t) (fun _ => Nat.zero_le _), List.append_assoc]
      simp [List.getLast_cons]

theorem cells_snoc_cross {N : Nat} {L : List Nat} {lo hi : Nat} (n : Nat) (hne : L ≠ [])
    (h1 : hi + 1 = N) :
    cells N (L ++ [n]) lo 0 = cells N L lo hi ++ [(n, 0)] := by
  induction L generalizing lo with
  | nil => exact absurd rfl hne
  | cons c t ih =>
    cases t with
    | nil =>
      simp only [List.cons_append, List.nil_append, cells, h1]
      rw [seg_cons (Nat.zero_lt_one), seg_nil (Nat.le_refl _)]
    | cons d t =>
      have := @ih 0 (List.cons_ne_nil d t)
      simp only [List.cons_append] at this
      show seg c lo N ++ cells N (d :: (t ++ [n])) 0 0 = (seg c lo N ++ cells N (d :: t) 0 hi) ++ [(n, 0)]
      rw [this, List.append_assoc]

theorem mem_cells {N : Nat} {L : List Nat} {lo hi : Nat} {a : Nat × Nat} (hhi : hi < N)
    (h : a ∈ cells N L lo hi) : a.1 ∈ L ∧ a.2 < N := by
  induction L generalizing lo with
  | nil => simp [cells] at h
  | cons c t ih =>
    cases t with
    | nil =>
      simp only [cells, mem_seg] at h
      exact ⟨by simp [h.1], by omega⟩
    | cons d t =>
      simp only [cells, List.mem_append, mem_seg] at h
      rcases h with h | h
      · exact ⟨by simp [h.1], h.2.2⟩
      · have := ih h
        exact ⟨List.mem_cons_of_mem _ this.1, this.2⟩

theorem cells_nodup {N : Nat} {L : List Nat} {lo hi : Nat} (hhi : hi < N) (h : L.Nodup) :
    (cells N L lo hi).Nodup := by
  induction L generalizing lo with
  | nil => simp [cells]
  | cons c t ih =>
    cases t with
    | nil => exact seg_nodup _ _ _
    | cons d t =>
      simp only [cells]
      rw [List.nodup_append]
      refine ⟨seg_nodup _ _ _, ih (List.nodup_cons.1 h).2, ?_⟩
      intro a ha hb
      have h1 := (mem_seg.1 ha).1
      have h2 := (mem_cells hhi hb).1
      rw [h1] at h2
      exact (List.nodup_cons.1 h).1 h2

/-! ## Heap primitives -/

theorem heap.get_some_iff {h : heap T} {i : Nat} {c : chunk_t T} :
    h.get (some i) = some c ↔ i ∉ h.freed ∧ h.blocks[i]? = some c := by
  unfold heap.get
  by_cases hf : i ∈ h.freed <;> simp [hf]

theorem heap.put_spec {h : heap T} {i : Nat} {c0 : chunk_t T} (c : chunk_t T)
    (hg : h.get (some i) = some c0) : ∃ h1, h.put (some i) c = some h1 ∧ heap.upd h h1 i c := by
  obtain ⟨hf, hb⟩ := heap.get_some_iff.1 hg
  have hlt : i < h.blocks.length := by
    rcases List.getElem?_eq_some_iff.1 hb with ⟨hlt, _⟩
    exact hlt
  refine ⟨{ h with blocks := h.blocks.set i c }, ?_, rfl, ?_, ?_⟩
  · simp [heap.put, hf, hlt]
  · simp
  · intro j
    by_cases hj : j = i
    · subst hj
      simp [heap.get, hf, hlt]
    · simp only [heap.get, hj, if_false]
      by_cases hjf : j ∈ h.freed
      · simp [hjf]
      · simp only [hjf, if_false]
        exact List.getElem?_set_ne (Ne.symm hj)

theorem heap.store_next_spec {h : heap T} {i : Nat} {c0 : chunk_t T} (x : chunk_ptr)
    (hg : h.get (some i) = some c0) :
    ∃ h1, h.store_next (some i) x = some h1 ∧ heap.upd h h1 i { c0 with next := some x } := by
  simp only [heap.store_next, hg]
  exact heap.put_spec _ hg

theorem heap.store_prev_spec {h : heap T} {i : Nat} {c0 : chunk_t T} (x : chunk_ptr)
    (hg : h.get (some i) = some c0) :
    ∃ h1, h.store_prev (some i) x = some h1 ∧ heap.upd h h1 i { c0 with prev := some x } := by
  simp only [heap.store_prev, hg]
  exact heap.put_spec _ hg

theorem heap.store_spec {h : heap T} {a : Nat × Nat} {c0 : chunk_t T} (v : T)
    (hg : h.get (some a.1) = some c0) (hlt : a.2 < c0.values.length) :
    ∃ h1, h.store a v = some h1 ∧
      heap.upd h h1 a.1 { c0 with values := c0.values.set a.2 (some v) } := by
  simp only [heap.store, hg, hlt, if_true]
  exact heap.put_spec _ hg

theorem heap.load_eq {h : heap T} {a : Nat × Nat} {c : chunk_t T}
    (hg : h.get (some a.1) = some c) : h.load a = (c.values[a.2]?).join := by
  simp only [heap.load, hg]
  cases c.values[a.2]? <;> rfl

theorem heap.load_next_eq {h : heap T} {i : Nat} {c : chunk_t T}
    (hg : h.get (some i) = some c) : h.load_next (some i) = c.next := by
  simp only [heap.load_next, hg]

/-- Overwriting a block without changing its slots leaves every load as it was. -/
theorem heap.upd_load {h h1 : heap T} {i : Nat} {c0 c : chunk_t T} (hu : heap.upd h h1 i c)
    (hg : h.get (some i) = some c0) (hv : c.values = c0.values) (a : Nat × Nat) :
    h1.load a = h.load a := by
  by_cases ha : a.1 = i
  · have h1g : h1.get (some a.1) = some c := by rw [hu.2.2, if_pos ha]
    rw [heap.load_eq h1g, heap.load_eq (ha ▸ hg), hv]
  · simp only [heap.load, hu.2.2 a.1, if_neg ha]

theorem heap.upd_load_ne {h h1 : heap T} {i : Nat} {c : chunk_t T} (hu : heap.upd h h1 i c)
    {a : Nat × Nat} (ha : a.1 ≠ i) : h1.load a = h.load a := by
  simp only [heap.load, hu.2.2 a.1, if_neg ha]

theorem heap.upd_load_next_ne {h h1 : heap T} {i : Nat} {c : chunk_t T} (hu : heap.upd h h1 i c)
    {j : Nat} (hj : j ≠ i) : h1.load_next (some j) = h.load_next (some j) := by
  simp only [heap.load_next, hu.2.2 j, if_neg hj]

theorem heap.upd_load_next {h h1 : heap T} {i : Nat} {c0 c : chunk_t T} (hu : heap.upd h h1 i c)
    (hg : h.get (some i) = some c0) (hv : c.next = c0.next) (j : Nat) :
    h1.load_next (some j) = h.load_next (some j) := by
  by_cases hj : j = i
  · subst hj
    have h1g : h1.get (some j) = some c := by rw [hu.2.2, if_pos rfl]
    rw [heap.load_next_eq h1g, heap.load_next_eq hg, hv]
  · exact heap.upd_load_next_ne hu hj

theorem heap.upd_get_self {h h1 : heap T} {i : Nat} {c : chunk_t T} (hu : heap.upd h h1 i c) :
    h1.get (some i) = some c := by
  rw [hu.2.2, if_pos rfl]

theorem heap.upd_get_ne {h h1 : heap T} {i : Nat} {c : chunk_t T} (hu : heap.upd h h1 i c)
    {j : Nat} (hj : j ≠ i) : h1.get (some j) = h.get (some j) := by
  rw [hu.2.2, if_neg hj]

/-- A block stays usable with `N` slots when some block is overwritten by a
block with `N` slots. -/
theorem heap.upd_valid {N : Nat} {h h1 : heap T} {i : Nat} {c : chunk_t T}
    (hu : heap.upd h h1 i c) (hc : c.values.length = N) {j : Nat}
    (hj : ∃ d, h.get (some j) = some d ∧ d.values.length = N) :
    ∃ d, h1.get (some j) = some d ∧ d.values.length = N := by
  by_cases e : j = i
  · subst e
    exact ⟨c, heap.upd_get_self hu, hc⟩
  · rw [heap.upd_get_ne hu e]
    exact hj

theorem heap.malloc_spec (N : Nat) {h : heap T} (hf : ∀ i ∈ h.freed, i < h.blocks.length) :
    (h.malloc N).1 = h.blocks.length ∧ (h.malloc N).2.freed = h.freed ∧
    (h.malloc N).2.blocks.length = h.blocks.length + 1 ∧
    ∀ j, (h.malloc N).2.get (some j) =
      if j = h.blocks.length then some ⟨List.replicate N none, none, none⟩ else h.get (some j) := by
  refine ⟨rfl, rfl, by simp [heap.malloc], ?_⟩
  intro j
  by_cases hj : j = h.blocks.length
  · subst hj
    have : h.blocks.length ∉ h.freed := fun hm => Nat.lt_irrefl _ (hf _ hm)
    simp [heap.get, heap.malloc, this]
  · simp only [heap.get, heap.malloc, hj, if_false]
    by_cases hjf : j ∈ h.freed
    · simp [hjf]
    · simp only [hjf, if_false]
      rcases Nat.lt_or_gt_of_ne hj with hlt | hgt
      · exact List.getElem?_append_left hlt
      · rw [List.getElem?_eq_none (by simp; omega), List.getElem?_eq_none (by omega)]

theorem heap.free_get (h : heap T) (i j : Nat) :
    (h.free (some i)).get (some j) = if j = i then none else h.get (some j) := by
  by_cases hj : j = i
  · subst hj
    simp [heap.get, heap.free]
  · simp [heap.get, heap.free, hj]

theorem heap.free_load_ne (h : heap T) (i : Nat) {a : Nat × Nat} (ha : a.1 ≠ i) :
    (h.free (some i)).load a = h.load a := by
  simp only [heap.load, heap.free_get, if_neg ha]

theorem heap.free_load_next_ne (h : heap T) (i : Nat) {j : Nat} (hj : j ≠ i) :
    (h.free (some i)).load_next (some j) = h.load_next (some j) := by
  simp only [heap.load_next, heap.free_get, if_neg hj]

/-! ## The queue invariant -/

theorem heap.usable_lt {N : Nat} {h : heap T} {i : Nat} (hu : heap.usable N h i) :
    i < h.blocks.length ∧ i ∉ h.freed := by
  obtain ⟨c, hc, _⟩ := hu
  obtain ⟨hf, hb⟩ := heap.get_some_iff.1 hc
  exact ⟨(List.getElem?_eq_some_iff.1 hb).1, hf⟩

theorem nodup_index_eq {α : Type} {L : List α} (h : L.Nodup) {i j : Nat} {a : α}
    (hi : L[i]? = some a) (hj : L[j]? = some a) : i = j := by
  obtain ⟨h1, e1⟩ := List.getElem?_eq_some_iff.1 hi
  obtain ⟨h2, e2⟩ := List.getElem?_eq_some_iff.1 hj
  exact (List.Nodup.getElem_inj_iff h).1 (e1.trans e2.symm)

theorem getLast?_index {α : Type} (L : List α) : L.getLast? = L[L.length - 1]? := by
  induction L with
  | nil => rfl
  | cons a t ih =>
    cases t with
    | nil => rfl
    | cons b t =>
      rw [List.getLast?_cons_cons, ih]
      simp

theorem qinv.last_not_source {N : Nat} {q : queue T} {L : List Nat} (h : qinv N q L)
    {e : Nat} (he : q._end_chunk = some e) {i : Nat} {a b : Nat}
    (ha : L[i]? = some a) (hb : L[i + 1]? = some b) : a ≠ e := by
  intro hae
  have h1 : L[L.length - 1]? = some e := by rw [← getLast?_index, ← h.hend, he]
  have h2 := nodup_index_eq h.nodup (hae ▸ ha) h1
  have h3 := (List.getElem?_eq_some_iff.1 hb).1
  omega

theorem qinv.end_mem {N : Nat} {q : queue T} {L : List Nat} (h : qinv N q L) :
    ∃ e, q._end_chunk = some e ∧ e ∈ L ∧ L.getLast h.hne = e := by
  refine ⟨L.getLast h.hne, ?_, List.getLast_mem _, rfl⟩
  rw [h.hend, List.getLast?_eq_getLast _ h.hne]

theorem qinv.begin_mem {N : Nat} {q : queue T} {L : List Nat} (h : qinv N q L) :
    ∃ b t, L = b :: t ∧ q._begin_chunk = some b := by
  cases L with
  | nil => exact absurd rfl h.hne
  | cons b t => exact ⟨b, t, rfl, by rw [h.hbegin]; rfl⟩

/-- The constructor establishes the invariant with a single live chunk. -/
theorem queue.init_inv {N : Nat} (hN : 0 < N) : qinv N (queue.init N : queue T) [0] := by
  have hg : (queue.init N : queue T).mem.get (some 0)
      = some ⟨List.replicate N none, none, none⟩ := by
    simp [queue.init, heap.malloc, heap.empty, heap.get]
  refine ⟨hN, by simp, rfl, rfl, by simp, hN, hN, fun _ => Nat.le_refl _, ?_, ?_, ?_, ?_, ?_, ?_⟩
  · intro i hi
    simp only [List.mem_singleton] at hi
    subst hi
    exact ⟨_, hg, by simp⟩
  · intro i a b _ hb
    simp at hb
  · intro s hs
    simp [queue.init, atomic_pointer.init] at hs
  · simp [queue.init, heap.malloc, heap.empty]
  · simp [queue.init, heap.malloc, heap.empty]
  · intro i hi
    simp [queue.init, heap.malloc, heap.empty] at hi
    simp [hi]

/-- The method `push()` when the tail chunk still has room. -/
theorem queue.push_within {N : Nat} {q : queue T} {L : List Nat} (h : qinv N q L)
    (hc : q._end_pos + 1 ≠ N) :
    q.push N = some { q with _back_chunk := q._end_chunk, _back_pos := q._end_pos,
                             _end_pos := q._end_pos + 1 } ∧
    qinv N { q with _back_chunk := q._end_chunk, _back_pos := q._end_pos,
                    _end_pos := q._end_pos + 1 } L := by
  constructor
  · simp [queue.push, hc]
  · have := h.epos
    exact ⟨h.pos, h.nodup, h.hbegin, h.hend, h.hne, h.bpos, by show q._end_pos + 1 < N; omega,
      fun hl => Nat.le_succ_of_le (h.order hl), h.valid, h.link, h.spare_valid, h.freed_nodup,
      h.freed_lt, h.cover⟩

/-- Linking a new tail chunk `n` behind the old tail `e` keeps the invariant. -/
theorem qinv.snoc {N : Nat} {q q1 : queue T} {L : List Nat} (h : qinv N q L) {e n : Nat}
    (he : q._end_chunk = some e)
    (hb : q1._begin_chunk = q._begin_chunk) (hbp : q1._begin_pos = q._begin_pos)
    (hen : q1._end_chunk = some n) (hep : q1._end_pos = 0)
    (hsp : q1._spare_chunk._ptr = none)
    (hn : n ∉ L)
    (hv : ∀ i ∈ L, heap.usable N q1.mem i) (hvn : heap.usable N q1.mem n)
    (hl : ∀ j, j ≠ e → q1.mem.load_next (some j) = q.mem.load_next (some j))
    (hle : q1.mem.load_next (some e) = some (some n))
    (hf : q1.mem.freed = q.mem.freed)
    (hlen : q.mem.blocks.length ≤ q1.mem.blocks.length)
    (hcov : ∀ i, i < q1.mem.blocks.length → i = n ∨ i < q.mem.blocks.length)
    (hs : ∀ s, q._spare_chunk._ptr = some s → s = n) :
    qinv N q1 (L ++ [n]) := by
  have hlast : L[L.length - 1]? = some e := by rw [← getLast?_index, ← h.hend, he]
  have hLpos : 0 < L.length := List.length_pos.2 h.hne
  refine ⟨h.pos, ?_, ?_, ?_, by simp, by rw [hbp]; exact h.bpos, by rw [hep]; exact h.pos,
    ?_, ?_, ?_, ?_, by rw [hf]; exact h.freed_nodup, ?_, ?_⟩
  · rw [List.nodup_append]
    refine ⟨h.nodup, by simp, ?_⟩
    intro a ha hb
    simp only [List.mem_singleton] at hb
    exact hn (hb ▸ ha)
  · rw [hb, h.hbegin]
    cases L with
    | nil => exact absurd rfl h.hne
    | cons b t => rfl
  · rw [hen]; simp
  · intro hlen1
    rw [List.length_append, List.length_singleton] at hlen1
    omega
  · intro i hi
    rcases List.mem_append.1 hi with hi | hi
    · exact hv i hi
    · simp only [List.mem_singleton] at hi
      exact hi ▸ hvn
  · intro i a b ha hb
    by_cases hi : i + 1 < L.length
    · rw [List.getElem?_append_left (by omega)] at ha
      rw [List.getElem?_append_left hi] at hb
      rw [hl a (h.last_not_source he ha hb)]
      exact h.link i a b ha hb
    · have hi1 := (List.getElem?_eq_some_iff.1 hb).1
      simp only [List.length_append, List.length_singleton] at hi1
      have hi2 : i = L.length - 1 := by omega
      have hi3 : i + 1 = L.length := by omega
      rw [List.getElem?_append_left (by omega), hi2, hlast] at ha
      rw [hi3, List.getElem?_append_right (Nat.le_refl _)] at hb
      simp at ha hb
      subst ha; subst hb
      exact hle
  · intro s hs1
    rw [hsp] at hs1
    exact absurd hs1 (by simp)
  · intro i hi
    rw [hf] at hi
    exact Nat.lt_of_lt_of_le (h.freed_lt i hi) hlen
  · intro i hi
    rcases hcov i hi with rfl | hi
    · exact Or.inl (by simp)
    · rcases h.cover i hi with h1 | h1 | h1
      · exact Or.inl (List.mem_append_left _ h1)
      · exact Or.inl (by rw [hs i h1]; simp)
      · exact Or.inr (Or.inr (by rw [hf]; exact h1))

/-- The method `push()` when the tail chunk is full and the spare slot holds a
chunk: that chunk becomes the new tail, nothing is allocated. -/
theorem queue.push_reuse {N : Nat} {q : queue T} {L : List Nat} (h : qinv N q L)
    (hc : q._end_pos + 1 = N) {s : Nat} (hs : q._spare_chunk._ptr = some s) :
    ∃ q1, q.push N = some q1 ∧ qinv N q1 (L ++ [s]) ∧
      q1._back_chunk = q._end_chunk ∧ q1._back_pos = q._end_pos ∧
      q1._begin_chunk = q._begin_chunk ∧ q1._begin_pos = q._begin_pos ∧
      q1._end_chunk = some s ∧ q1._end_pos = 0 ∧ q1._spare_chunk._ptr = none ∧
      q1.mem.blocks.length = q.mem.blocks.length ∧ q1.mem.freed = q.mem.freed ∧
      ∀ a, q1.mem.load a = q.mem.load a := by
  obtain ⟨e, he, heL, _⟩ := h.end_mem
  obtain ⟨hsL, cs, hcs, hcsl⟩ := h.spare_valid s hs
  obtain ⟨ce, hce, hcel⟩ := h.valid e heL
  have hse : s ≠ e := fun x => hsL (x ▸ heL)
  obtain ⟨m1, hm1, u1⟩ := heap.store_next_spec (some s) hce
  have hcs1 : m1.get (some s) = some cs := by rw [heap.upd_get_ne u1 hse, hcs]
  obtain ⟨m2, hm2, u2⟩ := heap.store_prev_spec (some e) hcs1
  have hce2 : m2.get (some e) = some { ce with next := some (some s) } := by
    rw [heap.upd_get_ne u2 (Ne.symm hse), heap.upd_get_self u1]
  have hln : m2.load_next (some e) = some (some s) := by rw [heap.load_next_eq hce2]
  refine ⟨{ q with _back_chunk := q._end_chunk, _back_pos := q._end_pos, mem := m2,
                   _end_chunk := some s, _end_pos := 0, _spare_chunk := ⟨none⟩ }, ?_, ?_,
    rfl, rfl, rfl, rfl, rfl, rfl, rfl, ?_, ?_, ?_⟩
  · simp only [queue.push, hc, ne_eq, not_true_eq_false, if_false, atomic_pointer.xchg, hs, he,
      hm1, hm2, hln]
  · refine h.snoc he rfl rfl rfl rfl rfl hsL ?_ ?_ ?_ hln ?_ ?_ ?_ ?_
    · intro i hi
      exact heap.upd_valid u2 hcsl (heap.upd_valid u1 hcel (h.valid i hi))
    · exact ⟨_, heap.upd_get_self u2, hcsl⟩
    · intro j hj
      show m2.load_next (some j) = _
      rw [heap.upd_load_next u2 hcs1 rfl, heap.upd_load_next_ne u1 hj]
    · show m2.freed = _
      rw [u2.1, u1.1]
    · show _ ≤ m2.blocks.length
      rw [u2.2.1, u1.2.1]
    · intro i hi
      right
      have : i < m2.blocks.length := hi
      rwa [u2.2.1, u1.2.1] at this
    · intro s1 hs1
      rw [hs] at hs1
      exact (Option.some.inj hs1).symm
  · show m2.blocks.length = _
    rw [u2.2.1, u1.2.1]
  · show m2.freed = _
    rw [u2.1, u1.1]
  · intro a
    show m2.load a = _
    rw [heap.upd_load u2 hcs1 rfl, heap.upd_load u1 hce rfl]

/-- The method `push()` when the tail chunk is full and the spare slot is
empty: one chunk is allocated and becomes the new tail. -/
theorem queue.push_alloc {N : Nat} {q : queue T} {L : List Nat} (h : qinv N q L)
    (hc : q._end_pos + 1 = N) (hs : q._spare_chunk._ptr = none) :
    ∃ q1, q.push N = some q1 ∧ qinv N q1 (L ++ [q.mem.blocks.length]) ∧
      q1._back_chunk = q._end_chunk ∧ q1._back_pos = q._end_pos ∧
      q1._begin_chunk = q._begin_chunk ∧ q1._begin_pos = q._begin_pos ∧
      q1._end_chunk = some q.mem.blocks.length ∧ q1._end_pos = 0 ∧
      q1._spare_chunk._ptr = none ∧
      q1.mem.blocks.length = q.mem.blocks.length + 1 ∧ q1.mem.freed = q.mem.freed ∧
      ∀ a, q1.mem.load a = q.mem.load a := by
  obtain ⟨e, he, heL, _⟩ := h.end_mem
  obtain ⟨ce, hce, hcel⟩ := h.valid e heL
  obtain ⟨hn1, hn2, hn3, hn4⟩ := heap.malloc_spec N h.freed_lt
  have hen : e ≠ q.mem.blocks.length := Nat.ne_of_lt (heap.usable_lt (h.valid e heL)).1
  have hnL : q.mem.blocks.length ∉ L := fun hm =>
    Nat.lt_irrefl _ (heap.usable_lt (h.valid _ hm)).1
  have hce0 : (q.mem.malloc N).2.get (some e) = some ce := by rw [hn4, if_neg hen, hce]
  obtain ⟨m1, hm1, u1⟩ := heap.store_next_spec (some q.mem.blocks.length) hce0
  have hln1 : m1.load_next (some e) = some (some q.mem.blocks.length) := by
    rw [heap.load_next_eq (heap.upd_get_self u1)]
  have hcn1 : m1.get (some q.mem.blocks.length) = some ⟨List.replicate N none, none, none⟩ := by
    rw [heap.upd_get_ne u1 (Ne.symm hen), hn4, if_pos rfl]
  obtain ⟨m2, hm2, u2⟩ := heap.store_prev_spec (some e) hcn1
  have hce2 : m2.get (some e) = some { ce with next := some (some q.mem.blocks.length) } := by
    rw [heap.upd_get_ne u2 hen, heap.upd_get_self u1]
  have hln : m2.load_next (some e) = some (some q.mem.blocks.length) := by
    rw [heap.load_next_eq hce2]
  have hlen2 : m2.blocks.length = q.mem.blocks.length + 1 := by rw [u2.2.1, u1.2.1, hn3]
  have hfr2 : m2.freed = q.mem.freed := by rw [u2.1, u1.1, hn2]
  refine ⟨{ q with _back_chunk := q._end_chunk, _back_pos := q._end_pos, mem := m2,
                   _end_chunk := some q.mem.blocks.length, _end_pos := 0,
                   _spare_chunk := ⟨none⟩ }, ?_, ?_,
    rfl, rfl, rfl, rfl, rfl, rfl, rfl, hlen2, hfr2, ?_⟩
  · simp only [queue.push, hc, ne_eq, not_true_eq_false, if_false, atomic_pointer.xchg, hs, he,
      hn1, hm1, hln1, hm2, hln]
  · refine h.snoc he rfl rfl rfl rfl rfl hnL ?_ ?_ ?_ hln hfr2 ?_ ?_ ?_
    · intro i hi
      have hi0 : heap.usable N (q.mem.malloc N).2 i := by
        obtain ⟨c, hc1, hc2⟩ := h.valid i hi
        have : i ≠ q.mem.blocks.length := fun x => hnL (x ▸ hi)
        exact ⟨c, by rw [hn4, if_neg this, hc1], hc2⟩
      exact heap.upd_valid u2 (by simp) (heap.upd_valid u1 hcel hi0)
    · exact ⟨_, heap.upd_get_self u2, by simp⟩
    · intro j hj
      show m2.load_next (some j) = _
      rw [heap.upd_load_next u2 hcn1 rfl, heap.upd_load_next_ne u1 hj]
      by_cases hjn : j = q.mem.blocks.length
      · subst hjn
        have hgn : q.mem.get (some q.mem.blocks.length) = none := by
          simp [heap.get]
        simp [heap.load_next, hn4, hgn]
      · simp only [heap.load_next, hn4, if_neg hjn]
    · show _ ≤ m2.blocks.length
      omega
    · intro i hi
      have : i < m2.blocks.length := hi
      omega
    · intro s1 hs1
      rw [hs] at hs1
      exact absurd hs1 (by simp)
  · intro a
    show m2.load a = _
    rw [heap.upd_load u2 hcn1 rfl, heap.upd_load u1 hce0 rfl]
    by_cases han : a.1 = q.mem.blocks.length
    · have hgn : q.mem.get (some a.1) = none := by
        rw [han]; simp [heap.get]
      have hgm : (q.mem.malloc N).2.get (some a.1) = some ⟨List.replicate N none, none, none⟩ := by
        rw [hn4, if_pos han]
      rw [heap.load_eq hgm]
      simp only [heap.load, hgn]
      by_cases hk : a.2 < N
      · simp [List.getElem?_replicate, hk]
      · simp [List.getElem?_replicate, hk]
    · simp only [heap.load, hn4, if_neg han]

/-- The method `pop()` when the head chunk still has an unread position. -/
theorem queue.pop_within {N : Nat} {q : queue T} {L : List Nat} (h : qinv N q L)
    (hc : q._begin_pos + 1 ≠ N)
    (hlen : 2 ≤ (cells N L q._begin_pos q._end_pos).length) :
    q.pop N = some { q with _begin_pos := q._begin_pos + 1 } ∧
    qinv N { q with _begin_pos := q._begin_pos + 1 } L := by
  constructor
  · simp [queue.pop, hc]
  · have := h.bpos
    refine ⟨h.pos, h.nodup, h.hbegin, h.hend, h.hne, by show q._begin_pos + 1 < N; omega,
      h.epos, ?_, h.valid, h.link, h.spare_valid, h.freed_nodup, h.freed_lt, h.cover⟩
    intro hl
    show q._begin_pos + 1 ≤ q._end_pos
    match L, hl with
    | [c], _ =>
      simp only [cells, seg_length] at hlen
      omega

/-- The method `pop()` when the head chunk is used up: the next chunk becomes
the head, the old head goes to the spare slot and the chunk found there, if
any, is freed. -/
theorem queue.pop_cross {N : Nat} {q : queue T} {L : List Nat} (h : qinv N q L)
    (hc : q._begin_pos + 1 = N)
    (hlen : 2 ≤ (cells N L q._begin_pos q._end_pos).length) :
    ∃ b d t q1, L = b :: d :: t ∧ q.pop N = some q1 ∧ qinv N q1 (d :: t) ∧
      q1._begin_chunk = some d ∧ q1._begin_pos = 0 ∧
      q1._back_chunk = q._back_chunk ∧ q1._back_pos = q._back_pos ∧
      q1._end_chunk = q._end_chunk ∧ q1._end_pos = q._end_pos ∧
      q1._spare_chunk._ptr = some b ∧
      q1.mem.blocks.length = q.mem.blocks.length ∧
      q1.mem.freed = (q._spare_chunk._ptr).toList ++ q.mem.freed ∧
      ∀ a, a.1 ∈ L → q1.mem.load a = q.mem.load a := by
  have hep := h.epos
  match L, h with
  | [], h => exact absurd rfl h.hne
  | [c], h =>
    simp only [cells, seg_length] at hlen
    omega
  | b :: d :: t, h =>
    have hb : q._begin_chunk = some b := h.hbegin
    have hlk : q.mem.load_next (some b) = some (some d) := h.link 0 b d rfl (by simp)
    obtain ⟨cd, hcd, hcdl⟩ := h.valid d (by simp)
    obtain ⟨m1, hm1, u1⟩ := heap.store_prev_spec none hcd
    have hnd := h.nodup
    have hbd : b ∉ d :: t := (List.nodup_cons.1 hnd).1
    have hv1 : ∀ i ∈ b :: d :: t, heap.usable N m1 i := fun i hi =>
      heap.upd_valid u1 hcdl (h.valid i hi)
    have hfr : ∀ x : chunk_ptr, x = q._spare_chunk._ptr →
        (∀ i ∈ b :: d :: t, (m1.free x).get (some i) = m1.get (some i)) ∧
        (m1.free x).freed = x.toList ++ q.mem.freed ∧
        (m1.free x).blocks.length = q.mem.blocks.length := by
      intro x hx
      cases x with
      | none => exact ⟨fun _ _ => rfl, by simp [heap.free, u1.1], u1.2.1⟩
      | some s =>
        obtain ⟨hsL, _⟩ := h.spare_valid s hx.symm
        refine ⟨?_, by simp [heap.free, u1.1], u1.2.1⟩
        intro i hi
        rw [heap.free_get, if_neg (fun (e : i = s) => hsL (e ▸ hi))]
    obtain ⟨hfg, hff, hfl⟩ := hfr _ rfl
    refine ⟨b, d, t, { q with mem := m1.free q._spare_chunk._ptr, _begin_chunk := some d,
                              _begin_pos := 0, _spare_chunk := ⟨some b⟩ }, rfl, ?_, ?_,
      rfl, rfl, rfl, rfl, rfl, rfl, rfl, hfl, hff, ?_⟩
    · simp only [queue.pop, hc, if_true, hb, hlk, hm1, atomic_pointer.xchg]
    · refine ⟨h.pos, (List.nodup_cons.1 hnd).2, rfl, ?_, by simp, h.pos, h.epos,
        fun _ => Nat.zero_le _, ?_, ?_, ?_, ?_, ?_, ?_⟩
      · show q._end_chunk = _
        rw [h.hend, List.getLast?_cons_cons]
      · intro i hi
        obtain ⟨c, hc1, hc2⟩ := hv1 i (List.mem_cons_of_mem _ hi)
        exact ⟨c, by show (m1.free _).get _ = _; rw [hfg i (List.mem_cons_of_mem _ hi), hc1], hc2⟩
      · intro i a c ha hc1
        have hmem : a ∈ b :: d :: t :=
          List.mem_cons_of_mem _ (List.getElem?_mem ha)
        show (m1.free _).load_next (some a) = _
        have e1 : (m1.free q._spare_chunk._ptr).load_next (some a) = m1.load_next (some a) := by
          simp only [heap.load_next, hfg a hmem]
        rw [e1, heap.upd_load_next u1 hcd rfl]
        exact h.link (i + 1) a c (by simpa using ha) (by simpa using hc1)
      · intro s hs
        have : s = b := by
          have : (some b : Option Nat) = some s := hs
          exact (Option.some.inj this).symm
        subst this
        refine ⟨hbd, ?_⟩
        obtain ⟨c, hc1, hc2⟩ := hv1 s (by simp)
        exact ⟨c, by show (m1.free _).get _ = _; rw [hfg s (by simp), hc1], hc2⟩
      · show (m1.free _).freed.Nodup
        rw [hff]
        cases hsp : q._spare_chunk._ptr with
        | none => simpa using h.freed_nodup
        | some s =>
          obtain ⟨_, hsu⟩ := h.spare_valid s hsp
          simp only [Option.toList_some, List.singleton_append, List.nodup_cons]
          exact ⟨(heap.usable_lt hsu).2, h.freed_nodup⟩
      · intro i hi
        have hi : i ∈ (m1.free q._spare_chunk._ptr).freed := hi
        show i < (m1.free _).blocks.length
        rw [hfl]
        rw [hff] at hi
        rcases List.mem_append.1 hi with hi | hi
        · cases hsp : q._spare_chunk._ptr with
          | none => simp [hsp] at hi
          | some s =>
            obtain ⟨_, hsu⟩ := h.spare_valid s hsp
            simp only [hsp, Option.toList_some, List.mem_singleton] at hi
            exact hi ▸ (heap.usable_lt hsu).1
        · exact h.freed_lt i hi
      · intro i hi
        have hi : i < (m1.free q._spare_chunk._ptr).blocks.length := hi
        rw [hfl] at hi
        show i ∈ d :: t ∨ (some b : Option Nat) = some i ∨ i ∈ (m1.free _).freed
        rw [hff]
        rcases h.cover i hi with h1 | h1 | h1
        · rcases List.mem_cons.1 h1 with h2 | h2
          · exact Or.inr (Or.inl (by rw [h2]))
          · exact Or.inl h2
        · exact Or.inr (Or.inr (by simp [h1]))
        · exact Or.inr (Or.inr (List.mem_append_right _ h1))
    · intro a ha
      show (m1.free _).load a = _
      have e1 : (m1.free q._spare_chunk._ptr).load a = m1.load a := by
        simp only [heap.load, hfg a.1 ha]
      rw [e1, heap.upd_load u1 hcd rfl]

theorem cells_getLast {N : Nat} {L : List Nat} {lo hi : Nat} (hne : L ≠ [])
    (h1 : L.length = 1 → lo ≤ hi) :
    (cells N L lo hi).getLast? = some (L.getLast hne, hi) := by
  induction L generalizing lo with
  | nil => exact absurd rfl hne
  | cons c t ih =>
    cases t with
    | nil =>
      simp only [cells, List.getLast_singleton]
      rw [seg_snoc (h1 rfl)]
      simp
    | cons d t =>
      simp only [cells]
      have := @ih 0 (List.cons_ne_nil d t) (fun _ => Nat.zero_le _)
      rw [List.getLast?_append, this]
      simp [List.getLast_cons]

theorem qinv.slots_getLast {N : Nat} {q : queue T} {L : List Nat} (h : qinv N q L) :
    ∃ e, q._end_chunk = some e ∧ (q.slots N L).getLast? = some (e, q._end_pos) := by
  obtain ⟨e, he, _, hl⟩ := h.end_mem
  refine ⟨e, he, ?_⟩
  rw [← hl]
  exact cells_getLast h.hne h.order

theorem qinv.slots_head {N : Nat} {q : queue T} {L : List Nat} (h : qinv N q L) :
    ∃ b t, L = b :: t ∧ q.front = some (b, q._begin_pos) ∧
      q.slots N L = (b, q._begin_pos) :: cells N L (q._begin_pos + 1) q._end_pos := by
  obtain ⟨b, t, hL, hb⟩ := h.begin_mem
  refine ⟨b, t, hL, by simp [queue.front, hb], ?_⟩
  subst hL
  refine cells_cons (fun ht => h.order (by simp [ht])) h.bpos

theorem qinv.mem_slots {N : Nat} {q : queue T} {L : List Nat} (h : qinv N q L)
    {a : Nat × Nat} (ha : a ∈ q.slots N L) : a.1 ∈ L ∧ a.2 < N :=
  mem_cells h.epos ha

theorem qinv.slots_nodup {N : Nat} {q : queue T} {L : List Nat} (h : qinv N q L) :
    (q.slots N L).Nodup :=
  cells_nodup h.epos h.nodup

/-- The method `push()` on a queue that satisfies the invariant: the old end
slot becomes the back slot, one slot is added behind it and no stored element
changes. -/
theorem queue.push_spec {N : Nat} {q : queue T} {L : List Nat} (h : qinv N q L) :
    ∃ q1 L1 en, q.push N = some q1 ∧ qinv N q1 L1 ∧
      q1.slots N L1 = q.slots N L ++ [en] ∧
      q1._back_chunk = q._end_chunk ∧ q1._back_pos = q._end_pos ∧
      q1._begin_chunk = q._begin_chunk ∧ q1._begin_pos = q._begin_pos ∧
      (∀ a, q1.mem.load a = q.mem.load a) ∧
      queue.pushed N q q1 L L1 ∧ q1.mem.freed = q.mem.freed ∧
      q1._end_pos = (if q._end_pos + 1 = N then 0 else q._end_pos + 1) := by
  by_cases hc : q._end_pos + 1 = N
  · cases hs : q._spare_chunk._ptr with
    | none =>
      obtain ⟨q1, h1, h2, h3, h4, h5, h6, h7, h8, h9, h10, h11, h12⟩ := queue.push_alloc h hc hs
      refine ⟨q1, _, (q.mem.blocks.length, 0), h1, h2, ?_, h3, h4, h5, h6, h12,
        Or.inr (Or.inr ⟨hc, hs, rfl, h9, h10⟩), h11, by rw [h8, if_pos hc]⟩
      unfold queue.slots
      rw [h6, h8]
      exact cells_snoc_cross _ h.hne hc
    | some s =>
      obtain ⟨q1, h1, h2, h3, h4, h5, h6, h7, h8, h9, h10, h11, h12⟩ := queue.push_reuse h hc hs
      refine ⟨q1, _, (s, 0), h1, h2, ?_, h3, h4, h5, h6, h12,
        Or.inr (Or.inl ⟨hc, ⟨s, hs, rfl⟩, h9, h10⟩), h11, by rw [h8, if_pos hc]⟩
      unfold queue.slots
      rw [h6, h8]
      exact cells_snoc_cross _ h.hne hc
  · obtain ⟨h1, h2⟩ := queue.push_within h hc
    refine ⟨_, L, (L.getLast h.hne, q._end_pos + 1), h1, h2, ?_, rfl, rfl, rfl, rfl,
      fun _ => rfl, Or.inl ⟨hc, rfl, rfl, rfl⟩, rfl, by simp [hc]⟩
    exact cells_snoc_within h.hne (fun hl => Nat.le_succ_of_le (h.order hl))

/-- The method `pop()` on a queue that satisfies the invariant and has a slot
behind the front slot: the front slot is removed, the other slots and the
elements stored in them stay. -/
theorem queue.pop_spec {N : Nat} {q : queue T} {L : List Nat} (h : qinv N q L)
    (hlen : 2 ≤ (q.slots N L).length) :
    ∃ q1 L1 fr, q.pop N = some q1 ∧ qinv N q1 L1 ∧ q.front = some fr ∧
      q.slots N L = fr :: q1.slots N L1 ∧
      q1._back_chunk = q._back_chunk ∧ q1._back_pos = q._back_pos ∧
      q1._end_chunk = q._end_chunk ∧ q1._end_pos = q._end_pos ∧
      (∀ a, a.1 ∈ L → q1.mem.load a = q.mem.load a) ∧
      queue.popped N q q1 L L1 ∧ q1.mem.blocks.length = q.mem.blocks.length ∧
      q1._begin_pos = (if q._begin_pos + 1 = N then 0 else q._begin_pos + 1) := by
  obtain ⟨b, t, hL, hfr, hsl⟩ := h.slots_head
  by_cases hc : q._begin_pos + 1 = N
  · obtain ⟨b1, d, t1, q1, hL1, h1, h2, h3, h4, h5, h6, h7, h8, h9, h10, h11, h12⟩ :=
      queue.pop_cross h hc hlen
    refine ⟨q1, d :: t1, _, h1, h2, hfr, ?_, h5, h6, h7, h8, h12,
      Or.inr ⟨hc, ⟨b1, hL1, h9⟩, h11⟩, h10, by rw [h4, if_pos hc]⟩
    rw [hsl]
    unfold queue.slots
    rw [h4, h8, hc, hL1, cells_cross]
  · obtain ⟨h1, h2⟩ := queue.pop_within h hc hlen
    exact ⟨_, L, _, h1, h2, hfr, hsl, rfl, rfl, rfl, rfl, fun _ _ => rfl,
      Or.inl ⟨hc, rfl, rfl, rfl⟩, rfl, by simp [hc]⟩

/-- Storing an element keeps the queue invariant. -/
theorem qinv.store {N : Nat} {q : queue T} {L : List Nat} (h : qinv N q L)
    {a : Nat × Nat} (ha : a.1 ∈ L) (ha2 : a.2 < N) (v : T) :
    ∃ m, q.mem.store a v = some m ∧ qinv N { q with mem := m } L ∧
      m.load a = some v ∧ (∀ s, s ≠ a → m.load s = q.mem.load s) ∧
      m.blocks.length = q.mem.blocks.length ∧ m.freed = q.mem.freed := by
  obtain ⟨c, hc, hcl⟩ := h.valid a.1 ha
  obtain ⟨m, hm, u⟩ := heap.store_spec v hc (by omega)
  have hcl1 : ({ c with values := c.values.set a.2 (some v) } : chunk_t T).values.length = N := by
    simp [hcl]
  refine ⟨m, hm, ?_, ?_, ?_, u.2.1, u.1⟩
  · refine ⟨h.pos, h.nodup, h.hbegin, h.hend, h.hne, h.bpos, h.epos, h.order, ?_, ?_, ?_,
      by show m.freed.Nodup; rw [u.1]; exact h.freed_nodup, ?_, ?_⟩
    · intro i hi
      exact heap.upd_valid u hcl1 (h.valid i hi)
    · intro i x y hx hy
      show m.load_next (some x) = _
      rw [heap.upd_load_next u hc rfl]
      exact h.link i x y hx hy
    · intro s hs
      obtain ⟨h1, h2⟩ := h.spare_valid s hs
      exact ⟨h1, heap.upd_valid u hcl1 h2⟩
    · intro i hi
      show i < m.blocks.length
      rw [u.2.1]
      exact h.freed_lt i (by rw [← u.1]; exact hi)
    · intro i hi
      have hi : i < m.blocks.length := hi
      rw [u.2.1] at hi
      rcases h.cover i hi with h1 | h1 | h1
      · exact Or.inl h1
      · exact Or.inr (Or.inl h1)
      · exact Or.inr (Or.inr (by show i ∈ m.freed; rw [u.1]; exact h1))
  · rw [heap.load_eq (heap.upd_get_self u)]
    have : a.2 < c.values.length := by omega
    simp [this]
  · intro s hs
    by_cases hs1 : s.1 = a.1
    · have hs2 : s.2 ≠ a.2 := fun e => hs (Prod.ext hs1 e)
      have g1 : m.get (some s.1) = some { c with values := c.values.set a.2 (some v) } := by
        rw [hs1]; exact heap.upd_get_self u
      rw [heap.load_eq g1, heap.load_eq (hs1 ▸ hc)]
      simp only
      rw [List.getElem?_set_ne (Ne.symm hs2)]
    · exact heap.upd_load_ne u hs1

/-! ## The hand-off seen from outside -/

theorem pinv.len {N : Nat} {p : pipeline T} {a : view T} {L : List Nat}
    {rd : List (Nat × Nat)} {bk en : Nat × Nat} (h : pinv N p a L rd bk en) :
    rd.length = a.pend.length := h.hload.length_eq

theorem pinv.pre_nodup {N : Nat} {p : pipeline T} {a : view T} {L : List Nat}
    {rd : List (Nat × Nat)} {bk en : Nat × Nat} (h : pinv N p a L rd bk en) :
    (rd ++ [bk]).Nodup := by
  have := h.q.slots_nodup
  rw [h.hslots] at this
  have e : rd ++ [bk, en] = (rd ++ [bk]) ++ [en] := by simp
  rw [e] at this
  exact (List.nodup_append.1 this).1

theorem pinv.pre_some {N : Nat} {p : pipeline T} {a : view T} {L : List Nat}
    {rd : List (Nat × Nat)} {bk en : Nat × Nat} (h : pinv N p a L rd bk en) {j : Nat}
    (hj : j ≤ a.k) : ∃ x, (rd ++ [bk])[j]? = some x := by
  have h1 := h.len
  have h2 := h.hk
  have : j < (rd ++ [bk]).length := by simp; omega
  exact ⟨_, List.getElem?_eq_getElem this⟩

theorem pinv.pre_last {N : Nat} {p : pipeline T} {a : view T} {L : List Nat}
    {rd : List (Nat × Nat)} {bk en : Nat × Nat} (h : pinv N p a L rd bk en) :
    (rd ++ [bk])[a.pend.length]? = some bk := by
  rw [← h.len, List.getElem?_append_right (Nat.le_refl _)]
  simp

theorem pinv.front {N : Nat} {p : pipeline T} {a : view T} {L : List Nat}
    {rd : List (Nat × Nat)} {bk en : Nat × Nat} (h : pinv N p a L rd bk en) :
    ∃ fr, p._queue.front = some fr ∧ (rd ++ [bk])[0]? = some fr := by
  obtain ⟨b, t, _, hfr, hsl⟩ := h.q.slots_head
  refine ⟨_, hfr, ?_⟩
  have e := h.hslots
  rw [hsl] at e
  cases rd with
  | nil =>
    simp only [List.nil_append, List.cons.injEq] at e
    simp [e.1]
  | cons s rd =>
    simp only [List.cons_append, List.cons.injEq] at e
    simp [e.1]

/-- The constructor yields a pipeline that satisfies the invariant, with
nothing written, an empty spare slot and every allocated block live. -/
theorem pipeline.init_spec {N : Nat} (hN : 0 < N) :
    ∃ (p : pipeline T) (L : List Nat) (bk en : Nat × Nat), pipeline.init N = some p ∧
      pinv N p view.init L [] bk en ∧
      p._r = p._w ∧ p._w = p._f ∧ p._c._ptr = p._w ∧ p._queue.front = p._f ∧
      p._queue.back = p._f ∧ p._queue._spare_chunk._ptr = none ∧ p._queue.mem.freed = [] ∧
      p._queue.mem.blocks.length = L.length := by
  obtain ⟨q1, L1, en, h1, h2, h3, h4, h5, h6, h7, h8, h9, h10, _⟩ :=
    queue.push_spec (queue.init_inv (T := T) hN)
  have hb : q1.back = some (0, 0) := by
    simp only [queue.back, h4, h5]
    rfl
  have hfr : q1.front = some (0, 0) := by
    simp only [queue.front, h6, h7]
    rfl
  have hsl : q1.slots N L1 = [(0, 0), en] := by
    rw [h3]
    simp [queue.slots, queue.init, cells, seg]
  have hsp : q1._spare_chunk._ptr = none ∧ q1.mem.blocks.length = L1.length := by
    have hi0 : (queue.init N : queue T)._spare_chunk._ptr = none := rfl
    have hi1 : (queue.init N : queue T).mem.blocks.length = 1 := by
      simp [queue.init, heap.malloc, heap.empty]
    rcases h9 with ⟨_, e1, e2, e3⟩ | ⟨_, ⟨s, e1, _⟩, _⟩ | ⟨_, _, e1, e2, e3⟩
    · rw [e2, e3, e1, hi1]
      exact ⟨hi0, rfl⟩
    · rw [hi0] at e1
      exact absurd e1 (by simp)
    · rw [e3, e1, hi1]
      exact ⟨e2, rfl⟩
  refine ⟨{ _queue := q1, _w := some (0, 0), _r := some (0, 0), _f := some (0, 0),
            _c := (atomic_pointer.init).set (some (0, 0)) }, L1, (0, 0), en, ?_, ?_,
    rfl, rfl, rfl, hfr, hb, hsp.1, by rw [h10]; rfl, hsp.2⟩
  · simp only [pipeline.init, h1, hb]
  · refine ⟨h2, hsl, hb, List.Forall₂.nil, Nat.le_refl _, rfl, rfl,
      Or.inr ⟨0, Nat.le_refl _, rfl⟩, rfl, ?_⟩
    intro hp
    exact absurd hp (by simp [view.init])

/-- The constructor yields a pipeline that satisfies the invariant, with
nothing written. -/
theorem pipeline.init_pinv {N : Nat} (hN : 0 < N) :
    ∃ p : pipeline T, pipeline.init N = some p ∧ Inv N p view.init ∧
      p._r = p._w ∧ p._w = p._f ∧ p._c._ptr = p._w ∧ p._queue.front = p._f ∧
      p._queue.back = p._f ∧ p._queue._spare_chunk._ptr = none ∧ p._queue.mem.freed = [] := by
  obtain ⟨p, L, bk, en, h1, h2, h3, h4, h5, h6, h7, h8, h9, _⟩ := pipeline.init_spec (T := T) hN
  exact ⟨p, h1, ⟨L, [], bk, en, h2⟩, h3, h4, h5, h6, h7, h8, h9⟩

/-- The method `flush()` acts on the view as `view.step` says. -/
theorem pipeline.flush_sim {N : Nat} {p : pipeline T} {a : view T} {L : List Nat}
    {rd : List (Nat × Nat)} {bk en : Nat × Nat} (h : pinv N p a L rd bk en) :
    res.flag p.flush.1 = (a.step op.flush).1 ∧
      pinv N p.flush.2 (a.step op.flush).2 L rd bk en ∧ p.flush.2._queue = p._queue ∧
      p.flush.2._r = p._r := by
  have hlast := h.pre_last
  have hwf : p._w = p._f ↔ a.k = a.pend.length := by
    rw [h.hw, h.hf]
    constructor
    · intro e
      exact nodup_index_eq h.pre_nodup e hlast
    · intro e
      rw [e, hlast]
  by_cases hk : a.k = a.pend.length
  · have e1 : p.flush = (true, p) := by simp [pipeline.flush, hwf.2 hk]
    have e2 : a.step op.flush = (res.flag true, a) := by simp [view.step, hk]
    rw [e1, e2]
    exact ⟨rfl, h, rfl, rfl⟩
  · have hne : ¬ p._w = p._f := fun e => hk (hwf.1 e)
    have e2 : a.step op.flush
        = (res.flag (!a.parked), { a with k := a.pend.length, parked := false }) := by
      simp [view.step, hk]
    obtain ⟨x, hx⟩ := h.pre_some (Nat.le_refl a.k)
    have hwx : p._w = some x := by rw [h.hw, hx]
    cases hp : a.parked with
    | true =>
      have hcn : p._c._ptr = none := by rw [h.hc, hp]; rfl
      have e1 : p.flush = (false, { p with _c := ⟨p._f⟩, _w := p._f }) := by
        have hne1 : ¬ some x = p._f := hwx ▸ hne
        simp [pipeline.flush, hne1, atomic_pointer.cas, hcn, hwx, atomic_pointer.set]
      rw [e1, e2, hp]
      refine ⟨rfl, ?_, rfl, rfl⟩
      refine ⟨h.q, h.hslots, h.hback, h.hload, Nat.le_refl _, h.hf, ?_, ?_, ?_, ?_⟩
      · show p._f = _
        rw [h.hf, hlast]
      · rcases h.hr with hr | ⟨j, hj, hr⟩
        · exact Or.inl hr
        · exact Or.inr ⟨j, Nat.le_trans hj h.hk, hr⟩
      · rfl
      · intro hh
        exact absurd hh (by simp)
    | false =>
      have hcw : p._c._ptr = p._w := by rw [h.hc, hp]; rfl
      have e1 : p.flush = (true, { p with _c := ⟨p._f⟩, _w := p._f }) := by
        simp [pipeline.flush, hne, atomic_pointer.cas, hcw]
      rw [e1, e2, hp]
      refine ⟨rfl, ?_, rfl, rfl⟩
      refine ⟨h.q, h.hslots, h.hback, h.hload, Nat.le_refl _, h.hf, ?_, ?_, ?_, ?_⟩
      · show p._f = _
        rw [h.hf, hlast]
      · rcases h.hr with hr | ⟨j, hj, hr⟩
        · exact Or.inl hr
        · exact Or.inr ⟨j, Nat.le_trans hj h.hk, hr⟩
      · rfl
      · intro hh
        exact absurd hh (by simp)

/-- The method `check_read()` returns true exactly when a published value is
unread; it changes at most `_r` and `_c`. -/
theorem pipeline.check_read_spec {N : Nat} {p : pipeline T} {a : view T} {L : List Nat}
    {rd : List (Nat × Nat)} {bk en : Nat × Nat} (h : pinv N p a L rd bk en) :
    ∃ p1, p.check_read = some (decide (0 < a.k), p1) ∧
      pinv N p1 { a with parked := a.parked || decide (a.k = 0) } L rd bk en ∧
      p1._queue = p._queue ∧ p1._w = p._w ∧ p1._f = p._f ∧
      (0 < a.k → ∃ j, 1 ≤ j ∧ j ≤ a.k ∧ p1._r = (rd ++ [bk])[j]?) := by
  obtain ⟨fr, hfr, h0⟩ := h.front
  have hnd := h.pre_nodup
  -- the branch that republishes nothing: `_r` already points behind the front slot
  have fast : ∀ j, 1 ≤ j → j ≤ a.k → p._r = (rd ++ [bk])[j]? →
      ∃ p1, p.check_read = some (decide (0 < a.k), p1) ∧
      pinv N p1 { a with parked := a.parked || decide (a.k = 0) } L rd bk en ∧
      p1._queue = p._queue ∧ p1._w = p._w ∧ p1._f = p._f ∧
      (0 < a.k → ∃ j, 1 ≤ j ∧ j ≤ a.k ∧ p1._r = (rd ++ [bk])[j]?) := by
    intro j hj1 hjk hr
    obtain ⟨x, hx⟩ := h.pre_some hjk
    have hxfr : x ≠ fr := by
      intro e
      have := nodup_index_eq hnd (e ▸ hx) h0
      omega
    have hrx : p._r = some x := by rw [hr, hx]
    have hk0 : 0 < a.k := by omega
    have hk1 : ¬ a.k = 0 := by omega
    have ea : ({ a with parked := a.parked || decide (a.k = 0) } : view T) = a := by
      cases a
      simp at hk1 ⊢
      simp [hk1]
    refine ⟨p, ?_, by rw [ea]; exact h, rfl, rfl, rfl, fun _ => ⟨j, hj1, hjk, hr⟩⟩
    simp [pipeline.check_read, hfr, hrx, Ne.symm hxfr, hk0]
  -- the branch through the compare-and-swap
  have slow : (p._r = none ∨ p._r = some fr) →
      ∃ p1, p.check_read = some (decide (0 < a.k), p1) ∧
      pinv N p1 { a with parked := a.parked || decide (a.k = 0) } L rd bk en ∧
      p1._queue = p._queue ∧ p1._w = p._w ∧ p1._f = p._f ∧
      (0 < a.k → ∃ j, 1 ≤ j ∧ j ≤ a.k ∧ p1._r = (rd ++ [bk])[j]?) := by
    intro hr
    have hcond : ¬ (some fr ≠ p._r ∧ p._r ≠ none) := by
      rcases hr with hr | hr
      · simp [hr]
      · simp [hr]
    cases hp : a.parked with
    | true =>
      have hk0 : a.k = 0 := h.hpark hp
      have hcn : p._c._ptr = none := by rw [h.hc, hp]; rfl
      refine ⟨{ p with _r := none }, ?_, ?_, rfl, rfl, rfl, fun hh => by omega⟩
      · simp only [pipeline.check_read, hfr, hcond, if_false, atomic_pointer.cas, hcn]
        simp [hk0]
      · refine ⟨h.q, h.hslots, h.hback, h.hload, h.hk, h.hf, h.hw, Or.inl rfl, ?_, ?_⟩
        · show p._c._ptr = _
          simp [hcn]
        · intro _
          exact hk0
    | false =>
      have hcw : p._c._ptr = p._w := by rw [h.hc, hp]; rfl
      by_cases hk0 : a.k = 0
      · have hwfr : p._w = some fr := by rw [h.hw, hk0, h0]
        refine ⟨{ p with _r := some fr, _c := ⟨none⟩ }, ?_, ?_, rfl, rfl, rfl,
          fun hh => by omega⟩
        · simp only [pipeline.check_read, hfr, hcond, if_false, atomic_pointer.cas, hcw, hwfr]
          simp [hk0]
        · refine ⟨h.q, h.hslots, h.hback, h.hload, h.hk, h.hf, h.hw,
            Or.inr ⟨0, Nat.zero_le _, h0.symm⟩, ?_, ?_⟩
          · simp [hk0]
          · intro _
            exact hk0
      · obtain ⟨x, hx⟩ := h.pre_some (Nat.le_refl a.k)
        have hwx : p._w = some x := by rw [h.hw, hx]
        have hxfr : x ≠ fr := by
          intro e
          have := nodup_index_eq hnd (e ▸ hx) h0
          omega
        have hk1 : 0 < a.k := by omega
        refine ⟨{ p with _r := some x }, ?_, ?_, rfl, rfl, rfl,
          fun _ => ⟨a.k, hk1, Nat.le_refl _, hx.symm⟩⟩
        · simp only [pipeline.check_read, hfr, hcond, if_false, atomic_pointer.cas, hcw, hwx]
          simp [Ne.symm hxfr, hxfr, hk1]
        · refine ⟨h.q, h.hslots, h.hback, h.hload, h.hk, h.hf, h.hw,
            Or.inr ⟨a.k, Nat.le_refl _, hx.symm⟩, ?_, ?_⟩
          · show p._c._ptr = _
            simp [hcw, hk0]
          · intro hh
            simp [hk0] at hh
  rcases h.hr with hr | ⟨j, hj, hr⟩
  · exact slow (Or.inl hr)
  · by_cases hj0 : j = 0
    · exact slow (Or.inr (by rw [hr, hj0, h0]))
    · exact fast j (by omega) hj hr

theorem forall2_imp_mem {α β : Type} {R S : α → β → Prop} {l1 : List α} {l2 : List β}
    (h : List.Forall₂ R l1 l2) (hi : ∀ a ∈ l1, ∀ b, R a b → S a b) : List.Forall₂ S l1 l2 := by
  induction h with
  | nil => exact List.Forall₂.nil
  | cons hab _ ih =>
    exact List.Forall₂.cons (hi _ (List.mem_cons_self _ _) _ hab)
      (ih (fun a ha b hr => hi a (List.mem_cons_of_mem _ ha) b hr))

/-- The method `write(value_)` stores the value in the back slot and appends it
to the unread values; the queue grows by one `push()`. -/
theorem pipeline.write_spec {N : Nat} {p : pipeline T} {a : view T} {L : List Nat}
    {rd : List (Nat × Nat)} {bk en : Nat × Nat} (v : T) (h : pinv N p a L rd bk en) :
    ∃ p1 L1 en1, p.write N v = some p1 ∧
      pinv N p1 { a with pend := a.pend ++ [v] } L1 (rd ++ [bk]) en en1 ∧
      p1._w = p._w ∧ p1._r = p._r ∧ p1._c = p._c ∧
      queue.pushed N p._queue p1._queue L L1 ∧
      p1._queue.mem.freed = p._queue.mem.freed ∧
      p1._queue._begin_pos = p._queue._begin_pos ∧
      p1._queue._end_pos = (if p._queue._end_pos + 1 = N then 0 else p._queue._end_pos + 1) := by
  have hbkmem : bk ∈ p._queue.slots N L := by rw [h.hslots]; simp
  obtain ⟨hb1, hb2⟩ := h.q.mem_slots hbkmem
  obtain ⟨m, hm, hq0, hlv, hlo, hbl0, hfr0⟩ := h.q.store hb1 hb2 v
  obtain ⟨q1, L1, en1, g1, g2, g3, g4, g5, g6, g7, g8, g9, g10, g11⟩ := queue.push_spec hq0
  obtain ⟨e, he, hlastq⟩ := h.q.slots_getLast
  have hen : en = (e, p._queue._end_pos) := by
    rw [h.hslots] at hlastq
    have e1 : rd ++ [bk, en] = (rd ++ [bk]) ++ [en] := by simp
    rw [e1, List.getLast?_append] at hlastq
    simpa using hlastq
  have hb1 : q1.back = some en := by
    simp only [queue.back, g4, g5]
    show (match p._queue._end_chunk with
      | none => none
      | some b => some (b, p._queue._end_pos)) = _
    rw [he, hen]
  have hsl1 : q1.slots N L1 = (rd ++ [bk]) ++ [en, en1] := by
    rw [g3]
    show p._queue.slots N L ++ [en1] = _
    rw [h.hslots]
    simp
  have hnd := h.q.slots_nodup
  rw [h.hslots] at hnd
  have hlen := h.len
  have hk := h.hk
  refine ⟨{ p with _queue := q1, _f := some en }, L1, en1, ?_, ?_,
    rfl, rfl, rfl, ?_, by show q1.mem.freed = _; rw [g10]; exact hfr0, g7, g11⟩
  rotate_left 2
  · unfold queue.pushed at g9 ⊢
    simp only [hbl0] at g9
    exact g9
  · simp only [pipeline.write, h.hback, hm, g1, hb1]
  · refine ⟨g2, hsl1, hb1, ?_, ?_, rfl, ?_, ?_, h.hc, h.hpark⟩
    · apply List.rel_append
      · refine forall2_imp_mem h.hload ?_
        intro s hs w hw
        have hsb : s ≠ bk := by
          intro e
          rw [List.nodup_append] at hnd
          exact hnd.2.2 hs (by simp [e])
        show q1.mem.load s = some w
        rw [g8]
        show m.load s = some w
        rw [hlo s hsb]
        exact hw
      · exact List.Forall₂.cons (by show q1.mem.load bk = some v; rw [g8]; exact hlv)
          List.Forall₂.nil
    · show a.k ≤ (a.pend ++ [v]).length
      simp
      omega
    · show p._w = (rd ++ [bk] ++ [en])[a.k]?
      have e1 : (rd ++ [bk] ++ [en])[a.k]? = (rd ++ [bk])[a.k]? :=
        List.getElem?_append_left (by simp; omega)
      rw [h.hw, e1]
    · rcases h.hr with hr | ⟨j, hj, hr⟩
      · exact Or.inl hr
      · refine Or.inr ⟨j, hj, ?_⟩
        show p._r = (rd ++ [bk] ++ [en])[j]?
        have e1 : (rd ++ [bk] ++ [en])[j]? = (rd ++ [bk])[j]? :=
          List.getElem?_append_left (by simp; omega)
        rw [hr, e1]

/-- The method `write(value_)` appends the value to the unread values. -/
theorem pipeline.write_sim {N : Nat} {p : pipeline T} {a : view T} (v : T)
    (h : Inv N p a) :
    ∃ p1, p.write N v = some p1 ∧ Inv N p1 { a with pend := a.pend ++ [v] } := by
  obtain ⟨L, rd, bk, en, h⟩ := h
  obtain ⟨p1, L1, en1, h1, h2, _⟩ := pipeline.write_spec v h
  exact ⟨p1, h1, ⟨L1, rd ++ [bk], en, en1, h2⟩⟩

/-- The method `read(value_)` fails, leaving the destination alone, when no
published value is unread. -/
theorem pipeline.read_empty {N : Nat} {p : pipeline T} {a : view T} (x : T)
    (h : Inv N p a) (hk : a.k = 0) :
    ∃ p1, p.read N x = some (false, x, p1) ∧ Inv N p1 { a with parked := true } ∧
      p1._queue = p._queue ∧ p1._w = p._w ∧ p1._f = p._f := by
  obtain ⟨L, rd, bk, en, h⟩ := h
  obtain ⟨p1, h1, h2, h3, h4, h5, _⟩ := pipeline.check_read_spec h
  have e1 : decide (0 < a.k) = false := by simp [hk]
  have e2 : (a.parked || decide (a.k = 0)) = true := by simp [hk]
  rw [e1] at h1
  rw [e2] at h2
  refine ⟨p1, ?_, ⟨L, rd, bk, en, h2⟩, h3, h4, h5⟩
  simp only [pipeline.read, h1]

/-- The method `read(value_)` delivers the oldest unread value when a
published value is unread; the queue shrinks by one `pop()`. -/
theorem pipeline.read_spec {N : Nat} {p : pipeline T} {a : view T} {L : List Nat}
    {rd : List (Nat × Nat)} {bk en : Nat × Nat} (x : T) (h : pinv N p a L rd bk en)
    {k : Nat} (hk : a.k = k + 1) :
    ∃ v rest s0 rd0 p1 L1, a.pend = v :: rest ∧ rd = s0 :: rd0 ∧
      p.read N x = some (true, v, p1) ∧
      pinv N p1 { pend := rest, k := k, parked := a.parked } L1 rd0 bk en ∧
      p1._w = p._w ∧ p1._f = p._f ∧ p1._c = p._c ∧
      queue.popped N p._queue p1._queue L L1 ∧
      p1._queue.mem.blocks.length = p._queue.mem.blocks.length ∧
      p1._queue._begin_pos =
        (if p._queue._begin_pos + 1 = N then 0 else p._queue._begin_pos + 1) ∧
      p1._queue._end_pos = p._queue._end_pos := by
  obtain ⟨p1, h1, h2, h3, h4, h5, h6⟩ := pipeline.check_read_spec h
  have e1 : decide (0 < a.k) = true := by simp [hk]
  have e2 : (a.parked || decide (a.k = 0)) = a.parked := by simp [hk]
  have ea : ({ a with parked := a.parked || decide (a.k = 0) } : view T) = a := by
    rw [e2]
  rw [e1] at h1
  rw [ea] at h2
  obtain ⟨j, hj1, hjk, hrj⟩ := h6 (by omega)
  have hkl := h2.hk
  have hlen := h2.len
  match hpe : a.pend, hrd : rd with
  | [], _ =>
    rw [hpe] at hkl
    simp at hkl
    omega
  | v :: rest, [] =>
    rw [hpe] at hlen
    simp at hlen
  | v :: rest, s0 :: rd0 =>
    have hload := h2.hload
    rw [hpe] at hload
    obtain ⟨hl0, hlr⟩ := List.forall₂_cons.1 hload
    have hsl2 : 2 ≤ (p1._queue.slots N L).length := by
      rw [h2.hslots]; simp
    obtain ⟨q1, L1, fr, g1, g2, g3, g4, g5, g6, g7, g8, g9, g10, g11, g12⟩ :=
      queue.pop_spec h2.q hsl2
    have hfr : fr = s0 ∧ q1.slots N L1 = rd0 ++ [bk, en] := by
      have := g4
      rw [h2.hslots] at this
      simp only [List.cons_append, List.cons.injEq] at this
      exact ⟨this.1.symm, this.2.symm⟩
    have hb1 : q1.back = some bk := by
      have := h2.hback
      simp only [queue.back, g5, g6] at this ⊢
      exact this
    rw [h3] at g10 g11 g12 g8
    refine ⟨v, rest, s0, rd0, { p1 with _queue := q1 }, L1, rfl, rfl, ?_, ?_, h4, h5, ?_,
      g10, g11, g12, g8⟩
    · simp only [pipeline.read, h1, g3, hfr.1, hl0, g1]
    · refine ⟨g2, hfr.2, hb1, ?_, ?_, h2.hf, ?_, ?_, ?_, ?_⟩
      · refine forall2_imp_mem hlr ?_
        intro s hs w hw
        have hsm : s ∈ p1._queue.slots N L := by
          rw [h2.hslots]
          simp [hs]
        show q1.mem.load s = some w
        rw [g9 s (h2.q.mem_slots hsm).1]
        exact hw
      · show k ≤ rest.length
        rw [hpe] at hkl
        simp at hkl
        omega
      · show p1._w = (rd0 ++ [bk])[k]?
        rw [h2.hw, hk]
        simp
      · right
        refine ⟨j - 1, by show j - 1 ≤ k; omega, ?_⟩
        show p1._r = (rd0 ++ [bk])[j - 1]?
        rw [hrj]
        obtain ⟨j0, rfl⟩ : ∃ j0, j = j0 + 1 := ⟨j - 1, by omega⟩
        simp
      · exact h2.hc
      · intro hp
        have := h2.hpark hp
        omega
    · have : p1._c._ptr = p._c._ptr := by
        have c1 := h2.hc
        have c2 := h.hc
        rw [h4] at c1
        rw [c1, c2]
      cases hc1 : p1._c
      cases hc2 : p._c
      simp only [hc1, hc2] at this
      simp [this]

/-- The method `read(value_)` delivers the oldest unread value when a
published value is unread. -/
theorem pipeline.read_ready {N : Nat} {p : pipeline T} {a : view T} (x : T)
    (h : Inv N p a) {k : Nat} (hk : a.k = k + 1) :
    ∃ v rest p1, a.pend = v :: rest ∧ p.read N x = some (true, v, p1) ∧
      Inv N p1 { pend := rest, k := k, parked := a.parked } ∧ p1._w = p._w ∧ p1._f = p._f ∧
      p1._c = p._c := by
  obtain ⟨L, rd, bk, en, h⟩ := h
  obtain ⟨v, rest, s0, rd0, p1, L1, h1, _, h2, h3, h4, h5, h6, _⟩ := pipeline.read_spec x h hk
  exact ⟨v, rest, p1, h1, h2, ⟨L1, rd0, bk, en, h3⟩, h4, h5, h6⟩

/-- Every operation is defined on a pipeline that satisfies the invariant,
returns what the view predicts and re-establishes the invariant. -/
theorem pipeline.step_sim {N : Nat} {p : pipeline T} {a : view T} (o : op T)
    (h : Inv N p a) :
    ∃ p1, p.step N o = some ((a.step o).1, p1) ∧ Inv N p1 (a.step o).2 := by
  cases o with
  | write v =>
    obtain ⟨p1, h1, h2⟩ := pipeline.write_sim v h
    exact ⟨p1, by simp only [pipeline.step, h1, view.step], h2⟩
  | flush =>
    obtain ⟨L, rd, bk, en, h⟩ := h
    obtain ⟨h1, h2, _⟩ := pipeline.flush_sim h
    exact ⟨p.flush.2, by simp only [pipeline.step, h1], ⟨L, rd, bk, en, h2⟩⟩
  | check_read =>
    obtain ⟨L, rd, bk, en, h⟩ := h
    obtain ⟨p1, h1, h2, _⟩ := pipeline.check_read_spec h
    exact ⟨p1, by simp only [pipeline.step, h1, view.step], ⟨L, rd, bk, en, h2⟩⟩
  | read x =>
    cases hk : a.k with
    | zero =>
      obtain ⟨p1, h1, h2, _⟩ := pipeline.read_empty x h hk
      refine ⟨p1, ?_, ?_⟩
      · simp only [pipeline.step, h1, view.step, hk]
      · simpa only [view.step, hk] using h2
    | succ k =>
      obtain ⟨v, rest, p1, hp, h1, h2, _⟩ := pipeline.read_ready x h hk
      refine ⟨p1, ?_, ?_⟩
      · simp only [pipeline.step, h1, view.step, hk, hp]
      · simpa only [view.step, hk, hp] using h2

/-- A sequence of operations is defined on a pipeline that satisfies the
invariant and returns what the view predicts. -/
theorem pipeline.run_sim {N : Nat} (os : List (op T)) {p : pipeline T} {a : view T}
    (h : Inv N p a) :
    ∃ p1, p.run N os = some ((a.run os).1, p1) ∧ Inv N p1 (a.run os).2 := by
  induction os generalizing p a with
  | nil => exact ⟨p, rfl, h⟩
  | cons o os ih =>
    obtain ⟨p1, h1, h2⟩ := pipeline.step_sim o h
    obtain ⟨p2, h3, h4⟩ := ih h2
    exact ⟨p2, by simp only [pipeline.run, h1, h3, view.run], h4⟩

/-- A sequence of operations is defined on a fresh pipeline and returns what
the view predicts. -/
theorem pipeline.run_fresh_sim {N : Nat} (hN : 0 < N) (os : List (op T)) :
    ∃ p1, pipeline.run_fresh N os = some (((view.init : view T).run os).1, p1) ∧
      Inv N p1 ((view.init : view T).run os).2 := by
  obtain ⟨p, h1, h2, _⟩ := pipeline.init_pinv (T := T) hN
  obtain ⟨p1, h3, h4⟩ := pipeline.run_sim os h2
  exact ⟨p1, by simp only [pipeline.run_fresh, h1, h3], h4⟩

/-! ## Histories and the view -/

theorem view.step_read_zero (a : view T) (x : T) (hk : a.k = 0) :
    a.step (op.read x) = (res.got false x, { a with parked := true }) := by
  simp only [view.step, hk]

theorem view.step_read_succ (a : view T) (x : T) {k : Nat} {v : T} {rest : List T}
    (hk : a.k = k + 1) (hp : a.pend = v :: rest) :
    a.step (op.read x) = (res.got true v, { pend := rest, k := k, parked := a.parked }) := by
  simp only [view.step, hk, hp]

/-- The three shapes of a view in which no more values are published than
are unread, as `read` sees them. -/
theorem view.read_cases (a : view T) (h : a.k ≤ a.pend.length) :
    a.k = 0 ∨ ∃ k v rest, a.k = k + 1 ∧ a.pend = v :: rest := by
  cases hk : a.k with
  | zero => exact Or.inl rfl
  | succ k =>
    right
    cases hp : a.pend with
    | nil =>
      rw [hk, hp] at h
      simp at h
    | cons v rest => exact ⟨k, v, rest, rfl, rfl⟩

theorem view.step_wf (a : view T) (o : op T) (h : a.k ≤ a.pend.length) :
    (a.step o).2.k ≤ (a.step o).2.pend.length := by
  cases o with
  | write v =>
    simp only [view.step, List.length_append, List.length_singleton]
    omega
  | flush =>
    simp only [view.step]
    split
    · exact h
    · exact Nat.le_refl _
  | check_read => exact h
  | read x =>
    rcases a.read_cases h with hk | ⟨k, v, rest, hk, hp⟩
    · rw [a.step_read_zero x hk]
      exact h
    · rw [a.step_read_succ x hk hp]
      rw [hk, hp] at h
      simpa using h

/-- The values delivered followed by the values still unread are the values
unread at the start followed by the values written. -/
theorem view.run_fifo (os : List (op T)) (a : view T) (h : a.k ≤ a.pend.length) :
    delivered (a.run os).1 ++ (a.run os).2.pend = a.pend ++ written os := by
  induction os generalizing a with
  | nil => simp [view.run, delivered, written]
  | cons o os ih =>
    have hw := a.step_wf o h
    have := ih (a.step o).2 hw
    simp only [view.run]
    cases o with
    | write v =>
      simp only [view.step, delivered, written] at this ⊢
      rw [this]
      simp
    | flush =>
      have e : (a.step op.flush).2.pend = a.pend := by
        simp only [view.step]
        split <;> rfl
      rw [e] at this
      have e1 : ∃ b, (a.step op.flush).1 = res.flag b := by
        simp only [view.step]
        split
        · exact ⟨_, rfl⟩
        · exact ⟨_, rfl⟩
      obtain ⟨b, hb⟩ := e1
      rw [hb]
      simpa only [delivered, written] using this
    | check_read =>
      simpa only [view.step, delivered, written] using this
    | read x =>
      rcases a.read_cases h with hk | ⟨k, v, rest, hk, hp⟩
      · rw [a.step_read_zero x hk] at this ⊢
        simpa only [delivered, written] using this
      · rw [a.step_read_succ x hk hp] at this ⊢
        simp only [delivered, written, hp] at this ⊢
        rw [List.cons_append, this]
        rfl

/-- Counting: the published unread values and the values delivered add up to
the writes made before the most recent `flush`. -/
theorem view.run_count (os : List (op T)) (a : view T) (n w f : Nat)
    (h : a.k ≤ a.pend.length) (hf : a.k + n = f) (hw : a.pend.length + n = w) :
    (a.run os).2.k + n + (delivered (a.run os).1).length = flushed_from w f os ∧
      (a.run os).2.k ≤ (a.run os).2.pend.length := by
  induction os generalizing a n w f with
  | nil =>
    simp only [view.run, delivered, flushed_from, List.length_nil]
    exact ⟨by omega, h⟩
  | cons o os ih =>
    have hwf := a.step_wf o h
    simp only [view.run]
    cases o with
    | write v =>
      have := ih (a.step (op.write v)).2 n (w + 1) f hwf hf
        (by simp only [view.step, List.length_append, List.length_singleton]; omega)
      simpa only [view.step, delivered, flushed_from] using this
    | flush =>
      have e : ∃ b, (a.step op.flush).1 = res.flag b ∧
          (a.step op.flush).2.k = a.pend.length ∧
          (a.step op.flush).2.pend = a.pend := by
        simp only [view.step]
        split
        · next hk => exact ⟨_, rfl, hk, rfl⟩
        · exact ⟨_, rfl, rfl, rfl⟩
      obtain ⟨b, hb, hk1, hp1⟩ := e
      have := ih (a.step op.flush).2 n w w hwf (by rw [hk1]; exact hw) (by rw [hp1]; exact hw)
      rw [hb]
      simpa only [delivered, flushed_from] using this
    | check_read =>
      have := ih (a.step op.check_read).2 n w f hwf hf hw
      simpa only [view.step, delivered, flushed_from] using this
    | read x =>
      rcases a.read_cases h with hk | ⟨k, v, rest, hk, hp⟩
      · have := ih (a.step (op.read x)).2 n w f hwf
          (by rw [a.step_read_zero x hk]; exact hf) (by rw [a.step_read_zero x hk]; exact hw)
        rw [a.step_read_zero x hk] at this ⊢
        simpa only [delivered, flushed_from] using this
      · have := ih (a.step (op.read x)).2 (n + 1) w f hwf
          (by rw [a.step_read_succ x hk hp]; show k + (n + 1) = f; omega)
          (by rw [a.step_read_succ x hk hp]; show rest.length + (n + 1) = w
              rw [hp] at hw; simp at hw; omega)
        rw [a.step_read_succ x hk hp] at this ⊢
        simp only [delivered, flushed_from, List.length_cons] at this ⊢
        refine ⟨by omega, this.2⟩

/-- The flush-parked signal holds along every run of the view. -/
theorem view.run_signal (os : List (op T)) (a : view T) (h : a.k ≤ a.pend.length) :
    flush_signal a.parked (decide (a.k ≠ a.pend.length)) (os.zip (a.run os).1) := by
  induction os generalizing a with
  | nil => simp [view.run, flush_signal]
  | cons o os ih =>
    have hwf := a.step_wf o h
    have := ih (a.step o).2 hwf
    simp only [view.run, List.zip_cons_cons]
    cases o with
    | write v =>
      simp only [flush_signal]
      have e : decide ((a.step (op.write v)).2.k ≠ (a.step (op.write v)).2.pend.length) = true := by
        simp only [view.step, List.length_append, List.length_singleton, decide_eq_true_eq]
        omega
      rw [e] at this
      exact this
    | flush =>
      simp only [flush_signal]
      by_cases hk : a.k = a.pend.length
      · have e : a.step op.flush = (res.flag true, a) := by simp [view.step, hk]
        rw [e] at this ⊢
        simp only [hk, ne_eq, not_true_eq_false, decide_False, Bool.and_false, Bool.not_false,
          Bool.not_true, Bool.and_true, true_and] at this ⊢
        exact this
      · have e : a.step op.flush
            = (res.flag (!a.parked), { a with k := a.pend.length, parked := false }) := by
          simp [view.step, hk]
        rw [e] at this ⊢
        simp only [hk, ne_eq, not_false_eq_true, decide_True, Bool.and_true, Bool.not_true,
          Bool.and_false, true_and, not_true_eq_false, decide_False] at this ⊢
        exact this
    | check_read =>
      simp only [flush_signal]
      have e : (a.parked || (a.step op.check_read).1.failed) = (a.step op.check_read).2.parked := by
        simp only [view.step]
        by_cases hk : a.k = 0
        · simp [hk, res.failed]
        · have : 0 < a.k := by omega
          simp [hk, this, res.failed]
      rw [e]
      exact this
    | read x =>
      simp only [flush_signal]
      rcases a.read_cases h with hk | ⟨k, v, rest, hk, hp⟩
      · rw [a.step_read_zero x hk] at this ⊢
        simpa only [res.failed, Bool.or_true] using this
      · rw [a.step_read_succ x hk hp] at this ⊢
        have e : decide (k ≠ rest.length) = decide (a.k ≠ a.pend.length) := by
          rw [hk, hp]
          simp
        simp only [e] at this
        simpa only [res.failed, Bool.or_false] using this

/-- Once everything unread is published, as many reads as there are unread
values deliver them in order. -/
theorem view.run_drain (x : T) (pend : List T) (parked : Bool) :
    ((⟨pend, pend.length, parked⟩ : view T).run (List.replicate pend.length (op.read x))).1
      = pend.map (res.got true) := by
  induction pend with
  | nil => rfl
  | cons v rest ih =>
    simp only [List.length_cons, List.replicate_succ, view.run, List.map_cons]
    rw [view.step_read_succ _ x rfl rfl]
    simp only [ih]

/-! ## Channel runs -/

theorem channel.run_append (N fuel : Nat) (os1 os2 : List (cop T)) (c : channel T) :
    channel.run N fuel (os1 ++ os2) c =
      match channel.run N fuel os1 c with
      | none => none
      | some (r1, c1) =>
        match channel.run N fuel os2 c1 with
        | none => none
        | some (r2, c2) => some (r1 ++ r2, c2) := by
  induction os1 generalizing c with
  | nil =>
    simp only [List.nil_append, channel.run]
    cases channel.run N fuel os2 c with
    | none => rfl
    | some x => rfl
  | cons o os ih =>
    rw [List.cons_append]
    simp only [channel.run]
    cases h1 : c.step N fuel o with
    | none => rfl
    | some x =>
      obtain ⟨r, c1⟩ := x
      simp only
      rw [ih c1]
      cases h2 : channel.run N fuel os c1 with
      | none => rfl
      | some y =>
        obtain ⟨r1, c2⟩ := y
        simp only
        cases h3 : channel.run N fuel os2 c2 with
        | none => rfl
        | some z => simp

/-- Appends and flush markers are defined; they deliver nothing and add the
appended values to the unread values. -/
theorem channel.run_sends {N : Nat} (fuel : Nat) (ms : List (Option T)) {c : channel T}
    {a : view T} (h : Inv N c.pipe_ a) :
    ∃ c1 a1, channel.run N fuel (sends ms) c = some ([], c1) ∧ Inv N c1.pipe_ a1 ∧
      a1.pend = a.pend ++ ms.reduceOption := by
  induction ms generalizing c a with
  | nil => exact ⟨c, a, rfl, h, by simp⟩
  | cons m ms ih =>
    cases m with
    | none =>
      obtain ⟨L, rd, bk, en, h0⟩ := h
      obtain ⟨_, h2, _⟩ := pipeline.flush_sim h0
      have hi : Inv N (c.append_end).pipe_ (a.step op.flush).2 := ⟨L, rd, bk, en, h2⟩
      obtain ⟨c1, a1, g1, g2, g3⟩ := ih hi
      refine ⟨c1, a1, ?_, g2, ?_⟩
      · simp only [sends, channel.run, channel.step, g1, Option.toList_none, List.nil_append]
      · rw [g3, List.reduceOption_cons_of_none]
        congr 1
        simp only [view.step]
        split <;> rfl
    | some v =>
      obtain ⟨p1, h1, h2⟩ := pipeline.write_sim v h
      have hi : Inv N ({ c with pipe_ := p1 } : channel T).pipe_ { a with pend := a.pend ++ [v] } :=
        h2
      obtain ⟨c1, a1, g1, g2, g3⟩ := ih hi
      refine ⟨c1, a1, ?_, g2, ?_⟩
      · simp only [sends, channel.run, channel.step, channel.append, h1, g1, Option.toList_none,
          List.nil_append]
      · rw [g3, List.reduceOption_cons_of_some]
        simp

/-- Once everything unread is published, as many receives as there are unread
values return after one read each and deliver the values in order. -/
theorem channel.run_gets {N : Nat} (fuel : Nat) (x : T) (pend : List T) {c : channel T}
    {parked : Bool} (h : Inv N c.pipe_ ⟨pend, pend.length, parked⟩) :
    ∃ c1, channel.run N (fuel + 1) (List.replicate pend.length (cop.get x)) c
      = some (pend, c1) := by
  induction pend generalizing c with
  | nil => exact ⟨c, rfl⟩
  | cons v rest ih =>
    obtain ⟨v1, rest1, p1, hp, h1, h2, _⟩ :=
      pipeline.read_ready x h (k := rest.length) rfl
    have e : v1 = v ∧ rest1 = rest := by
      have : v :: rest = v1 :: rest1 := hp
      simp only [List.cons.injEq] at this
      exact ⟨this.1.symm, this.2.symm⟩
    rw [e.1] at h1
    rw [e.2] at h2
    have hi : Inv N ({ c with pipe_ := p1 } : channel T).pipe_ ⟨rest, rest.length, parked⟩ := h2
    obtain ⟨c1, g1⟩ := ih hi
    refine ⟨c1, ?_⟩
    simp only [List.length_cons, List.replicate_succ, channel.run, channel.step,
      channel.receive, h1, g1, Option.toList_some, List.singleton_append]

/-! ## The contract of the pipeline -/

/-- C1: for every chunk size `N ≥ 1` and every sequence of `write`, `flush`,
`check_read` and `read` operations applied one at a time to a fresh pipeline,
the run is defined and the values delivered by the successful reads, in order,
are an initial segment of the values written, in write order: nothing is
skipped, reordered or delivered twice. -/
theorem C1_delivered_initial_segment (T : Type) (N : Nat) (hN : 1 ≤ N) (os : List (op T)) :
    ∃ rs p, pipeline.run_fresh N os = some (rs, p) ∧ delivered rs <+: written os := by
  obtain ⟨p, h1, _⟩ := pipeline.run_fresh_sim hN os
  refine ⟨_, p, h1, ?_⟩
  have := view.run_fifo os (view.init : view T) (Nat.le_refl _)
  exact ⟨_, this⟩

/-- C1 at `N = 2`: three writes, a flush, two reads, a write and two reads. -/
theorem C1_delivered_initial_segment_witness :
    1 ≤ 2 ∧ ∃ rs p, pipeline.run_fresh 2
        [op.write 10, op.write 20, op.write 30, op.flush, op.read 0, op.read 0, op.write 40,
          op.read 0, op.read 0] = some (rs, p) ∧
      delivered rs <+: written
        [op.write 10, op.write 20, op.write 30, op.flush, op.read 0, op.read 0, op.write 40,
          op.read 0, op.read 0] :=
  ⟨by decide, C1_delivered_initial_segment Nat 2 (by decide) _⟩

/-- C2: for every `N ≥ 1` and every list of appends with flush markers at
arbitrary places (`ms`), followed by one flush marker, as many receives as
there were appends each return after a single call of `read` (the loop bound
`fuel + 1` may be `1`) and yield the appended values in order. -/
theorem C2_channel_fifo (T : Type) (N : Nat) (hN : 1 ≤ N) (ms : List (Option T)) (x : T)
    (fuel : Nat) :
    ∃ c, channel.run_fresh N (fuel + 1)
        (sends ms ++ cop.put_end :: List.replicate ms.reduceOption.length (cop.get x))
      = some (ms.reduceOption, c) := by
  obtain ⟨p, h1, h2, _⟩ := pipeline.init_pinv (T := T) hN
  have hc : Inv N ({ pipe_ := p, timeout_ := none } : channel T).pipe_ view.init := h2
  obtain ⟨c1, a1, g1, g2, g3⟩ := channel.run_sends (fuel + 1) ms hc
  obtain ⟨L, rd, bk, en, g4⟩ := g2
  obtain ⟨_, g5, _⟩ := pipeline.flush_sim g4
  have e5 : (a1.step op.flush).2 = ⟨ms.reduceOption, ms.reduceOption.length, (a1.step op.flush).2.parked⟩ := by
    have e0 : a1.pend = ms.reduceOption := by rw [g3]; simp [view.init]
    simp only [view.step]
    split
    · next hk =>
      cases a1
      simp only at hk e0 ⊢
      rw [hk, e0]
    · rw [e0]
  rw [e5] at g5
  have hi : Inv N (c1.append_end).pipe_
      ⟨ms.reduceOption, ms.reduceOption.length, (a1.step op.flush).2.parked⟩ :=
    ⟨L, rd, bk, en, g5⟩
  obtain ⟨c2, g6⟩ := channel.run_gets fuel x ms.reduceOption hi
  refine ⟨c2, ?_⟩
  simp only [channel.run_fresh, channel.init, h1, channel.run_append, g1, channel.run,
    channel.step, g6, Option.toList_none, List.nil_append]

/-- C2 on the two scenarios of the specification: append `1, 2, 3`, flush,
receive thrice; and `N = 2` with `1, 2, 3, 4, 5` crossing chunk boundaries. -/
theorem C2_channel_fifo_witness :
    (1 ≤ 4 ∧ ∃ c, channel.run_fresh 4 1
        [cop.put 1, cop.put 2, cop.put 3, cop.put_end, cop.get 0, cop.get 0, cop.get 0]
      = some ([1, 2, 3], c)) ∧
    (1 ≤ 2 ∧ ∃ c, channel.run_fresh 2 1
        [cop.put 1, cop.put 2, cop.put 3, cop.put 4, cop.put 5, cop.put_end,
          cop.get 0, cop.get 0, cop.get 0, cop.get 0, cop.get 0]
      = some ([1, 2, 3, 4, 5], c)) :=
  ⟨⟨by decide, C2_channel_fifo Nat 4 (by decide) [some 1, some 2, some 3] 0 0⟩,
   ⟨by decide, C2_channel_fifo Nat 2 (by decide) [some 1, some 2, some 3, some 4, some 5] 0 0⟩⟩

/-- C3 (no loss): in every state reached from a fresh pipeline, if fewer
values have been read than were written before the most recent call of
`flush`, then `check_read` returns true and `read` succeeds (and delivers the
oldest written value not yet read). -/
theorem C3_no_loss (T : Type) (N : Nat) (hN : 1 ≤ N) (os : List (op T)) :
    ∃ rs p, pipeline.run_fresh N os = some (rs, p) ∧
      ((delivered rs).length < flushed_writes os →
        (∃ p1, p.check_read = some (true, p1)) ∧
        ∀ x, ∃ v p1, p.read N x = some (true, v, p1) ∧
          (written os)[(delivered rs).length]? = some v) := by
  obtain ⟨p, h1, h2⟩ := pipeline.run_fresh_sim hN os
  refine ⟨_, p, h1, ?_⟩
  intro hlt
  have hfifo := view.run_fifo os (view.init : view T) (Nat.le_refl _)
  obtain ⟨hcnt, _⟩ := view.run_count os (view.init : view T) 0 0 0 (Nat.le_refl _) rfl rfl
  have hcnt : ((view.init : view T).run os).2.k + (delivered ((view.init : view T).run os).1).length
      = flushed_writes os := by
    simpa [flushed_writes] using hcnt
  have hk : 0 < ((view.init : view T).run os).2.k := by omega
  constructor
  · obtain ⟨L, rd, bk, en, h3⟩ := h2
    obtain ⟨p1, g1, _⟩ := pipeline.check_read_spec h3
    exact ⟨p1, by rw [g1]; simp [hk]⟩
  · intro x
    obtain ⟨k, hk1⟩ : ∃ k, ((view.init : view T).run os).2.k = k + 1 := ⟨_, (Nat.succ_pred_eq_of_pos hk).symm⟩
    obtain ⟨v, rest, p1, hp, g1, _⟩ := pipeline.read_ready x h2 hk1
    refine ⟨v, p1, g1, ?_⟩
    rw [hp] at hfifo
    have hfifo1 : delivered ((view.init : view T).run os).1 ++ v :: rest = written os := by
      simpa [view.init] using hfifo
    rw [← hfifo1, List.getElem?_append_right (Nat.le_refl _)]
    simp

/-- C3 at `N = 2`: after `write 7, write 8, flush, read`, one of the two
flushed writes is unread and the next read delivers `8`. -/
theorem C3_no_loss_witness :
    1 ≤ 2 ∧ ∃ rs p, pipeline.run_fresh 2 [op.write 7, op.write 8, op.flush, op.read 0]
        = some (rs, p) ∧
      (delivered rs).length < flushed_writes [op.write 7, op.write 8, op.flush, op.read 0] ∧
      (∃ p1, p.check_read = some (true, p1)) ∧
      ∃ p1, p.read 2 0 = some (true, 8, p1) := by
  refine ⟨by decide, ?_⟩
  obtain ⟨rs, p, h1, h2⟩ :=
    C3_no_loss Nat 2 (by decide) [op.write 7, op.write 8, op.flush, op.read 0]
  have e : (pipeline.run_fresh 2 [op.write 7, op.write 8, op.flush, op.read 0]).map Prod.fst
      = some [res.done, res.done, res.flag true, res.got true 7] := by decide
  rw [h1] at e
  simp only [Option.map_some', Option.some.injEq] at e
  subst e
  have hlt : (delivered [res.done, res.done, res.flag true, res.got true 7]).length
      < flushed_writes [op.write 7, op.write 8, op.flush, op.read 0] := by decide
  obtain ⟨g1, g2⟩ := h2 hlt
  obtain ⟨v, p1, g3, g4⟩ := g2 0
  have hv : v = 8 := by
    have : (written [op.write 7, op.write 8, op.flush, op.read 0])[1]? = some v := g4
    simp only [written] at this
    simpa using this.symm
  subst hv
  exact ⟨_, p, h1, hlt, g1, p1, g3⟩

/-- C4 (unflushed writes are invisible): in every state reached from a fresh
pipeline, if every write made before the most recent call of `flush` has been
read (as many values were read as were written before that call; when `flush`
was never called that number is `0`), then `read` returns false and leaves its
destination alone, however many writes were made since; after one further
`flush`, as many reads as there are such writes deliver them in order. -/
theorem C4_unflushed_invisible (T : Type) (N : Nat) (hN : 1 ≤ N) (os : List (op T)) (x : T) :
    ∃ rs p, pipeline.run_fresh N os = some (rs, p) ∧
      (flushed_writes os ≤ (delivered rs).length →
        (∃ p1, p.read N x = some (false, x, p1)) ∧
        ∃ b p2, p.run N
            (op.flush :: List.replicate ((written os).drop (flushed_writes os)).length (op.read x))
          = some (res.flag b :: ((written os).drop (flushed_writes os)).map (res.got true), p2)) := by
  obtain ⟨p, h1, h2⟩ := pipeline.run_fresh_sim hN os
  refine ⟨_, p, h1, ?_⟩
  intro hle
  have hfifo := view.run_fifo os (view.init : view T) (Nat.le_refl _)
  obtain ⟨hcnt, hwf⟩ := view.run_count os (view.init : view T) 0 0 0 (Nat.le_refl _) rfl rfl
  have hcnt : ((view.init : view T).run os).2.k + (delivered ((view.init : view T).run os).1).length
      = flushed_writes os := by
    simpa [flushed_writes] using hcnt
  have hk : ((view.init : view T).run os).2.k = 0 := by omega
  have heq : (delivered ((view.init : view T).run os).1).length = flushed_writes os := by omega
  have hpend : (written os).drop (flushed_writes os) = ((view.init : view T).run os).2.pend := by
    have hfifo1 : delivered ((view.init : view T).run os).1 ++ ((view.init : view T).run os).2.pend
        = written os := by
      simpa [view.init] using hfifo
    rw [← heq, ← hfifo1]
    simp
  constructor
  · obtain ⟨p1, g1, _⟩ := pipeline.read_empty x h2 hk
    exact ⟨p1, g1⟩
  · rw [hpend]
    generalize ((view.init : view T).run os).2 = a at h2 hwf
    obtain ⟨p2, g1, _⟩ := pipeline.run_sim
      (op.flush :: List.replicate a.pend.length (op.read x)) h2
    have e : ∃ b parked, a.step op.flush = (res.flag b, ⟨a.pend, a.pend.length, parked⟩) := by
      simp only [view.step]
      split
      · next hk1 =>
        refine ⟨true, a.parked, ?_⟩
        cases a
        simp only at hk1
        simp only [hk1]
      · exact ⟨_, _, rfl⟩
    obtain ⟨b, parked, hb⟩ := e
    refine ⟨b, p2, ?_⟩
    rw [g1]
    simp only [view.run, hb, view.run_drain]

/-- C4 on the scenario of the specification: `write 1, 2, 3` without a flush,
`read` fails; after one `flush` three reads give `1, 2, 3`. -/
theorem C4_unflushed_invisible_witness :
    1 ≤ 2 ∧ ∃ rs p, pipeline.run_fresh 2 [op.write 1, op.write 2, op.write 3] = some (rs, p) ∧
      flushed_writes [op.write 1, op.write 2, (op.write 3 : op Nat)] ≤ (delivered rs).length ∧
      (∃ p1, p.read 2 0 = some (false, 0, p1)) ∧
      ∃ b p2, p.run 2 [op.flush, op.read 0, op.read 0, op.read 0]
        = some ([res.flag b, res.got true 1, res.got true 2, res.got true 3], p2) := by
  refine ⟨by decide, ?_⟩
  obtain ⟨rs, p, h1, h2⟩ :=
    C4_unflushed_invisible Nat 2 (by decide) [op.write 1, op.write 2, op.write 3] 0
  have e : (pipeline.run_fresh 2 [op.write 1, op.write 2, op.write 3]).map Prod.fst
      = some [res.done, res.done, (res.done : res Nat)] := by decide
  rw [h1] at e
  simp only [Option.map_some', Option.some.injEq] at e
  subst e
  have heq : flushed_writes [op.write 1, op.write 2, (op.write 3 : op Nat)]
      ≤ (delivered [res.done, res.done, (res.done : res Nat)]).length := by decide
  obtain ⟨g1, g2⟩ := h2 heq
  exact ⟨_, p, h1, heq, g1, g2⟩

/-- C5 (flush-parked signal): along every sequence of operations on a fresh
pipeline, a `flush` returns false exactly when a write has been made since the
preceding `flush` and a `check_read` or `read` has returned false with no
such `flush` in between. So the first `flush` that follows a write after the
consumer parked returns false, later ones that follow further writes return
true until `check_read` returns false again, and every `flush` returns true as
long as `check_read` never returned false. -/
theorem C5_flush_parked_signal (T : Type) (N : Nat) (hN : 1 ≤ N) (os : List (op T)) :
    ∃ rs p, pipeline.run_fresh N os = some (rs, p) ∧ flush_signal false false (os.zip rs) := by
  obtain ⟨p, h1, _⟩ := pipeline.run_fresh_sim hN os
  refine ⟨_, p, h1, ?_⟩
  have := view.run_signal os (view.init : view T) (Nat.le_refl _)
  simpa [view.init] using this

/-- C5 on the scenarios of the specification: `read` on the empty pipeline,
`write 42`, `flush` gives false; `write 1, flush, write 2, flush` gives true,
true. -/
theorem C5_flush_parked_signal_witness :
    (1 ≤ 2 ∧ ∃ rs p, pipeline.run_fresh 2 [op.read 0, op.write 42, op.flush, op.read 0]
        = some (rs, p) ∧
      flush_signal false false ([op.read 0, op.write 42, op.flush, op.read 0].zip rs) ∧
      rs = [res.got false 0, res.done, res.flag false, res.got true 42]) ∧
    (1 ≤ 2 ∧ ∃ rs p, pipeline.run_fresh 2 [op.write 1, op.flush, op.write 2, op.flush]
        = some (rs, p) ∧
      flush_signal false false ([op.write 1, op.flush, op.write 2, op.flush].zip rs) ∧
      rs = [res.done, res.flag true, res.done, res.flag true]) := by
  refine ⟨⟨by decide, ?_⟩, ⟨by decide, ?_⟩⟩
  · obtain ⟨rs, p, h1, h2⟩ :=
      C5_flush_parked_signal Nat 2 (by decide) [op.read 0, op.write 42, op.flush, op.read 0]
    have e : (pipeline.run_fresh 2 [op.read 0, op.write 42, op.flush, op.read 0]).map Prod.fst
        = some [res.got false 0, res.done, res.flag false, res.got true 42] := by decide
    rw [h1] at e
    simp only [Option.map_some', Option.some.injEq] at e
    exact ⟨rs, p, h1, h2, e⟩
  · obtain ⟨rs, p, h1, h2⟩ :=
      C5_flush_parked_signal Nat 2 (by decide) [op.write 1, op.flush, op.write 2, op.flush]
    have e : (pipeline.run_fresh 2 [op.write 1, op.flush, op.write 2, op.flush]).map Prod.fst
        = some [res.done, res.flag true, res.done, res.flag true] := by decide
    rw [h1] at e
    simp only [Option.map_some', Option.some.injEq] at e
    exact ⟨rs, p, h1, h2, e⟩

/-- C6 (idempotent flush): in every pipeline state with `_w = _f`, `flush`
returns true and leaves the whole state (cursors, cell and queue) unchanged;
after any `flush` the state has `_w = _f`, so a second `flush` returns true and
changes nothing. -/
theorem C6_idempotent_flush (T : Type) (p : pipeline T) :
    (p._w = p._f → p.flush = (true, p)) ∧
    p.flush.2._w = p.flush.2._f ∧ p.flush.2.flush = (true, p.flush.2) := by
  have h1 : ∀ q : pipeline T, q._w = q._f → q.flush = (true, q) := by
    intro q hq
    simp [pipeline.flush, hq]
  have h2 : p.flush.2._w = p.flush.2._f := by
    unfold pipeline.flush
    by_cases h : p._w = p._f
    · simp [h]
    · simp only [h, if_false]
      split <;> rfl
  exact ⟨h1 p, h2, h1 _ h2⟩

/-- C6 on the state reached by `write 5` and `flush` at `N = 2`. -/
theorem C6_idempotent_flush_witness :
    ∃ rs p, pipeline.run_fresh 2 [op.write 5, op.flush] = some (rs, p) ∧
      p._w = p._f ∧ p.flush = (true, p) := by
  obtain ⟨p, h1, _⟩ := pipeline.run_fresh_sim (T := Nat) (N := 2) (by decide) [op.write 5, op.flush]
  have e : ((pipeline.run_fresh 2 [op.write 5, op.flush]).map
      (fun x => decide (x.2._w = x.2._f))) = some true := by decide
  rw [h1] at e
  simp only [Option.map_some', Option.some.injEq, decide_eq_true_eq] at e
  exact ⟨_, p, h1, e, (C6_idempotent_flush Nat p).1 e⟩

/-- C7: in every state reached from a fresh pipeline, if `flush` returns
false then `check_read`, called right after it, returns true. -/
theorem C7_false_flush_then_check_read (T : Type) (N : Nat) (hN : 1 ≤ N) (os : List (op T)) :
    ∃ rs p, pipeline.run_fresh N os = some (rs, p) ∧
      (p.flush.1 = false → ∃ p1, p.flush.2.check_read = some (true, p1)) := by
  obtain ⟨p, h1, h2⟩ := pipeline.run_fresh_sim hN os
  refine ⟨_, p, h1, ?_⟩
  intro hf
  obtain ⟨L, rd, bk, en, h3⟩ := h2
  obtain ⟨g1, g2, _⟩ := pipeline.flush_sim h3
  generalize ((view.init : view T).run os).2 = a at h3 g1 g2
  have hk := h3.hk
  have hne : a.k ≠ a.pend.length := by
    intro hk1
    rw [hf] at g1
    simp [view.step, hk1] at g1
  have e : (a.step op.flush).2.k = a.pend.length := by simp [view.step, hne]
  obtain ⟨p1, g3, _⟩ := pipeline.check_read_spec g2
  refine ⟨p1, ?_⟩
  rw [g3]
  have : 0 < (a.step op.flush).2.k := by omega
  simp [this]

/-- C7 on the scenario of the specification: `read` on the empty pipeline,
`write 42`; then `flush` returns false and `check_read` returns true. -/
theorem C7_false_flush_then_check_read_witness :
    1 ≤ 2 ∧ ∃ rs p, pipeline.run_fresh 2 [op.read 0, op.write 42] = some (rs, p) ∧
      p.flush.1 = false ∧ ∃ p1, p.flush.2.check_read = some (true, p1) := by
  refine ⟨by decide, ?_⟩
  obtain ⟨rs, p, h1, h2⟩ :=
    C7_false_flush_then_check_read Nat 2 (by decide) [op.read 0, op.write 42]
  have e : (pipeline.run_fresh 2 [op.read 0, op.write 42]).map (fun x => x.2.flush.1)
      = some false := by decide
  rw [h1] at e
  simp only [Option.map_some', Option.some.injEq] at e
  exact ⟨rs, p, h1, e, h2 e⟩

/-! ## The chunk heap: live list, spare slot, freed blocks -/

/-- Following `next` from the first chunk of a duplicate-free linked list
reaches its last chunk and meets exactly the chunks of the list. -/
theorem heap.chain_eq (h : heap T) (L : List Nat) (hne : L ≠ []) (hnd : L.Nodup)
    (hl : ∀ i a b, L[i]? = some a → L[i + 1]? = some b → h.load_next (some a) = some (some b))
    (fuel : Nat) (hfuel : L.length ≤ fuel) :
    h.chain fuel L.head? L.getLast? = some L := by
  induction L generalizing fuel with
  | nil => exact absurd rfl hne
  | cons c t ih =>
    obtain ⟨f, rfl⟩ : ∃ f, fuel = f + 1 := ⟨fuel - 1, by simp at hfuel; omega⟩
    cases t with
    | nil => simp [heap.chain]
    | cons d t =>
      have hc : c ∉ d :: t := (List.nodup_cons.1 hnd).1
      have hlast : (c :: d :: t).getLast? = (d :: t).getLast? := List.getLast?_cons_cons
      have hne1 : (some c : chunk_ptr) ≠ (d :: t).getLast? := by
        intro e
        apply hc
        rw [List.getLast?_eq_getLast _ (List.cons_ne_nil d t)] at e
        rw [Option.some.inj e]
        exact List.getLast_mem _
      have hlk : h.load_next (some c) = some (some d) := hl 0 c d rfl (by simp)
      have := ih (List.cons_ne_nil d t) (List.nodup_cons.1 hnd).2
        (fun i a b ha hb => hl (i + 1) a b (by simpa using ha) (by simpa using hb)) f
        (by simp at hfuel ⊢; omega)
      rw [hlast]
      simp only [List.head?_cons, heap.chain, hne1, if_false, hlk]
      simp only [List.head?_cons] at this
      rw [this]

theorem nodup_length_le {L : List Nat} {n : Nat} (hnd : L.Nodup) (hlt : ∀ i ∈ L, i < n) :
    L.length ≤ n := by
  have hs : L ⊆ List.range n := fun i hi => List.mem_range.2 (hlt i hi)
  have := (List.subperm_of_subset hnd hs).length_le
  simpa using this

theorem qinv.length_le {N : Nat} {q : queue T} {L : List Nat} (h : qinv N q L) :
    L.length ≤ q.mem.blocks.length :=
  nodup_length_le h.nodup (fun i hi => (heap.usable_lt (h.valid i hi)).1)

/-- The live list computed by following `next` from `_begin_chunk` to
`_end_chunk` is the list of the invariant. -/
theorem qinv.live_chunks_eq {N : Nat} {q : queue T} {L : List Nat} (h : qinv N q L) :
    q.live_chunks = some L := by
  unfold queue.live_chunks
  rw [h.hbegin, h.hend]
  exact heap.chain_eq q.mem L h.hne h.nodup h.link _ h.length_le

/-- The loop of the destructor frees the chunks of a duplicate-free linked
list one after the other and stops at the last one. -/
theorem queue.dtor_loop_spec (L : List Nat) (q : queue T) (hne : L ≠ []) (hnd : L.Nodup)
    (hb : q._begin_chunk = L.head?) (he : q._end_chunk = L.getLast?)
    (hl : ∀ i a b, L[i]? = some a → L[i + 1]? = some b →
      q.mem.load_next (some a) = some (some b))
    (fuel : Nat) (hfuel : L.length ≤ fuel) :
    ∃ q1, queue.dtor_loop fuel q = some q1 ∧ q1.mem.freed = L.reverse ++ q.mem.freed ∧
      q1.mem.blocks.length = q.mem.blocks.length ∧ q1._spare_chunk = q._spare_chunk := by
  induction L generalizing fuel q with
  | nil => exact absurd rfl hne
  | cons c t ih =>
    obtain ⟨f, rfl⟩ : ∃ f, fuel = f + 1 := ⟨fuel - 1, by simp at hfuel; omega⟩
    cases t with
    | nil =>
      have hbe : q._begin_chunk = q._end_chunk := by rw [hb, he]; rfl
      refine ⟨{ q with mem := q.mem.free q._begin_chunk }, ?_, ?_, ?_, rfl⟩
      · simp only [queue.dtor_loop, hbe, if_true]
      · rw [hb]
        rfl
      · rw [hb]
        rfl
    | cons d t =>
      have hc : c ∉ d :: t := (List.nodup_cons.1 hnd).1
      have hbc : q._begin_chunk = some c := hb
      have hne1 : q._begin_chunk ≠ q._end_chunk := by
        rw [hb, he, List.getLast?_cons_cons]
        intro e
        apply hc
        rw [List.getLast?_eq_getLast _ (List.cons_ne_nil d t)] at e
        have e1 : c = (d :: t).getLast (List.cons_ne_nil d t) := Option.some.inj e
        rw [e1]
        exact List.getLast_mem _
      have hlk : q.mem.load_next q._begin_chunk = some (some d) := by
        rw [hbc]
        exact hl 0 c d rfl (by simp)
      obtain ⟨q1, g1, g2, g3, g4⟩ := ih
        { q with mem := q.mem.free q._begin_chunk, _begin_chunk := some d }
        (List.cons_ne_nil d t) (List.nodup_cons.1 hnd).2 rfl
        (by show q._end_chunk = _; rw [he, List.getLast?_cons_cons])
        (by
          intro i a b ha hb1
          show (q.mem.free q._begin_chunk).load_next (some a) = _
          have hac : a ≠ c := fun e => hc (e ▸ List.getElem?_mem ha)
          rw [hbc, heap.free_load_next_ne _ _ hac]
          exact hl (i + 1) a b (by simpa using ha) (by simpa using hb1))
        f (by simp at hfuel ⊢; omega)
      refine ⟨q1, ?_, ?_, ?_, g4⟩
      · simp only [queue.dtor_loop, hne1, if_false, hlk]
        exact g1
      · rw [g2]
        show (d :: t).reverse ++ (q.mem.free q._begin_chunk).freed = _
        rw [hbc]
        simp [heap.free]
      · rw [g3]
        show (q.mem.free q._begin_chunk).blocks.length = _
        rw [hbc]
        rfl

/-- The destructor of a queue that satisfies the invariant terminates and frees
the live chunks, first to last, and then the chunk of the spare slot. -/
theorem queue.dtor_spec {N : Nat} {q : queue T} {L : List Nat} (h : qinv N q L)
    (fuel : Nat) (hfuel : L.length ≤ fuel) :
    ∃ q1, q.dtor fuel = some q1 ∧
      q1.mem.freed = (q._spare_chunk._ptr).toList ++ L.reverse ++ q.mem.freed ∧
      q1.mem.blocks.length = q.mem.blocks.length := by
  obtain ⟨q1, g1, g2, g3, g4⟩ :=
    queue.dtor_loop_spec L q h.hne h.nodup h.hbegin h.hend h.link fuel hfuel
  refine ⟨{ q1 with mem := q1.mem.free q1._spare_chunk._ptr, _spare_chunk := ⟨none⟩ }, ?_, ?_, ?_⟩
  · simp only [queue.dtor, g1, atomic_pointer.xchg]
  · show (q1.mem.free q1._spare_chunk._ptr).freed = _
    rw [g4]
    cases q._spare_chunk._ptr with
    | none => simp [heap.free, g2]
    | some s => simp [heap.free, g2]
  · show (q1.mem.free q1._spare_chunk._ptr).blocks.length = _
    rw [← g3]
    cases q1._spare_chunk._ptr <;> rfl

/-- C8 (no leak, no double free): after any sequence of pipeline operations on
a fresh pipeline, every allocated block is exactly one of: a chunk of the live
list from `_begin_chunk` to `_end_chunk`, the chunk in the spare slot, freed;
only allocated blocks were freed and none twice; and the destructor of the
queue terminates (within as many iterations as the live list is long), frees
every live chunk and the spare chunk, and after it every allocated block has
been freed exactly once. -/
theorem C8_no_leak_no_double_free (T : Type) (N : Nat) (hN : 1 ≤ N) (os : List (op T)) :
    ∃ rs p L, pipeline.run_fresh N os = some (rs, p) ∧ p._queue.live_chunks = some L ∧
      (∀ i, i < p._queue.mem.blocks.length →
        (i ∈ L ∧ p._queue._spare_chunk._ptr ≠ some i ∧ i ∉ p._queue.mem.freed) ∨
        (i ∉ L ∧ p._queue._spare_chunk._ptr = some i ∧ i ∉ p._queue.mem.freed) ∨
        (i ∉ L ∧ p._queue._spare_chunk._ptr ≠ some i ∧ i ∈ p._queue.mem.freed)) ∧
      p._queue.mem.freed.Nodup ∧
      (∀ i ∈ p._queue.mem.freed, i < p._queue.mem.blocks.length) ∧
      ∀ fuel, L.length ≤ fuel → ∃ q1, p._queue.dtor fuel = some q1 ∧
        q1.mem.freed = (p._queue._spare_chunk._ptr).toList ++ L.reverse ++ p._queue.mem.freed ∧
        q1.mem.freed.Nodup ∧
        (∀ i, i < p._queue.mem.blocks.length ↔ i ∈ q1.mem.freed) := by
  obtain ⟨p, h1, L, rd, bk, en, h2⟩ := pipeline.run_fresh_sim hN os
  have hq := h2.q
  have hLf : ∀ i ∈ L, i ∉ p._queue.mem.freed := fun i hi => (heap.usable_lt (hq.valid i hi)).2
  have hsp : ∀ s, p._queue._spare_chunk._ptr = some s →
      s ∉ L ∧ s ∉ p._queue.mem.freed ∧ s < p._queue.mem.blocks.length := fun s hs =>
    ⟨(hq.spare_valid s hs).1, (heap.usable_lt (hq.spare_valid s hs).2).2,
      (heap.usable_lt (hq.spare_valid s hs).2).1⟩
  refine ⟨_, p, L, h1, hq.live_chunks_eq, ?_, hq.freed_nodup, hq.freed_lt, ?_⟩
  · intro i hi
    rcases hq.cover i hi with c1 | c1 | c1
    · refine Or.inl ⟨c1, ?_, hLf i c1⟩
      intro hs
      exact (hsp i hs).1 c1
    · exact Or.inr (Or.inl ⟨(hsp i c1).1, c1, (hsp i c1).2.1⟩)
    · refine Or.inr (Or.inr ⟨fun hl => hLf i hl c1, ?_, c1⟩)
      intro hs
      exact (hsp i hs).2.1 c1
  · intro fuel hfuel
    obtain ⟨q1, g1, g2, g3⟩ := queue.dtor_spec hq fuel hfuel
    refine ⟨q1, g1, g2, ?_, ?_⟩
    · rw [g2, List.append_assoc, List.nodup_append]
      refine ⟨?_, ?_, ?_⟩
      · cases p._queue._spare_chunk._ptr <;> simp
      · rw [List.nodup_append]
        refine ⟨List.nodup_reverse.2 hq.nodup, hq.freed_nodup, ?_⟩
        intro a ha hb
        exact hLf a (List.mem_reverse.1 ha) hb
      · intro a ha hb
        have hs : p._queue._spare_chunk._ptr = some a := by
          cases hsp0 : p._queue._spare_chunk._ptr with
          | none => simp [hsp0] at ha
          | some s =>
            simp only [hsp0, Option.toList_some, List.mem_singleton] at ha
            rw [ha]
        rcases List.mem_append.1 hb with hb | hb
        · exact (hsp a hs).1 (List.mem_reverse.1 hb)
        · exact (hsp a hs).2.1 hb
    · intro i
      rw [g2]
      constructor
      · intro hi
        rcases hq.cover i hi with c1 | c1 | c1
        · simp [c1]
        · simp [c1]
        · simp [c1]
      · intro hi
        rcases List.mem_append.1 hi with hi | hi
        · rcases List.mem_append.1 hi with hi | hi
          · have hs : p._queue._spare_chunk._ptr = some i := by
              cases hsp0 : p._queue._spare_chunk._ptr with
              | none => simp [hsp0] at hi
              | some s =>
                simp only [hsp0, Option.toList_some, List.mem_singleton] at hi
                rw [hi]
            exact (hsp i hs).2.2
          · exact (heap.usable_lt (hq.valid i (List.mem_reverse.1 hi))).1
        · exact hq.freed_lt i hi

/-- C8 at `N = 1`: two rounds of `write, flush, read` and a third write leave
three live chunks and one spare chunk; the destructor frees all four blocks,
each once. -/
theorem C8_no_leak_no_double_free_witness :
    1 ≤ 1 ∧ ∃ rs p L, pipeline.run_fresh 1
        [op.write 1, op.flush, op.read 0, op.write 2, op.write 3, op.flush, op.read 0,
          op.read 0, op.write 4] = some (rs, p) ∧
      p._queue.live_chunks = some L ∧ p._queue.mem.freed.Nodup ∧
      ∃ q1, p._queue.dtor L.length = some q1 ∧ q1.mem.freed.Nodup ∧
        ∀ i, i < p._queue.mem.blocks.length ↔ i ∈ q1.mem.freed := by
  refine ⟨by decide, ?_⟩
  obtain ⟨rs, p, L, h1, h2, _, h4, _, h6⟩ := C8_no_leak_no_double_free Nat 1 (by decide)
    [op.write 1, op.flush, op.read 0, op.write 2, op.write 3, op.flush, op.read 0,
      op.read 0, op.write 4]
  obtain ⟨q1, g1, _, g3, g4⟩ := h6 L.length (Nat.le_refl _)
  exact ⟨rs, p, L, h1, h2, h4, q1, g1, g3, g4⟩

/-! ## The lock-step workload -/

theorem cells_length_pos {N : Nat} (hN : 0 < N) (c : Nat) (t : List Nat) (hi : Nat) :
    0 < (cells N (c :: t) 0 hi).length := by
  cases t with
  | nil => simp [cells, seg_length]
  | cons d t =>
    simp only [cells, List.length_append, seg_length]
    omega

/-- A queue with exactly two slots between front and end has one live chunk,
or two with the front slot last in the first and the end slot first in the
second. -/
theorem cells_pair_shape {N : Nat} {L : List Nat} {lo hi : Nat} (hlo : lo < N)
    (h : (cells N L lo hi).length = 2) :
    (L.length = 1 ∧ hi = lo + 1) ∨ (L.length = 2 ∧ lo + 1 = N ∧ hi = 0) := by
  match L with
  | [] => simp [cells] at h
  | [c] =>
    simp only [cells, seg_length] at h
    exact Or.inl ⟨rfl, by omega⟩
  | [c, d] =>
    simp only [cells, List.length_append, seg_length] at h
    exact Or.inr ⟨rfl, by omega, by omega⟩
  | c :: d :: e :: t =>
    have := cells_length_pos (Nat.lt_of_le_of_lt (Nat.zero_le _) hlo) e t hi
    simp only [cells, List.length_append, seg_length] at h this
    omega

/-- One round `write v; flush; read` of the lock-step workload: every call is
defined, the read delivers `v`, and the state between rounds is reached
again without any allocation beyond the third block and without any `free`. -/
theorem steady_round {N : Nat} {p : pipeline T} (v x : T) (h : steady N p) :
    ∃ p1 p3, p.write N v = some p1 ∧ p1.flush.1 = true ∧
      p1.flush.2.read N x = some (true, v, p3) ∧ steady N p3 := by
  obtain ⟨L, bk, en, h0, hfr, hbl, hsp⟩ := h
  obtain ⟨p1, L1, en1, w1, i1, _, _, _, hpush, hfr1, hbp1, hep1⟩ := pipeline.write_spec v h0
  simp only [List.nil_append] at i1
  obtain ⟨f1, i2, hq2, _⟩ := pipeline.flush_sim i1
  have ef : (⟨[v], 0, false⟩ : view T).step op.flush = (res.flag true, ⟨[v], 1, false⟩) := rfl
  rw [ef] at f1 i2
  obtain ⟨v1, rest, s0, rd0, p3, L3, hp, hrd, r3, i3, _, _, _, hpop, hbl3, hbp3, hep3⟩ :=
    pipeline.read_spec x i2 (k := 0) rfl
  have ev : v1 = v ∧ rest = [] := by
    have : [v] = v1 :: rest := hp
    simp only [List.cons.injEq] at this
    exact ⟨this.1.symm, this.2.symm⟩
  have erd : rd0 = [] := by
    simp only [List.cons.injEq] at hrd
    exact hrd.2.symm
  rw [ev.1] at r3
  rw [ev.2, erd] at i3
  have hshape := cells_pair_shape h0.q.bpos
    (by have := h0.hslots; unfold queue.slots at this; rw [this]; rfl)
  have hepos := h0.q.epos
  have hbpos := h0.q.bpos
  rw [hq2] at hpop hbl3 hbp3
  unfold queue.popped at hpop
  unfold queue.pushed at hpush
  rw [hbp1] at hpop
  refine ⟨p1, p3, w1, by simpa using f1.symm, r3, L3, en, en1, i3, ?_, ?_, ?_⟩
  · -- nothing is freed
    rcases hpop with ⟨_, _, _, e4⟩ | ⟨hc, _, e4⟩
    · rw [e4, hfr1, hfr]
    · rw [e4, hfr1, hfr]
      have hs1 : p1._queue._spare_chunk._ptr = none := by
        rcases hpush with ⟨hw, _, e3, _⟩ | ⟨_, _, e3, _⟩ | ⟨_, _, _, e3, _⟩
        · rw [e3]
          rcases hshape with ⟨_, e⟩ | ⟨hl, _, e⟩
          · omega
          · exact hsp hl (by omega)
        · exact e3
        · exact e3
      simp [hs1]
  · -- every allocated block is live or spare
    rw [hbl3]
    rcases hpush with ⟨hw, e1, e3, e4⟩ | ⟨hw, ⟨s, e0, e1⟩, e3, e4⟩ | ⟨hw, e0, e1, e3, e4⟩
    · rcases hpop with ⟨_, g1, g2, _⟩ | ⟨hc, ⟨b, g1, g2⟩, _⟩
      · rw [e4, hbl, g1, e1, g2, e3]
      · have hs0 : p._queue._spare_chunk._ptr = none := by
          rcases hshape with ⟨_, e⟩ | ⟨hl, _, e⟩
          · omega
          · exact hsp hl (by omega)
        rw [e4, hbl, hs0, g2, ← e1, g1]
        simp
    · rcases hpop with ⟨_, g1, g2, _⟩ | ⟨hc, ⟨b, g1, g2⟩, _⟩
      · rw [e4, hbl, g1, e1, g2, e3, e0]
        simp
      · rw [e4, hbl, e0, g2]
        have : L1.length = L3.length + 1 := by rw [g1]; rfl
        rw [e1] at this
        simp at this ⊢
        omega
    · rcases hpop with ⟨_, g1, g2, _⟩ | ⟨hc, ⟨b, g1, g2⟩, _⟩
      · rw [e4, hbl, g1, e1, g2, e3, e0]
        simp
      · rw [e4, hbl, e0, g2]
        have : L1.length = L3.length + 1 := by rw [g1]; rfl
        rw [e1] at this
        simp at this ⊢
        omega
  · -- two live chunks of at least two slots leave the spare slot empty
    intro hl3 hN2
    rcases hpush with ⟨hw, e1, e3, e4⟩ | ⟨hw, ⟨s, e0, e1⟩, e3, e4⟩ | ⟨hw, e0, e1, e3, e4⟩
    · rcases hpop with ⟨_, g1, g2, _⟩ | ⟨hc, ⟨b, g1, g2⟩, _⟩
      · rw [g2, e3]
        exact hsp (by rw [← e1, ← g1]; exact hl3) hN2
      · exfalso
        have : L1.length = L3.length + 1 := by rw [g1]; rfl
        rw [e1] at this
        rcases hshape with ⟨hl, _⟩ | ⟨hl, _, _⟩ <;> omega
    · rcases hpop with ⟨_, g1, g2, _⟩ | ⟨hc, ⟨b, g1, g2⟩, _⟩
      · rw [g2, e3]
      · exfalso
        have : L1.length = L3.length + 1 := by rw [g1]; rfl
        rw [e1] at this
        simp at this
        rcases hshape with ⟨hl, _⟩ | ⟨hl, _, _⟩ <;> omega
    · rcases hpop with ⟨_, g1, g2, _⟩ | ⟨hc, ⟨b, g1, g2⟩, _⟩
      · rw [g2, e3]
      · exfalso
        have : L1.length = L3.length + 1 := by rw [g1]; rfl
        rw [e1] at this
        simp at this
        rcases hshape with ⟨hl, _⟩ | ⟨hl, _, _⟩ <;> omega

/-- The lock-step workload from a state between rounds: every read delivers the
value just written and a state between rounds is reached. -/
theorem steady_lockstep {N : Nat} (x : T) (vs : List T) {p : pipeline T} (h : steady N p) :
    ∃ rs p1, p.run N (lockstep x vs) = some (rs, p1) ∧ delivered rs = vs ∧ steady N p1 := by
  induction vs generalizing p with
  | nil => exact ⟨[], p, rfl, rfl, h⟩
  | cons v vs ih =>
    obtain ⟨p1, p3, h1, h2, h3, h4⟩ := steady_round v x h
    obtain ⟨rs, p4, g1, g2, g3⟩ := ih h4
    refine ⟨res.done :: res.flag true :: res.got true v :: rs, p4, ?_, ?_, g3⟩
    · simp only [lockstep, pipeline.run, pipeline.step, h1, h2, h3, g1]
    · simp only [delivered, g2]

/-- A state between rounds has at most three allocated blocks. -/
theorem steady_blocks {N : Nat} {p : pipeline T} (h : steady N p) :
    p._queue.mem.blocks.length ≤ 3 := by
  obtain ⟨L, bk, en, h0, _, hbl, _⟩ := h
  have hshape := cells_pair_shape h0.q.bpos
    (by have := h0.hslots; unfold queue.slots at this; rw [this]; rfl)
  have : (p._queue._spare_chunk._ptr).toList.length ≤ 1 := by
    cases p._queue._spare_chunk._ptr <;> simp
  rcases hshape with ⟨hl, _⟩ | ⟨hl, _, _⟩ <;> omega

/-- C9 (chunk reuse in steady state): for every `N ≥ 1` and every number of
rounds, the lock-step workload `write; flush; read` on a fresh pipeline is
defined, every read delivers the value just written, at most three blocks are
ever allocated (the chunk of the constructor included) and none is freed: every
further chunk is taken from the spare slot. -/
theorem C9_lockstep_allocations_bounded (T : Type) (N : Nat) (hN : 1 ≤ N) (x : T)
    (vs : List T) :
    ∃ rs p, pipeline.run_fresh N (lockstep x vs) = some (rs, p) ∧ delivered rs = vs ∧
      p._queue.mem.blocks.length ≤ 3 ∧ p._queue.mem.freed = [] := by
  obtain ⟨p0, L, bk, en, h1, h2, _, _, _, _, _, h8, h9, h10⟩ := pipeline.init_spec (T := T) hN
  have hs : steady N p0 := ⟨L, bk, en, h2, h9, by rw [h10, h8]; rfl, fun _ _ => h8⟩
  obtain ⟨rs, p, g1, g2, g3⟩ := steady_lockstep x vs hs
  refine ⟨rs, p, ?_, g2, steady_blocks g3, ?_⟩
  · simp only [pipeline.run_fresh, h1, g1]
  · obtain ⟨_, _, _, _, e, _⟩ := g3
    exact e

/-- C9 at `N = 1` and at `N = 2`, seven rounds each: three blocks and two
blocks are allocated. -/
theorem C9_lockstep_allocations_bounded_witness :
    (1 ≤ 1 ∧ ∃ rs p, pipeline.run_fresh 1 (lockstep 0 [1, 2, 3, 4, 5, 6, 7]) = some (rs, p) ∧
      delivered rs = [1, 2, 3, 4, 5, 6, 7] ∧ p._queue.mem.blocks.length ≤ 3 ∧
      p._queue.mem.freed = []) ∧
    (1 ≤ 2 ∧ ∃ rs p, pipeline.run_fresh 2 (lockstep 0 [1, 2, 3, 4, 5, 6, 7]) = some (rs, p) ∧
      delivered rs = [1, 2, 3, 4, 5, 6, 7] ∧ p._queue.mem.blocks.length ≤ 3 ∧
      p._queue.mem.freed = []) :=
  ⟨⟨by decide, C9_lockstep_allocations_bounded Nat 1 (by decide) 0 [1, 2, 3, 4, 5, 6, 7]⟩,
   ⟨by decide, C9_lockstep_allocations_bounded Nat 2 (by decide) 0 [1, 2, 3, 4, 5, 6, 7]⟩⟩

/-! ## The scenario `N = 2`, append `1, 2, 3, 4, 5`, flush, receive five times -/

/-- C10 as stated fails on the code: in the scenario `N = 2`, append
`1, 2, 3, 4, 5` to a fresh channel, flush, receive five times, no append takes
its new tail chunk from the spare slot. -/
theorem C10_spare_reused_counterexample :
    ¬ ∃ n, channel.spare_reuses_fresh 2 1
        [cop.put 1, cop.put 2, cop.put 3, cop.put 4, cop.put 5, cop.put_end,
          cop.get 0, cop.get 0, cop.get 0, cop.get 0, cop.get 0] = some n ∧ 1 ≤ n := by
  have e : channel.spare_reuses_fresh 2 1
      [cop.put 1, cop.put 2, cop.put 3, cop.put 4, cop.put 5, cop.put_end,
        cop.get 0, cop.get 0, cop.get 0, cop.get 0, cop.get 0] = some 0 := by decide
  rintro ⟨n, h, hn⟩
  rw [e] at h
  have : 0 = n := Option.some.inj h
  omega

/-- C10, amended: in the scenario `N = 2`, append `1, 2, 3, 4, 5` to a fresh
channel, flush, receive five times, the live chunk list grows beyond one chunk
(to the four blocks `0, 1, 2, 3`, all of them newly allocated, while the spare
slot stays empty and nothing is freed); no append takes its new tail chunk
from the spare slot; the receives deliver `1, 2, 3, 4, 5` and retire two
chunks to the spare slot, of which the first is freed when the second
arrives. -/
theorem C10_scenario_grows_without_reuse :
    (∃ c, channel.run_fresh 2 1
        [cop.put 1, cop.put 2, cop.put 3, cop.put 4, cop.put 5, cop.put_end] = some ([], c) ∧
      c.pipe_._queue.live_chunks = some [0, 1, 2, 3] ∧
      c.pipe_._queue.mem.blocks.length = 4 ∧
      c.pipe_._queue._spare_chunk._ptr = none ∧ c.pipe_._queue.mem.freed = []) ∧
    channel.spare_reuses_fresh 2 1
        [cop.put 1, cop.put 2, cop.put 3, cop.put 4, cop.put 5, cop.put_end,
          cop.get 0, cop.get 0, cop.get 0, cop.get 0, cop.get 0] = some 0 ∧
    (∃ c, channel.run_fresh 2 1
        [cop.put 1, cop.put 2, cop.put 3, cop.put 4, cop.put 5, cop.put_end,
          cop.get 0, cop.get 0, cop.get 0, cop.get 0, cop.get 0] = some ([1, 2, 3, 4, 5], c) ∧
      c.pipe_._queue.live_chunks = some [2, 3] ∧
      c.pipe_._queue.mem.blocks.length = 4 ∧
      c.pipe_._queue._spare_chunk._ptr = some 1 ∧ c.pipe_._queue.mem.freed = [0]) := by
  refine ⟨?_, by decide, ?_⟩
  · have e : (channel.run_fresh 2 1
        [cop.put 1, cop.put 2, cop.put 3, cop.put 4, cop.put 5, cop.put_end]).map
        (fun r => (r.1, r.2.pipe_._queue.live_chunks, r.2.pipe_._queue.mem.blocks.length,
          r.2.pipe_._queue._spare_chunk._ptr, r.2.pipe_._queue.mem.freed))
        = some ([], some [0, 1, 2, 3], 4, none, []) := by decide
    cases h : channel.run_fresh 2 1
        [cop.put 1, cop.put 2, cop.put 3, cop.put 4, cop.put 5, cop.put_end] with
    | none =>
      rw [h] at e
      exact absurd e (by simp)
    | some r =>
      obtain ⟨rs, c⟩ := r
      rw [h] at e
      simp only [Option.map_some', Option.some.injEq, Prod.mk.injEq] at e
      obtain ⟨e1, e2, e3, e4, e5⟩ := e
      exact ⟨c, by rw [e1], e2, e3, e4, e5⟩
  · have e : (channel.run_fresh 2 1
        [cop.put 1, cop.put 2, cop.put 3, cop.put 4, cop.put 5, cop.put_end,
          cop.get 0, cop.get 0, cop.get 0, cop.get 0, cop.get 0]).map
        (fun r => (r.1, r.2.pipe_._queue.live_chunks, r.2.pipe_._queue.mem.blocks.length,
          r.2.pipe_._queue._spare_chunk._ptr, r.2.pipe_._queue.mem.freed))
        = some ([1, 2, 3, 4, 5], some [2, 3], 4, some 1, [0]) := by decide
    cases h : channel.run_fresh 2 1
        [cop.put 1, cop.put 2, cop.put 3, cop.put 4, cop.put 5, cop.put_end,
          cop.get 0, cop.get 0, cop.get 0, cop.get 0, cop.get 0] with
    | none =>
      rw [h] at e
      exact absurd e (by simp)
    | some r =>
      obtain ⟨rs, c⟩ := r
      rw [h] at e
      simp only [Option.map_some', Option.some.injEq, Prod.mk.injEq] at e
      obtain ⟨e1, e2, e3, e4, e5⟩ := e
      exact ⟨c, by rw [e1], e2, e3, e4, e5⟩

/-! ## The inert timeout, the hand-off cell, the spare chunk, failed reads -/

/-- C12: appending a duration to a channel is a no-op. For every channel state
and every duration (also one made by `timeout`) the channel, with its pipeline,
queue and cursors, is unchanged; and a run of channel operations gives the
same received values and the same final state with the duration append in it
as without it. -/
theorem C12_timeout_append_noop (T : Type) (c : channel T) (d : Int) :
    c.append_timeout d = c ∧ c.append_timeout (timeout d) = c ∧
    ∀ (N fuel : Nat) (os1 os2 : List (cop T)) (c0 : channel T),
      channel.run N fuel (os1 ++ cop.put_timeout d :: os2) c0
        = channel.run N fuel (os1 ++ os2) c0 := by
  refine ⟨rfl, rfl, ?_⟩
  intro N fuel os1 os2 c0
  have h : ∀ c1 : channel T, channel.run N fuel (cop.put_timeout d :: os2) c1
      = channel.run N fuel os2 c1 := by
    intro c1
    simp only [channel.run, channel.step, channel.append_timeout]
    cases channel.run N fuel os2 c1 with
    | none => rfl
    | some x => simp
  rw [channel.run_append, channel.run_append]
  cases channel.run N fuel os1 c0 with
  | none => rfl
  | some x =>
    obtain ⟨r1, c1⟩ := x
    simp only [h]

/-- The chunks of all pipeline cursors are live chunks. -/
theorem pinv.cursor_mem {N : Nat} {p : pipeline T} {a : view T} {L : List Nat}
    {rd : List (Nat × Nat)} {bk en : Nat × Nat} (h : pinv N p a L rd bk en) (x : Nat × Nat)
    (hx : p._r = some x ∨ p._w = some x ∨ p._f = some x ∨ p._c._ptr = some x) : x.1 ∈ L := by
  have hpre : ∀ (j : Nat) (y : Nat × Nat), (rd ++ [bk])[j]? = some y → y.1 ∈ L := by
    intro j y hy
    have hm : y ∈ rd ++ [bk] := List.getElem?_mem hy
    have hs : y ∈ p._queue.slots N L := by
      rw [h.hslots]
      rcases List.mem_append.1 hm with h1 | h1
      · exact List.mem_append_left _ h1
      · simp only [List.mem_singleton] at h1
        simp [h1]
    exact (h.q.mem_slots hs).1
  have hw : ∀ y : Nat × Nat, p._w = some y → y.1 ∈ L := by
    intro y hy
    rw [h.hw] at hy
    exact hpre _ y hy
  rcases hx with hx | hx | hx | hx
  · rcases h.hr with hr | ⟨j, _, hr⟩
    · rw [hr] at hx
      exact absurd hx (by simp)
    · rw [hr] at hx
      exact hpre j x hx
  · exact hw x hx
  · rw [h.hf] at hx
    have : bk = x := Option.some.inj hx
    rw [← this]
    exact hpre rd.length bk (by simp)
  · rw [h.hc] at hx
    by_cases hp : a.parked = true
    · simp [hp] at hx
    · simp only [hp, if_false] at hx
      exact hw x hx

/-- C13 (hand-off cell): a freshly constructed pipeline has `_r`, `_w`, `_f`
and `_c` all equal to the address of the front slot; and in every state
reached from it by `write`, `flush`, `check_read` and `read`, `_c` is null or
equal to `_w`. -/
theorem C13_handoff_cell (T : Type) (N : Nat) (hN : 1 ≤ N) (os : List (op T)) :
    (∃ (p0 : pipeline T) (a : Nat × Nat), pipeline.init N = some p0 ∧
      p0._queue.front = some a ∧ p0._r = some a ∧ p0._w = some a ∧ p0._f = some a ∧
      p0._c._ptr = some a) ∧
    ∃ rs p, pipeline.run_fresh N os = some (rs, p) ∧
      (p._c._ptr = none ∨ p._c._ptr = p._w) := by
  constructor
  · obtain ⟨p0, L, bk, en, h1, h2, h3, h4, h5, h6, _⟩ := pipeline.init_spec (T := T) hN
    refine ⟨p0, bk, h1, ?_, ?_, ?_, h2.hf, ?_⟩
    · rw [h6, h2.hf]
    · rw [h3, h4, h2.hf]
    · rw [h4, h2.hf]
    · rw [h5, h4, h2.hf]
  · obtain ⟨p, h1, L, rd, bk, en, h2⟩ := pipeline.run_fresh_sim hN os
    refine ⟨_, p, h1, ?_⟩
    rw [h2.hc]
    by_cases hp : ((view.init : view T).run os).2.parked = true
    · exact Or.inl (by simp [hp])
    · exact Or.inr (by simp [hp])

/-- C13 at `N = 2` after a parked consumer and a flush. -/
theorem C13_handoff_cell_witness :
    1 ≤ 2 ∧ ∃ rs p, pipeline.run_fresh 2 [op.read 0, op.write 1, op.flush, op.write 2]
        = some (rs, p) ∧ (p._c._ptr = none ∨ p._c._ptr = p._w) :=
  ⟨by decide, (C13_handoff_cell Nat 2 (by decide) [op.read 0, op.write 1, op.flush, op.write 2]).2⟩

/-- C15 (spare-chunk isolation): in every state reached from a fresh pipeline,
the chunk in the spare slot, if any, is not a chunk of the live list from
`_begin_chunk` to `_end_chunk`, it is none of `_begin_chunk`, `_back_chunk`,
`_end_chunk`, and none of `_r`, `_w`, `_f`, `_c` points to one of its slots. -/
theorem C15_spare_isolated (T : Type) (N : Nat) (hN : 1 ≤ N) (os : List (op T)) :
    ∃ rs p L, pipeline.run_fresh N os = some (rs, p) ∧ p._queue.live_chunks = some L ∧
      ∀ s, p._queue._spare_chunk._ptr = some s →
        s ∉ L ∧ p._queue._begin_chunk ≠ some s ∧ p._queue._back_chunk ≠ some s ∧
        p._queue._end_chunk ≠ some s ∧
        ∀ x, (p._r = some x ∨ p._w = some x ∨ p._f = some x ∨ p._c._ptr = some x) →
          x.1 ≠ s := by
  obtain ⟨p, h1, L, rd, bk, en, h2⟩ := pipeline.run_fresh_sim hN os
  refine ⟨_, p, L, h1, h2.q.live_chunks_eq, ?_⟩
  intro s hs
  have hsL := (h2.q.spare_valid s hs).1
  refine ⟨hsL, ?_, ?_, ?_, ?_⟩
  · obtain ⟨b, t, hL, hb⟩ := h2.q.begin_mem
    rw [hb]
    intro e
    apply hsL
    rw [hL, ← Option.some.inj e]
    simp
  · intro e
    have hb := h2.hback
    simp only [queue.back, e] at hb
    have hbk : bk.1 = s := by rw [← Option.some.inj hb]
    have hm : bk ∈ p._queue.slots N L := by rw [h2.hslots]; simp
    exact hsL (hbk ▸ (h2.q.mem_slots hm).1)
  · obtain ⟨e, he, heL, _⟩ := h2.q.end_mem
    rw [he]
    intro e1
    exact hsL (Option.some.inj e1 ▸ heL)
  · intro x hx e
    exact hsL (e ▸ h2.cursor_mem x hx)

/-- C15 at `N = 1`, in a state whose spare slot holds a chunk. -/
theorem C15_spare_isolated_witness :
    1 ≤ 1 ∧ ∃ rs p L, pipeline.run_fresh 1 [op.write 1, op.write 2, op.flush, op.read 0]
        = some (rs, p) ∧ p._queue.live_chunks = some L ∧
      ∃ s, p._queue._spare_chunk._ptr = some s ∧ s ∉ L ∧ p._queue._back_chunk ≠ some s ∧
        ∀ x, p._r = some x → x.1 ≠ s := by
  refine ⟨by decide, ?_⟩
  obtain ⟨rs, p, L, h1, h2, h3⟩ :=
    C15_spare_isolated Nat 1 (by decide) [op.write 1, op.write 2, op.flush, op.read 0]
  have e : (pipeline.run_fresh 1 [op.write 1, op.write 2, op.flush, op.read 0]).map
      (fun x => x.2._queue._spare_chunk._ptr) = some (some 0) := by decide
  rw [h1] at e
  simp only [Option.map_some', Option.some.injEq] at e
  obtain ⟨g1, _, g3, _, g5⟩ := h3 0 e
  exact ⟨rs, p, L, h1, h2, 0, e, g1, g3, fun x hx => g5 x (Or.inl hx)⟩

/-- C20 (a failed read changes only the hand-off state): in every state reached
from a fresh pipeline, `read` is defined, and when it returns false the
destination holds what it held before and the queue (its cursors, its chunks
and the elements stored in them, so nothing was popped), `_w` and `_f` are
unchanged; only `_r` and `_c` may differ. -/
theorem C20_failed_read_frame (T : Type) (N : Nat) (hN : 1 ≤ N) (os : List (op T)) (x : T) :
    ∃ rs p, pipeline.run_fresh N os = some (rs, p) ∧
      ∃ b x1 p1, p.read N x = some (b, x1, p1) ∧
        (b = false → x1 = x ∧ p1._queue = p._queue ∧ p1._w = p._w ∧ p1._f = p._f) := by
  obtain ⟨p, h1, h2⟩ := pipeline.run_fresh_sim hN os
  refine ⟨_, p, h1, ?_⟩
  cases hk : ((view.init : view T).run os).2.k with
  | zero =>
    obtain ⟨p1, g1, _, g3, g4, g5⟩ := pipeline.read_empty x h2 hk
    exact ⟨false, x, p1, g1, fun _ => ⟨rfl, g3, g4, g5⟩⟩
  | succ k =>
    obtain ⟨v, rest, p1, _, g1, _⟩ := pipeline.read_ready x h2 hk
    exact ⟨true, v, p1, g1, fun e => absurd e (by simp)⟩

/-- C20 at `N = 2`: after `write 1, write 2` without a flush, `read` into a
destination that holds `9` returns false and leaves `9` there. -/
theorem C20_failed_read_frame_witness :
    1 ≤ 2 ∧ ∃ rs p, pipeline.run_fresh 2 [op.write 1, op.write 2] = some (rs, p) ∧
      ∃ p1, p.read 2 9 = some (false, 9, p1) ∧ p1._queue = p._queue ∧ p1._w = p._w ∧
        p1._f = p._f := by
  refine ⟨by decide, ?_⟩
  obtain ⟨rs, p, h1, b, x1, p1, h2, h3⟩ :=
    C20_failed_read_frame Nat 2 (by decide) [op.write 1, op.write 2] 9
  have e : (pipeline.run_fresh 2 [op.write 1, op.write 2]).map
      (fun x => (x.2.read 2 9).map (fun y => y.1)) = some (some false) := by decide
  rw [h1] at e
  simp only [Option.map_some', Option.some.injEq] at e
  rw [h2] at e
  simp only [Option.map_some', Option.some.injEq] at e
  subst e
  obtain ⟨g1, g2, g3, g4⟩ := h3 rfl
  subst g1
  exact ⟨rs, p, h1, p1, h2, g2, g3, g4⟩

/-! ## The queue alone: pushes and pops from construction -/

theorem succ_mod_div_cross {N p : Nat} (hN : 0 < N) (h : p % N + 1 = N) :
    (p + 1) % N = 0 ∧ (p + 1) / N = p / N + 1 := by
  have h1 := Nat.div_add_mod p N
  have e : p + 1 = N * (p / N + 1) := by
    rw [Nat.mul_succ]
    omega
  constructor
  · rw [e]
    exact Nat.mul_mod_right _ _
  · rw [e]
    exact Nat.mul_div_cancel_left _ hN

theorem succ_mod_div_within {N p : Nat} (hN : 0 < N) (h : p % N + 1 ≠ N) :
    (p + 1) % N = p % N + 1 ∧ (p + 1) / N = p / N := by
  have h1 := Nat.div_add_mod p N
  have h2 := Nat.mod_lt p hN
  have e : p + 1 = (p % N + 1) + N * (p / N) := by omega
  constructor
  · rw [e, Nat.add_mul_mod_self_left]
    exact Nat.mod_eq_of_lt (by omega)
  · rw [e, Nat.add_mul_div_left _ _ hN, Nat.div_eq_of_lt (by omega)]
    omega

/-- The constructed queue, before any push. -/
theorem queue.init_count {N : Nat} (hN : 0 < N) : qcount N (queue.init N : queue T) [0] 0 0 := by
  refine ⟨queue.init_inv hN, Nat.le_refl _, ?_, ?_, ?_, ?_, ?_⟩
  · simp [queue.slots, queue.init, cells, seg_length]
  · simp [queue.init]
  · simp [queue.init]
  · simp
  · intro h
    exact absurd h (Nat.lt_irrefl _)

/-- One `push()` keeps the counting invariant. -/
theorem queue.push_count {N : Nat} {q : queue T} {L : List Nat} {P Q : Nat}
    (h : qcount N q L P Q) :
    ∃ q1 L1, q.push N = some q1 ∧ qcount N q1 L1 (P + 1) Q := by
  obtain ⟨q1, L1, en, h1, h2, h3, h4, h5, h6, h7, _, h9, _, h11⟩ := queue.push_spec h.inv
  obtain ⟨e, he, hlast⟩ := h.inv.slots_getLast
  have hN := h.inv.pos
  refine ⟨q1, L1, h1, h2, Nat.le_succ_of_le h.le, ?_, ?_, ?_, ?_, ?_⟩
  · rw [h3, List.length_append, List.length_singleton]
    have := h.len
    omega
  · rw [h11, h.epos]
    by_cases hc : P % N + 1 = N
    · rw [if_pos hc, (succ_mod_div_cross hN hc).1]
    · rw [if_neg hc, (succ_mod_div_within hN hc).1]
  · rw [h7, h.bpos]
  · have hl := h.live
    unfold queue.pushed at h9
    rw [h.epos] at h9
    rcases h9 with ⟨hc, e1, _⟩ | ⟨hc, ⟨s, _, e1⟩, _⟩ | ⟨hc, _, e1, _⟩
    · rw [e1, (succ_mod_div_within hN hc).2]
      exact hl
    · rw [e1, (succ_mod_div_cross hN hc).2, List.length_append, List.length_singleton]
      omega
    · rw [e1, (succ_mod_div_cross hN hc).2, List.length_append, List.length_singleton]
      omega
  · intro _
    have hne : q.slots N L ≠ [] := by
      intro e0
      rw [e0] at hlast
      simp at hlast
    obtain ⟨pre, x, hpx⟩ : ∃ pre x, q.slots N L = pre ++ [x] :=
      ⟨(q.slots N L).dropLast, (q.slots N L).getLast hne, (List.dropLast_append_getLast hne).symm⟩
    have hx : x = (e, q._end_pos) := by
      rw [hpx, List.getLast?_append] at hlast
      simpa using hlast
    refine ⟨pre, (e, q._end_pos), en, ?_, ?_⟩
    · rw [h3, hpx, hx]
      simp
    · simp only [queue.back, h4, h5, he]

/-- One `pop()`, applied while a pushed slot is un-popped, keeps the counting
invariant. -/
theorem queue.pop_count {N : Nat} {q : queue T} {L : List Nat} {P Q : Nat}
    (h : qcount N q L P Q) (hlt : Q < P) :
    ∃ q1 L1, q.pop N = some q1 ∧ qcount N q1 L1 P (Q + 1) := by
  have hlen := h.len
  obtain ⟨q1, L1, fr, h1, h2, h3, h4, h5, h6, h7, h8, _, h10, _, h12⟩ :=
    queue.pop_spec h.inv (by omega)
  have hN := h.inv.pos
  refine ⟨q1, L1, h1, h2, hlt, ?_, ?_, ?_, ?_, ?_⟩
  · have : (q.slots N L).length = (q1.slots N L1).length + 1 := by rw [h4]; rfl
    omega
  · rw [h8, h.epos]
  · rw [h12, h.bpos]
    by_cases hc : Q % N + 1 = N
    · rw [if_pos hc, (succ_mod_div_cross hN hc).1]
    · rw [if_neg hc, (succ_mod_div_within hN hc).1]
  · have hl := h.live
    unfold queue.popped at h10
    rw [h.bpos] at h10
    rcases h10 with ⟨hc, e1, _⟩ | ⟨hc, ⟨b, e1, _⟩, _⟩
    · rw [e1, (succ_mod_div_within hN hc).2]
      exact hl
    · rw [e1] at hl
      rw [(succ_mod_div_cross hN hc).2]
      simp only [List.length_cons] at hl
      omega
  · intro hlt1
    obtain ⟨pre, bk, en, g1, g2⟩ := h.back hlt
    have hpre : pre ≠ [] := by
      intro e0
      rw [g1, e0] at hlen
      simp at hlen
      omega
    obtain ⟨y, pre1, hy⟩ : ∃ y pre1, pre = y :: pre1 := by
      cases pre with
      | nil => exact absurd rfl hpre
      | cons y pre1 => exact ⟨y, pre1, rfl⟩
    refine ⟨pre1, bk, en, ?_, ?_⟩
    · rw [g1, hy] at h4
      simp only [List.cons_append, List.cons.injEq] at h4
      exact h4.2.symm
    · simp only [queue.back, h5, h6] at g2 ⊢
      exact g2

/-- A sequence of pushes and allowed pops is defined and keeps the counting
invariant. -/
theorem queue.run_qcount {N : Nat} (os : List qop) {q : queue T} {L : List Nat} {P Q n : Nat}
    (h : qcount N q L P Q) (hn : n + Q = P) (ha : pops_allowed n os = true) :
    ∃ q1 L1, queue.run N os q = some q1 ∧ qcount N q1 L1 (P + pushes os) (Q + pops os) := by
  induction os generalizing q L P Q n with
  | nil => exact ⟨q, L, rfl, h⟩
  | cons o os ih =>
    cases o with
    | push =>
      obtain ⟨q1, L1, h1, h2⟩ := queue.push_count h
      obtain ⟨q2, L2, g1, g2⟩ := ih h2 (n := n + 1) (by omega) (by simpa [pops_allowed] using ha)
      refine ⟨q2, L2, ?_, ?_⟩
      · simp only [queue.run, queue.step, h1, g1]
      · simp only [pushes, pops]
        have e : P + 1 + pushes os = P + (pushes os + 1) := by omega
        rw [← e]
        exact g2
    | pop =>
      cases n with
      | zero => simp [pops_allowed] at ha
      | succ n =>
        obtain ⟨q1, L1, h1, h2⟩ := queue.pop_count h (by omega)
        obtain ⟨q2, L2, g1, g2⟩ := ih h2 (n := n) (by omega) (by simpa [pops_allowed] using ha)
        refine ⟨q2, L2, ?_, ?_⟩
        · simp only [queue.run, queue.step, h1, g1]
        · simp only [pushes, pops]
          have e : Q + 1 + pops os = Q + (pops os + 1) := by omega
          rw [← e]
          exact g2

/-- A sequence of pushes and allowed pops on a freshly constructed queue. -/
theorem queue.run_init_count {N : Nat} (hN : 0 < N) (os : List qop)
    (ha : pops_allowed 0 os = true) :
    ∃ (q : queue T) (L : List Nat), queue.run N os (queue.init N) = some q ∧
      qcount N q L (pushes os) (pops os) := by
  obtain ⟨q, L, h1, h2⟩ := queue.run_qcount os (queue.init_count (T := T) hN) (n := 0) rfl ha
  refine ⟨q, L, h1, ?_⟩
  simpa using h2

/-- C17: for every `N ≥ 1`, after the pushes and pops of any sequence applied
to a fresh queue (every pop applied while fewer slots were popped than pushed),
`_end_pos` is the number of pushes modulo `N`, `_begin_pos` is the number of
pops modulo `N`, both are below `N`, and the live list from `_begin_chunk` to
`_end_chunk` has exactly `pushes / N - pops / N + 1` chunks. -/
theorem C17_positions_and_live_count (T : Type) (N : Nat) (hN : 1 ≤ N) (os : List qop)
    (ha : pops_allowed 0 os = true) :
    ∃ (q : queue T) (L : List Nat), queue.run N os (queue.init N) = some q ∧
      q._end_pos = pushes os % N ∧ q._begin_pos = pops os % N ∧
      q._end_pos < N ∧ q._begin_pos < N ∧
      q.live_chunks = some L ∧ L.length = pushes os / N - pops os / N + 1 := by
  obtain ⟨q, L, h1, h2⟩ := queue.run_init_count (T := T) hN os ha
  refine ⟨q, L, h1, h2.epos, h2.bpos, h2.inv.epos, h2.inv.bpos, h2.inv.live_chunks_eq, ?_⟩
  have := h2.live
  have hl := List.length_pos.2 h2.inv.hne
  generalize pushes os / N = a at this ⊢
  generalize pops os / N = b at this ⊢
  omega

/-- C17 at `N = 2`: five pushes and three pops. -/
theorem C17_positions_and_live_count_witness :
    1 ≤ 2 ∧ pops_allowed 0
        [qop.push, qop.push, qop.pop, qop.push, qop.pop, qop.push, qop.push, qop.pop] = true ∧
      ∃ (q : queue Nat) (L : List Nat), queue.run 2
          [qop.push, qop.push, qop.pop, qop.push, qop.pop, qop.push, qop.push, qop.pop]
          (queue.init 2) = some q ∧
        q._end_pos = 5 % 2 ∧ q._begin_pos = 3 % 2 ∧ q.live_chunks = some L ∧
        L.length = 5 / 2 - 3 / 2 + 1 := by
  refine ⟨by decide, by decide, ?_⟩
  obtain ⟨q, L, h1, h2, h3, _, _, h6, h7⟩ := C17_positions_and_live_count Nat 2 (by decide)
    [qop.push, qop.push, qop.pop, qop.push, qop.pop, qop.push, qop.push, qop.pop] (by decide)
  exact ⟨q, L, h1, h2, h3, h6, h7⟩

/-! ## Spare first -/

/-- The links written by `push()` when it takes the chunk of the spare slot. -/
theorem queue.push_reuse_links {N : Nat} {q : queue T} {L : List Nat} (h : qinv N q L)
    (hc : q._end_pos + 1 = N) {s : Nat} (hs : q._spare_chunk._ptr = some s) :
    ∃ q1 e c, q._end_chunk = some e ∧ q.push N = some q1 ∧ q1._end_chunk = some s ∧
      q1.mem.load_next (some e) = some (some s) ∧
      q1.mem.get (some s) = some c ∧ c.prev = some (some e) ∧
      q1._spare_chunk._ptr = none ∧ q1.mem.blocks.length = q.mem.blocks.length := by
  obtain ⟨e, he, heL, _⟩ := h.end_mem
  obtain ⟨hsL, cs, hcs, hcsl⟩ := h.spare_valid s hs
  obtain ⟨ce, hce, hcel⟩ := h.valid e heL
  have hse : s ≠ e := fun x => hsL (x ▸ heL)
  obtain ⟨m1, hm1, u1⟩ := heap.store_next_spec (some s) hce
  have hcs1 : m1.get (some s) = some cs := by rw [heap.upd_get_ne u1 hse, hcs]
  obtain ⟨m2, hm2, u2⟩ := heap.store_prev_spec (some e) hcs1
  have hce2 : m2.get (some e) = some { ce with next := some (some s) } := by
    rw [heap.upd_get_ne u2 (Ne.symm hse), heap.upd_get_self u1]
  have hln : m2.load_next (some e) = some (some s) := by rw [heap.load_next_eq hce2]
  refine ⟨{ q with _back_chunk := q._end_chunk, _back_pos := q._end_pos, mem := m2,
                   _end_chunk := some s, _end_pos := 0, _spare_chunk := ⟨none⟩ }, e,
    { cs with prev := some (some e) }, he, ?_, rfl, hln, heap.upd_get_self u2, rfl, rfl, ?_⟩
  · simp only [queue.push, hc, ne_eq, not_true_eq_false, if_false, atomic_pointer.xchg, hs, he,
      hm1, hm2, hln]
  · show m2.blocks.length = _
    rw [u2.2.1, u1.2.1]

/-- The links written by `push()` when it allocates the new tail chunk. -/
theorem queue.push_alloc_links {N : Nat} {q : queue T} {L : List Nat} (h : qinv N q L)
    (hc : q._end_pos + 1 = N) (hs : q._spare_chunk._ptr = none) :
    ∃ q1 e c, q._end_chunk = some e ∧ q.push N = some q1 ∧
      q1._end_chunk = some q.mem.blocks.length ∧
      q1.mem.load_next (some e) = some (some q.mem.blocks.length) ∧
      q1.mem.get (some q.mem.blocks.length) = some c ∧ c.prev = some (some e) ∧
      q1._spare_chunk._ptr = none ∧ q1.mem.blocks.length = q.mem.blocks.length + 1 := by
  obtain ⟨e, he, heL, _⟩ := h.end_mem
  obtain ⟨ce, hce, hcel⟩ := h.valid e heL
  obtain ⟨hn1, hn2, hn3, hn4⟩ := heap.malloc_spec N h.freed_lt
  have hen : e ≠ q.mem.blocks.length := Nat.ne_of_lt (heap.usable_lt (h.valid e heL)).1
  have hce0 : (q.mem.malloc N).2.get (some e) = some ce := by rw [hn4, if_neg hen, hce]
  obtain ⟨m1, hm1, u1⟩ := heap.store_next_spec (some q.mem.blocks.length) hce0
  have hln1 : m1.load_next (some e) = some (some q.mem.blocks.length) := by
    rw [heap.load_next_eq (heap.upd_get_self u1)]
  have hcn1 : m1.get (some q.mem.blocks.length) = some ⟨List.replicate N none, none, none⟩ := by
    rw [heap.upd_get_ne u1 (Ne.symm hen), hn4, if_pos rfl]
  obtain ⟨m2, hm2, u2⟩ := heap.store_prev_spec (some e) hcn1
  have hce2 : m2.get (some e) = some { ce with next := some (some q.mem.blocks.length) } := by
    rw [heap.upd_get_ne u2 hen, heap.upd_get_self u1]
  have hln : m2.load_next (some e) = some (some q.mem.blocks.length) := by
    rw [heap.load_next_eq hce2]
  refine ⟨{ q with _back_chunk := q._end_chunk, _back_pos := q._end_pos, mem := m2,
                   _end_chunk := some q.mem.blocks.length, _end_pos := 0,
                   _spare_chunk := ⟨none⟩ }, e,
    { (⟨List.replicate N none, none, none⟩ : chunk_t T) with prev := some (some e) }, he, ?_,
    rfl, hln, heap.upd_get_self u2, rfl, rfl, ?_⟩
  · simp only [queue.push, hc, ne_eq, not_true_eq_false, if_false, atomic_pointer.xchg, hs, he,
      hn1, hm1, hln1, hm2, hln]
  · show m2.blocks.length = _
    rw [u2.2.1, u1.2.1, hn3]

/-- C18 (spare first): in every queue state reached from construction by
pushes and allowed pops, when `push()` advances `_end_pos` to `N` it is
defined and, if the spare slot holds a chunk, links that chunk as the new tail
(`next` of the old tail, its `prev` the old tail), empties the spare slot and
allocates nothing, while with an empty spare slot it allocates one block and
links it the same way; when `pop()` advances `_begin_pos` to `N` (a pushed
slot being un-popped) it is defined, puts the old head chunk into the spare
slot and frees the chunk found there, if any. -/
theorem C18_spare_first (T : Type) (N : Nat) (hN : 1 ≤ N) (os : List qop)
    (ha : pops_allowed 0 os = true) :
    ∃ q : queue T, queue.run N os (queue.init N) = some q ∧
      (q._end_pos + 1 = N → ∃ q1 e, q._end_chunk = some e ∧ q.push N = some q1 ∧
        (∀ sc, q._spare_chunk._ptr = some sc →
          q1._end_chunk = some sc ∧ q1.mem.load_next (some e) = some (some sc) ∧
          (∃ c, q1.mem.get (some sc) = some c ∧ c.prev = some (some e)) ∧
          q1._spare_chunk._ptr = none ∧ q1.mem.blocks.length = q.mem.blocks.length) ∧
        (q._spare_chunk._ptr = none →
          q1._end_chunk = some q.mem.blocks.length ∧
          q1.mem.load_next (some e) = some (some q.mem.blocks.length) ∧
          (∃ c, q1.mem.get (some q.mem.blocks.length) = some c ∧ c.prev = some (some e)) ∧
          q1._spare_chunk._ptr = none ∧
          q1.mem.blocks.length = q.mem.blocks.length + 1)) ∧
      (q._begin_pos + 1 = N → pops os < pushes os →
        ∃ q1 b, q._begin_chunk = some b ∧ q.pop N = some q1 ∧
          q1._spare_chunk._ptr = some b ∧
          q1.mem.freed = (q._spare_chunk._ptr).toList ++ q.mem.freed ∧
          q1.mem.blocks.length = q.mem.blocks.length) := by
  obtain ⟨q, L, h1, h2⟩ := queue.run_init_count (T := T) hN os ha
  refine ⟨q, h1, ?_, ?_⟩
  · intro hc
    cases hs : q._spare_chunk._ptr with
    | some s =>
      obtain ⟨q1, e, c, g1, g2, g3, g4, g5, g6, g7, g8⟩ := queue.push_reuse_links h2.inv hc hs
      refine ⟨q1, e, g1, g2, ?_, ?_⟩
      · intro sc hsc
        have : s = sc := Option.some.inj hsc
        subst this
        exact ⟨g3, g4, ⟨c, g5, g6⟩, g7, g8⟩
      · intro hn
        exact absurd hn (by simp)
    | none =>
      obtain ⟨q1, e, c, g1, g2, g3, g4, g5, g6, g7, g8⟩ := queue.push_alloc_links h2.inv hc hs
      refine ⟨q1, e, g1, g2, ?_, ?_⟩
      · intro sc hsc
        exact absurd hsc (by simp)
      · intro _
        exact ⟨g3, g4, ⟨c, g5, g6⟩, g7, g8⟩
  · intro hc hlt
    have hlen := h2.len
    obtain ⟨b, d, t, q1, hL, g1, _, _, _, _, _, _, _, g9, g10, g11, _⟩ :=
      queue.pop_cross h2.inv hc (by unfold queue.slots at hlen; omega)
    refine ⟨q1, b, ?_, g1, g9, g11, g10⟩
    rw [h2.inv.hbegin, hL]
    rfl

/-- C18 at `N = 1` after `push, push, pop`: the spare slot holds block `0`;
the next push takes it without allocating, the next pop replaces and frees
it. -/
theorem C18_spare_first_witness :
    1 ≤ 1 ∧ pops_allowed 0 [qop.push, qop.push, qop.pop] = true ∧
      ∃ q : queue Nat, queue.run 1 [qop.push, qop.push, qop.pop] (queue.init 1) = some q ∧
        q._end_pos + 1 = 1 ∧ q._spare_chunk._ptr = some 0 ∧
        (∃ q1, q.push 1 = some q1 ∧ q1._end_chunk = some 0 ∧ q1._spare_chunk._ptr = none ∧
          q1.mem.blocks.length = q.mem.blocks.length) ∧
        (∃ q1 b, q._begin_chunk = some b ∧ q.pop 1 = some q1 ∧
          q1._spare_chunk._ptr = some b ∧ q1.mem.freed = 0 :: q.mem.freed) := by
  refine ⟨by decide, by decide, ?_⟩
  obtain ⟨q, h1, h2, h3⟩ :=
    C18_spare_first Nat 1 (by decide) [qop.push, qop.push, qop.pop] (by decide)
  have e : (queue.run 1 [qop.push, qop.push, qop.pop] (queue.init 1 : queue Nat)).map
      (fun x => (x._end_pos, x._begin_pos, x._spare_chunk._ptr)) = some (0, 0, some 0) := by
    decide
  rw [h1] at e
  simp only [Option.map_some', Option.some.injEq, Prod.mk.injEq] at e
  obtain ⟨e1, e2, e3⟩ := e
  obtain ⟨q1, en, _, g2, g3, _⟩ := h2 (by rw [e1])
  obtain ⟨g4, _, _, g5, g6⟩ := g3 0 e3
  obtain ⟨q2, b, k1, k2, k3, k4, _⟩ := h3 (by rw [e2]) (by decide)
  refine ⟨q, h1, by rw [e1], e3, ⟨q1, g2, g4, g5, g6⟩, ⟨q2, b, k1, k2, k3, ?_⟩⟩
  rw [k4, e3]
  rfl

/-! ## The cursors of the queue -/

/-- C19 as stated fails on the code: right after construction `back()` does not
designate the slot that begin and end designate; `_back_chunk` is `nullptr`. -/
theorem C19_back_after_construction_counterexample :
    ¬ ((queue.init 2 : queue Nat).front = (queue.init 2 : queue Nat).end_slot ∧
       (queue.init 2 : queue Nat).back = (queue.init 2 : queue Nat).front) := by
  decide

/-- C19, amended: right after construction of the queue (before any push)
begin and end designate the same slot, position `0` of the constructor's
chunk; `_back_chunk` is `nullptr` and `_back_pos` is `0`, so back designates no
slot; after the first push back designates that same slot. -/
theorem C19_construction_cursors (T : Type) (N : Nat) (hN : 1 ≤ N) :
    (queue.init N : queue T).front = some (0, 0) ∧
    (queue.init N : queue T).end_slot = some (0, 0) ∧
    (queue.init N : queue T)._back_chunk = none ∧
    (queue.init N : queue T)._back_pos = 0 ∧
    (queue.init N : queue T).back = none ∧
    ∃ q1, (queue.init N : queue T).push N = some q1 ∧ q1.back = some (0, 0) := by
  refine ⟨rfl, rfl, rfl, rfl, rfl, ?_⟩
  obtain ⟨q1, L1, en, h1, _, _, h4, h5, _⟩ := queue.push_spec (queue.init_inv (T := T) hN)
  refine ⟨q1, h1, ?_⟩
  simp only [queue.back, h4, h5]
  rfl

/-- C19, amended, at `N = 2`. -/
theorem C19_construction_cursors_witness :
    1 ≤ 2 ∧ (queue.init 2 : queue Nat).front = some (0, 0) ∧
      (queue.init 2 : queue Nat).end_slot = some (0, 0) ∧
      (queue.init 2 : queue Nat).back = none ∧
      ∃ q1, (queue.init 2 : queue Nat).push 2 = some q1 ∧ q1.back = some (0, 0) :=
  ⟨by decide, (C19_construction_cursors Nat 2 (by decide)).1,
    (C19_construction_cursors Nat 2 (by decide)).2.1,
    (C19_construction_cursors Nat 2 (by decide)).2.2.2.2.1,
    (C19_construction_cursors Nat 2 (by decide)).2.2.2.2.2⟩

/-! ## The order of the cursors -/

theorem slot_le_cons {M : List Nat} {c : Nat} (hc : c ∉ M) {a b : Nat × Nat}
    (h : slot_le M a b) : slot_le (c :: M) a b := by
  obtain ⟨ha, hb, h3⟩ := h
  have hac : c ≠ a.1 := fun e => hc (e ▸ ha)
  have hbc : c ≠ b.1 := fun e => hc (e ▸ hb)
  refine ⟨List.mem_cons_of_mem _ ha, List.mem_cons_of_mem _ hb, ?_⟩
  rcases h3 with h3 | h3
  · left
    rw [List.indexOf_cons_ne _ hac, List.indexOf_cons_ne _ hbc]
    exact Nat.succ_lt_succ h3
  · exact Or.inr h3

/-- Every slot between front and end comes after the front slot. -/
theorem slot_le_first {N : Nat} {c : Nat} {t : List Nat} {lo hi : Nat} (hhi : hi < N)
    (hc : c ∉ t) {a : Nat × Nat} (ha : a ∈ cells N (c :: t) lo hi) :
    slot_le (c :: t) (c, lo) a := by
  have hm := (mem_cells hhi ha).1
  refine ⟨by simp, hm, ?_⟩
  cases t with
  | nil =>
    simp only [cells, mem_seg] at ha
    exact Or.inr ⟨ha.1.symm, ha.2.1⟩
  | cons d t =>
    simp only [cells, List.mem_append, mem_seg] at ha
    rcases ha with ha | ha
    · exact Or.inr ⟨ha.1.symm, ha.2.1⟩
    · left
      have h1 := (mem_cells hhi ha).1
      have hne : c ≠ a.1 := fun e => hc (e ▸ h1)
      rw [List.indexOf_cons_self, List.indexOf_cons_ne _ hne]
      exact Nat.succ_pos _

/-- Every slot between front and end comes before the end slot. -/
theorem slot_le_end {N : Nat} {L : List Nat} {lo hi : Nat} (hne : L ≠ [])
    (hnd : L.Nodup) {a : Nat × Nat} (ha : a ∈ cells N L lo hi) :
    slot_le L a (L.getLast hne, hi) := by
  induction L generalizing lo with
  | nil => exact absurd rfl hne
  | cons c t ih =>
    cases t with
    | nil =>
      simp only [cells, mem_seg] at ha
      refine ⟨by simp [ha.1], by simp, Or.inr ⟨by simp [ha.1], by omega⟩⟩
    | cons d t =>
      have hc : c ∉ d :: t := (List.nodup_cons.1 hnd).1
      have hlast : (c :: d :: t).getLast hne = (d :: t).getLast (List.cons_ne_nil d t) :=
        List.getLast_cons (List.cons_ne_nil d t)
      rw [hlast]
      have hlm : (d :: t).getLast (List.cons_ne_nil d t) ∈ d :: t := List.getLast_mem _
      simp only [cells, List.mem_append, mem_seg] at ha
      rcases ha with ha | ha
      · refine ⟨by simp [ha.1], List.mem_cons_of_mem _ hlm, Or.inl ?_⟩
        have hne1 : c ≠ (d :: t).getLast (List.cons_ne_nil d t) := fun e => hc (e ▸ hlm)
        show List.indexOf a.1 (c :: d :: t) < List.indexOf _ (c :: d :: t)
        rw [ha.1, List.indexOf_cons_self, List.indexOf_cons_ne _ hne1]
        exact Nat.succ_pos _
      · exact slot_le_cons hc (ih (List.cons_ne_nil d t) (List.nodup_cons.1 hnd).2 ha)

/-- C16 as stated fails on the code: at `N = 2`, after `push` and `pop` (the
pop applied while the pushed slot is un-popped) the front slot is position `1`
and the back slot is position `0` of the same chunk, so begin ≤ back does not
hold. -/
theorem C16_begin_le_back_counterexample :
    pops_allowed 0 [qop.push, qop.pop] = true ∧
    ∃ q : queue Nat, queue.run 2 [qop.push, qop.pop] (queue.init 2) = some q ∧
      q.live_chunks = some [0] ∧ q.front = some (0, 1) ∧ q.back = some (0, 0) ∧
      q.end_slot = some (0, 1) ∧ ¬ slot_le [0] (0, 1) (0, 0) := by
  refine ⟨by decide, ?_⟩
  have e : (queue.run 2 [qop.push, qop.pop] (queue.init 2 : queue Nat)).map
      (fun x => (x.live_chunks, x.front, x.back, x.end_slot))
      = some (some [0], some (0, 1), some (0, 0), some (0, 1)) := by decide
  cases h : queue.run 2 [qop.push, qop.pop] (queue.init 2 : queue Nat) with
  | none =>
    rw [h] at e
    exact absurd e (by simp)
  | some q =>
    rw [h] at e
    simp only [Option.map_some', Option.some.injEq, Prod.mk.injEq] at e
    obtain ⟨e1, e2, e3, e4⟩ := e
    refine ⟨q, rfl, e1, e2, e3, e4, ?_⟩
    unfold slot_le
    decide

/-- C16, amended: in every queue state reached from construction by pushes and
allowed pops, begin ≤ end in the linear order of slots along the live chunk
list; while a pushed slot remains un-popped, back is a slot of the live list
with begin ≤ back ≤ end and back ≠ end; when every pushed slot has been
popped, begin and end are the same slot. -/
theorem C16_cursor_order (T : Type) (N : Nat) (hN : 1 ≤ N) (os : List qop)
    (ha : pops_allowed 0 os = true) :
    ∃ (q : queue T) (L : List Nat) (b e : Nat × Nat),
      queue.run N os (queue.init N) = some q ∧ q.live_chunks = some L ∧
      q.front = some b ∧ q.end_slot = some e ∧ slot_le L b e ∧
      (pops os < pushes os →
        ∃ k, q.back = some k ∧ slot_le L b k ∧ slot_le L k e ∧ k ≠ e) ∧
      (pops os = pushes os → b = e) := by
  obtain ⟨q, L, h1, h2⟩ := queue.run_init_count (T := T) hN os ha
  obtain ⟨c, t, hL, hfr, hsl⟩ := h2.inv.slots_head
  obtain ⟨e, he, heL, hlast⟩ := h2.inv.end_mem
  obtain ⟨e1, he1, hgl⟩ := h2.inv.slots_getLast
  have hee : e1 = e := by
    rw [he] at he1
    exact (Option.some.inj he1).symm
  rw [hee] at hgl
  have hnd := h2.inv.nodup
  have hct : c ∉ t := by
    rw [hL] at hnd
    exact (List.nodup_cons.1 hnd).1
  have hfirst : ∀ a, a ∈ q.slots N L → slot_le L (c, q._begin_pos) a := by
    intro a ha1
    unfold queue.slots at ha1
    rw [hL] at ha1 ⊢
    exact slot_le_first h2.inv.epos hct ha1
  have hend : ∀ a, a ∈ q.slots N L → slot_le L a (e, q._end_pos) := by
    intro a ha1
    rw [← hlast]
    exact slot_le_end h2.inv.hne hnd ha1
  have hem : (e, q._end_pos) ∈ q.slots N L := List.mem_of_mem_getLast? hgl
  refine ⟨q, L, (c, q._begin_pos), (e, q._end_pos), h1, h2.inv.live_chunks_eq, hfr,
    by simp only [queue.end_slot, he], hfirst _ hem, ?_, ?_⟩
  · intro hlt
    obtain ⟨pre, bk, en, g1, g2⟩ := h2.back hlt
    have hen : en = (e, q._end_pos) := by
      rw [g1] at hgl
      have e2 : pre ++ [bk, en] = (pre ++ [bk]) ++ [en] := by simp
      rw [e2, List.getLast?_append] at hgl
      simpa using hgl
    have hbm : bk ∈ q.slots N L := by rw [g1]; simp
    refine ⟨bk, g2, hfirst _ hbm, hend _ hbm, ?_⟩
    intro ebk
    have hnds := h2.inv.slots_nodup
    rw [g1, List.nodup_append] at hnds
    have hbe : bk = en := by rw [ebk, hen]
    have := hnds.2.1
    rw [hbe] at this
    simp at this
  · intro heq
    have hlen := h2.len
    have hl1 : (q.slots N L).length = 1 := by omega
    rw [hsl] at hl1 hgl
    simp only [List.length_cons] at hl1
    have hnil : cells N L (q._begin_pos + 1) q._end_pos = [] :=
      List.length_eq_zero.1 (by omega)
    rw [hnil] at hgl
    simpa using hgl

/-- C16, amended, at `N = 2`: after `push, push, push, pop` two pushed slots are
un-popped and begin ≤ back ≤ end. -/
theorem C16_cursor_order_witness :
    1 ≤ 2 ∧ pops_allowed 0 [qop.push, qop.push, qop.push, qop.pop] = true ∧
      ∃ (q : queue Nat) (L : List Nat) (b k e : Nat × Nat),
        queue.run 2 [qop.push, qop.push, qop.push, qop.pop] (queue.init 2) = some q ∧
        q.front = some b ∧ q.back = some k ∧ q.end_slot = some e ∧
        slot_le L b k ∧ slot_le L k e := by
  refine ⟨by decide, by decide, ?_⟩
  obtain ⟨q, L, b, e, h1, _, h3, h4, _, h6, _⟩ := C16_cursor_order Nat 2 (by decide)
    [qop.push, qop.push, qop.push, qop.pop] (by decide)
  obtain ⟨k, g1, g2, g3, _⟩ := h6 (by decide)
  exact ⟨q, L, b, k, e, h1, h3, g1, h4, g2, g3⟩

/-! ## Slot validity -/

/-- Along every sequence of operations from a state that satisfies the
invariant, the slot events are defined and keep slot validity; the slots stored
and not yet followed by a flush are the unpublished ones of `rd`, the slots
flushed and not yet read are the published ones. -/
theorem pipeline.events_disciplined {N : Nat} (os : List (op T)) {p : pipeline T} {a : view T}
    {L : List Nat} {rd : List (Nat × Nat)} {bk en : Nat × Nat} (h : pinv N p a L rd bk en) :
    ∃ es, pipeline.events N os p = some es ∧ disciplined (rd.drop a.k) (rd.take a.k) es := by
  induction os generalizing p a L rd bk en with
  | nil => exact ⟨[], rfl, trivial⟩
  | cons o os ih =>
    have hlen := h.len
    have hk := h.hk
    cases o with
    | write v =>
      obtain ⟨p1, L1, en1, w1, i1, _⟩ := pipeline.write_spec v h
      obtain ⟨es, g1, g2⟩ := ih i1
      have hkl : a.k ≤ rd.length := by omega
      have e1 : (rd ++ [bk]).drop a.k = rd.drop a.k ++ [bk] := List.drop_append_of_le_length hkl
      have e2 : (rd ++ [bk]).take a.k = rd.take a.k := List.take_append_of_le_length hkl
      have g2 : disciplined (rd.drop a.k ++ [bk]) (rd.take a.k) es := by
        have := g2
        simp only [e1, e2] at this
        exact this
      have hbk : bk ∉ rd := by
        have hnd := h.pre_nodup
        rw [List.nodup_append] at hnd
        intro hm
        exact hnd.2.2 hm (by simp)
      refine ⟨slot_event.stored bk :: es, ?_, ?_⟩
      · simp only [pipeline.events, pipeline.step, w1, g1, pipeline.event_of, h.hback,
          Option.toList_some, List.map_cons, List.map_nil, List.singleton_append]
      · exact ⟨fun hm => hbk (List.mem_of_mem_drop hm), fun hm => hbk (List.mem_of_mem_take hm), g2⟩
    | flush =>
      obtain ⟨_, i2, _⟩ := pipeline.flush_sim h
      obtain ⟨es, g1, g2⟩ := ih i2
      have ek : (a.step op.flush).2.k = rd.length := by
        simp only [view.step]
        split
        · next hk1 => rw [hlen]; exact hk1
        · rw [hlen]
      rw [ek, List.drop_length, List.take_length] at g2
      refine ⟨slot_event.published :: es, ?_, ?_⟩
      · simp only [pipeline.events, pipeline.step, g1, pipeline.event_of, List.singleton_append]
      · show disciplined [] (rd.take a.k ++ rd.drop a.k) es
        rw [List.take_append_drop]
        exact g2
    | check_read =>
      obtain ⟨p1, c1, i1, _⟩ := pipeline.check_read_spec h
      obtain ⟨es, g1, g2⟩ := ih i1
      refine ⟨es, ?_, g2⟩
      simp only [pipeline.events, pipeline.step, c1, g1, pipeline.event_of, List.nil_append]
    | read x =>
      cases hk0 : a.k with
      | zero =>
        obtain ⟨p1, c1, i1, _⟩ := pipeline.check_read_spec h
        have e1 : decide (0 < a.k) = false := by simp [hk0]
        rw [e1] at c1
        obtain ⟨es, g1, g2⟩ := ih i1
        refine ⟨es, ?_, ?_⟩
        · simp only [pipeline.events, pipeline.step, pipeline.read, c1, g1, pipeline.event_of,
            List.nil_append]
        · have : a.k = 0 := hk0
          simpa only [this] using g2
      | succ k =>
        obtain ⟨v, rest, s0, rd0, p3, L3, hp, hrd, r3, i3, _⟩ := pipeline.read_spec x h hk0
        obtain ⟨fr, hfr, h0⟩ := h.front
        have hfs : fr = s0 := by
          rw [hrd] at h0
          simp only [List.cons_append, List.getElem?_cons_zero, Option.some.injEq] at h0
          exact h0.symm
        obtain ⟨es, g1, g2⟩ := ih i3
        refine ⟨slot_event.loaded s0 :: es, ?_, ?_⟩
        · simp only [pipeline.events, pipeline.step, r3, g1, pipeline.event_of, hfr, hfs,
            Option.toList_some, List.map_cons, List.map_nil, List.singleton_append]
        · rw [hrd]
          simp only [List.drop_succ_cons, List.take_succ_cons]
          refine ⟨List.mem_cons_self _ _, ?_⟩
          rw [List.erase_cons_head]
          exact g2

/-- C14 (slot validity): for every sequence of operations on a fresh pipeline,
every operation is defined (so no read copies from a slot that was never
stored: such a load is undefined in the model) and the slot events keep slot
validity: every successful read copies from a slot that was stored by a write
which a flush has followed, and that was not read since (so never from an
unflushed slot or from a slot of a recycled chunk that was not rewritten), and
every write stores into a slot that holds no written-but-unread value. -/
theorem C14_slot_validity (T : Type) (N : Nat) (hN : 1 ≤ N) (os : List (op T)) :
    ∃ es, (pipeline.events_fresh N os : Option (List slot_event)) = some es ∧
      disciplined [] [] es := by
  obtain ⟨p0, L, bk, en, h1, h2, _⟩ := pipeline.init_spec (T := T) hN
  obtain ⟨es, g1, g2⟩ := pipeline.events_disciplined os h2
  refine ⟨es, ?_, ?_⟩
  · simp only [pipeline.events_fresh, h1, g1]
  · simpa [view.init] using g2

/-- C14 at `N = 1`, where every write moves to another chunk and chunks are
recycled through the spare slot: the slots stored and loaded in four rounds. -/
theorem C14_slot_validity_witness :
    1 ≤ 1 ∧ ∃ es, pipeline.events_fresh 1
        [op.write 1, op.flush, op.read 0, op.write 2, op.flush, op.read 0,
          op.write 3, op.flush, op.read 0, op.write 4, op.flush, op.read 0] = some es ∧
      disciplined [] [] es ∧
      es = [slot_event.stored (0, 0), slot_event.published, slot_event.loaded (0, 0),
            slot_event.stored (1, 0), slot_event.published, slot_event.loaded (1, 0),
            slot_event.stored (2, 0), slot_event.published, slot_event.loaded (2, 0),
            slot_event.stored (0, 0), slot_event.published, slot_event.loaded (0, 0)] := by
  refine ⟨by decide, ?_⟩
  obtain ⟨es, h1, h2⟩ := C14_slot_validity Nat 1 (by decide)
    [op.write 1, op.flush, op.read 0, op.write 2, op.flush, op.read 0,
      op.write 3, op.flush, op.read 0, op.write 4, op.flush, op.read 0]
  have e : pipeline.events_fresh 1
      [op.write 1, op.flush, op.read 0, op.write 2, op.flush, op.read 0,
        op.write 3, op.flush, op.read 0, op.write 4, op.flush, (op.read 0 : op Nat)]
      = some [slot_event.stored (0, 0), slot_event.published, slot_event.loaded (0, 0),
            slot_event.stored (1, 0), slot_event.published, slot_event.loaded (1, 0),
            slot_event.stored (2, 0), slot_event.published, slot_event.loaded (2, 0),
            slot_event.stored (0, 0), slot_event.published, slot_event.loaded (0, 0)] := by
    decide
  rw [e] at h1
  exact ⟨es, e.trans (by rw [Option.some.inj h1]), h2, (Option.some.inj h1).symm⟩

end kmt
